import Mathlib

/-!
# Bootchart collector: chunk buffer, dump protocol and reconstruction

A shallow embedding of `collector/output.c`: the chunk allocator and the
per-stream append cursor (`chunk_alloc`, `buffer_file_new`,
`buffer_file_append`), the retrying socket helpers (`read_all`, `write_all`),
the server side of the dump protocol (`collector_send_dump`,
`collector_handle`) and the client side (`collector_dump`).

Conventions of the embedding.

* `common.h` is not part of the sources at hand, so the three sizes it fixes
  are parameters: `W` is `sizeof c->dest_stream`, `C` is `sizeof c->data`,
  and the number of slots `sizeof bm->chunks / sizeof bm->chunks[0]` is the
  length of the list that models the slot array.
* A `Chunk *` is represented by the index of the slot that holds the chunk:
  `chunk_alloc` stores every chunk it allocates in exactly one slot and never
  overwrites a populated slot. A `NULL` slot is `none`.
* `size_t` and `unsigned long` quantities are natural numbers. The only
  subtraction on them, `sizeof data - length`, is exact whenever
  `length ≤ sizeof data`, which is proved below for every state the program
  reaches.
* `int` is 32 bits wide, two's complement (`toInt32`).
* The directory `output_path` of the client is a flat map from file names to
  contents. Where the client leaves the ground the C standard defines
  (`fwrite` on the `NULL` of a failed `fopen`, a read past the end of the
  received `Chunk`), the outcome is recorded as such (`Outcome.undefined`).
-/

namespace Bootchart

/-- One `char`. -/
abbrev Byte := Fin 256

/-- The `Chunk` record: stream name field, count of valid bytes, payload. -/
structure Chunk where
  dest_stream : List Byte
  length : Nat
  data : List Byte
deriving DecidableEq

/-- The `BufferMap` record: the slot array `chunks[]` and the high-water mark
`max_chunk`. -/
structure BufferMap where
  chunks : List (Option Chunk)
  max_chunk : Nat
deriving DecidableEq

/-- The `BufferFile` record. The `bm` field is implicit: every file refers to
the one map of the collector. `cur` is the slot index standing for the
`Chunk *`. -/
structure BufferFile where
  dest : List Byte
  cur : Nat
deriving DecidableEq

/-- The memory `chunk_alloc` works on: the map and the function-static
`overflowed` flag. -/
structure Mem where
  bm : BufferMap
  overflowed : Bool
deriving DecidableEq

/-- The bytes of a C string: everything before the first NUL. -/
def cstr (s : List Byte) : List Byte :=
  s.takeWhile (fun b => b ≠ 0)

/-- The content `strncpy (dst, src, n)` leaves in a field of `n` bytes: up to
`n` bytes of the string, padded with NULs; no terminator when the string has
`n` bytes or more. -/
def strncpy (n : Nat) (src : List Byte) : List Byte :=
  (cstr src).take n ++ List.replicate (n - ((cstr src).take n).length) 0

/-- The chunk `calloc (CHUNK_SIZE, 1)` followed by the `strncpy` and
`c->length = 0` of the allocation branch. -/
def freshChunk (W C : Nat) (dest : List Byte) : Chunk :=
  { dest_stream := strncpy W dest, length := 0, data := List.replicate C 0 }

/-- The store `c->length = 0` through the pointer held in slot `i`. -/
def resetLength (chunks : List (Option Chunk)) (i : Nat) : List (Option Chunk) :=
  match chunks[i]? with
  | some (some c) => chunks.set i (some { dest_stream := c.dest_stream, length := 0, data := c.data })
  | _ => chunks

/-- The function `chunk_alloc`: returns the new memory and the pointer (slot
index) of the chunk handed out. -/
def chunk_alloc (W C : Nat) (m : Mem) (dest : List Byte) : Mem × Nat :=
  if m.bm.max_chunk = m.bm.chunks.length then
    ({ bm := { chunks := resetLength m.bm.chunks (m.bm.max_chunk - 1),
               max_chunk := m.bm.max_chunk },
       overflowed := true },
     m.bm.max_chunk - 1)
  else
    ({ bm := { chunks := m.bm.chunks.set m.bm.max_chunk (some (freshChunk W C dest)),
               max_chunk := m.bm.max_chunk + 1 },
       overflowed := m.overflowed },
     m.bm.max_chunk)

/-- The function `buffer_file_new`. -/
def buffer_file_new (W C : Nat) (m : Mem) (output_fname : List Byte) : Mem × BufferFile :=
  let r := chunk_alloc W C m output_fname
  (r.1, { dest := output_fname, cur := r.2 })

/-- The content of the buffer `dst` after `memcpy (dst + off, src, n)` with
`n` the length of `src`. -/
def memcpy (dst : List Byte) (off : Nat) (src : List Byte) : List Byte :=
  dst.take off ++ src ++ dst.drop (off + src.length)

/-- The `memcpy (c->data + c->length, str, to_write)` and
`c->length += to_write` of one loop iteration. -/
def chunkWrite (c : Chunk) (src : List Byte) : Chunk :=
  { dest_stream := c.dest_stream,
    length := c.length + src.length,
    data := memcpy c.data c.length src }

/-- The do-while loop of `buffer_file_append`; `fuel` bounds the number of
iterations, `none` is a loop that has not finished within the bound or a
dereference of a `NULL` current chunk. -/
def buffer_file_append_loop (W C : Nat) :
    Nat → Mem → BufferFile → List Byte → Option (Mem × BufferFile)
  | 0, _, _, _ => none
  | fuel + 1, m, file, str =>
    match m.bm.chunks[file.cur]? with
    | some (some c) =>
      let to_write := min (C - c.length) str.length
      let c1 := chunkWrite c (str.take to_write)
      let m1 : Mem := { bm := { chunks := m.bm.chunks.set file.cur (some c1),
                                max_chunk := m.bm.max_chunk },
                        overflowed := m.overflowed }
      let rest := str.drop to_write
      let r : Mem × BufferFile :=
        if c1.length ≥ C then
          let a := chunk_alloc W C m1 file.dest
          (a.1, { dest := file.dest, cur := a.2 })
        else (m1, file)
      if rest.length > 0 then buffer_file_append_loop W C fuel r.1 r.2 rest
      else some r
    | _ => none

/-- The function `buffer_file_append`. Every iteration but possibly the first
consumes at least one byte, so `len + 1` iterations are enough whenever the
chunk capacity is positive. -/
def buffer_file_append (W C : Nat) (m : Mem) (file : BufferFile) (str : List Byte) :
    Option (Mem × BufferFile) :=
  buffer_file_append_loop W C (str.length + 1) m file str

/-- A zero-initialised `BufferMap` with `N` slots, and the initial value of
the static flag. -/
def Mem.empty (N : Nat) : Mem :=
  { bm := { chunks := List.replicate N none, max_chunk := 0 }, overflowed := false }

/-- A call the collection code makes on the buffer API. Files are named by
the order in which `buffer_file_new` returned them. -/
inductive Call where
  | new (output_fname : List Byte)
  | append (file : Nat) (str : List Byte)
deriving DecidableEq

/-- The collector: its memory and the `BufferFile`s handed out so far. -/
structure World where
  mem : Mem
  files : List BufferFile
deriving DecidableEq

/-- The collector before any call. -/
def World.empty (N : Nat) : World :=
  { mem := Mem.empty N, files := [] }

/-- Perform one call. An append through a handle that no `buffer_file_new`
has returned is not a call the program can make and is given no effect. -/
def World.call (W C : Nat) (w : World) : Call → Option World
  | Call.new name =>
    let r := buffer_file_new W C w.mem name
    some { mem := r.1, files := w.files ++ [r.2] }
  | Call.append k str =>
    match w.files[k]? with
    | none => some w
    | some file =>
      match buffer_file_append W C w.mem file str with
      | none => none
      | some r => some { mem := r.1, files := w.files.set k r.2 }

/-- Perform a sequence of calls, first to last. -/
def World.run (W C : Nat) : World → List Call → Option World
  | w, [] => some w
  | w, c :: cs =>
    match World.call W C w c with
    | none => none
    | some w1 => World.run W C w1 cs

/-! ## Record layout and the socket -/

/-- Conversion of a byte count to `int` (32 bits, two's complement), as done
by `return total` in `read_all` and `write_all`. -/
def toInt32 (n : Nat) : Int :=
  if n % 2 ^ 32 < 2 ^ 31 then ((n % 2 ^ 32 : Nat) : Int)
  else ((n % 2 ^ 32 : Nat) : Int) - 2 ^ 32

/-- The `n` bytes of an unsigned integer in native (little-endian) order. -/
def leBytes : Nat → Nat → List Byte
  | 0, _ => []
  | n + 1, v => (⟨v % 256, Nat.mod_lt v (by decide)⟩ : Byte) :: leBytes n (v / 256)

/-- The unsigned integer stored in a run of bytes, native (little-endian)
order. -/
def leValue : List Byte → Nat
  | [] => 0
  | b :: bs => b.val + 256 * leValue bs

/-- Modelled from the spec: the layout of `Chunk`, declared in `common.h`
which is not among the sources: the stream-name field, the length field
(an `unsigned long`, 8 bytes) and the fixed-capacity data field. This is
`sizeof (Chunk)`. -/
def sizeofChunk (W C : Nat) : Nat := W + 8 + C

/-- Modelled from the spec: the memory image of a `Chunk` (layout of
`common.h`, not among the sources): name field, length field, data field,
the unused tail of `data` included. -/
def chunkImage (c : Chunk) : List Byte :=
  c.dest_stream ++ leBytes 8 c.length ++ c.data

/-- Modelled from the spec: the `Chunk` whose memory image is given (layout
of `common.h`, not among the sources). -/
def chunkOfImage (W C : Nat) (img : List Byte) : Chunk :=
  { dest_stream := img.take W,
    length := leValue ((img.drop W).take 8),
    data := (img.drop (W + 8)).take C }

/-- The fields of `Arguments` the dump protocol uses. -/
structure Arguments where
  relative_time : Nat
deriving DecidableEq

/-- Modelled from the spec: the `DaemonFlags` record of `common.h` (not among
the sources), a small fixed-size record holding the relative-timestamps
flag. -/
structure DaemonFlags where
  relative_time : Nat
deriving DecidableEq

/-- Modelled from the spec: the memory image of `DaemonFlags`, one `int`. -/
def flagsImage (df : DaemonFlags) : List Byte := leBytes 4 df.relative_time

/-- Modelled from the spec: `sizeof (DaemonFlags)`. -/
def sizeofFlags : Nat := 4

/-- The command code `CMD_DUMP_AND_EXIT`. -/
def CMD_DUMP_AND_EXIT : Nat := 1

/-- What one call of `read (fd, buf, len)` meets on the socket: a segment of
queued bytes, of which the call takes at most `len` and leaves the rest
queued (an empty segment is end of stream: the call returns 0); a signal
(`EINTR`); any other error. -/
inductive ReadEv where
  | seg (bs : List Byte)
  | eintr
  | err
deriving DecidableEq

/-- How one call of `write (fd, buf, len)` on a valid buffer is served: the
peer takes up to `k` bytes; a signal (`EINTR`); any other error. -/
inductive WriteEv where
  | took (k : Nat)
  | eintr
  | err
deriving DecidableEq

/-- One end of a connected socket: what the coming `read` calls will meet,
how the coming `write` calls will be served (once this list is used up every
write is taken whole), the bytes sent so far, and whether `close` was
called. A `read` with nothing left to meet blocks for ever. -/
structure Conn where
  rx : List ReadEv
  tx : List WriteEv
  sent : List Byte
  closed : Bool
deriving DecidableEq

/-- Put the part of a segment that a `read` did not take back at the head of
the queue. -/
def requeue (bs : List Byte) (rx : List ReadEv) : List ReadEv :=
  if bs.length = 0 then rx else ReadEv.seg bs :: rx

/-- The loop of `read_all`: `len` bytes are still wanted, `total` have been
stored, `buf` is the content of the whole destination buffer. The result is
the `int` returned, the buffer, and the socket queue left; `none` when a
`read` blocks for ever. The loop test after a `read` that completes the
record is evaluated in place. -/
def read_all_loop : List ReadEv → Nat → Nat → List Byte → Option (Int × List Byte × List ReadEv)
  | [], len, total, buf => if len = 0 then some (toInt32 total, buf, []) else none
  | ev :: rx, len, total, buf =>
    if len = 0 then some (toInt32 total, buf, ev :: rx)
    else
      match ev with
      | ReadEv.eintr => read_all_loop rx len total buf
      | ReadEv.err => some (-1, buf, rx)
      | ReadEv.seg bs =>
        let n := min bs.length len
        if n = 0 then some (if total ≠ 0 then -1 else 0, buf, ReadEv.seg bs :: rx)
        else if len - n = 0 then
          some (toInt32 (total + n), memcpy buf total (bs.take n), requeue (bs.drop n) rx)
        else read_all_loop rx (len - n) (total + n) (memcpy buf total (bs.take n))

/-- The function `read_all (fd, buf, len)`; `buf` is the content of the
destination before the call. -/
def read_all (rx : List ReadEv) (buf : List Byte) (len : Nat) :
    Option (Int × List Byte × List ReadEv) :=
  read_all_loop rx len 0 buf

/-- The loop of `write_all` on a valid buffer: `buf` is what is still to be
written, `total` the count written. The result is the `int` returned, the
service list left and the bytes sent. -/
def write_all_loop : List WriteEv → List Byte → Nat → List Byte → Int × List WriteEv × List Byte
  | [], buf, total, sent => (toInt32 (total + buf.length), [], sent ++ buf)
  | ev :: tx, buf, total, sent =>
    if buf.length = 0 then (toInt32 total, ev :: tx, sent)
    else
      match ev with
      | WriteEv.eintr => write_all_loop tx buf total sent
      | WriteEv.err => (-1, tx, sent)
      | WriteEv.took k =>
        write_all_loop tx (buf.drop k) (total + min k buf.length) (sent ++ buf.take k)

/-- The function `write_all (fd, buf, len)` for the `len > 0` of its call
sites; `buf` is the `len` bytes at the buffer address, or `none` for a `NULL`
buffer, which `write` refuses with `EFAULT` before anything is sent. -/
def write_all (conn : Conn) : Option (List Byte) → Int × Conn
  | none => (-1, conn)
  | some buf =>
    let r := write_all_loop conn.tx buf 0 conn.sent
    (r.1, { rx := conn.rx, tx := r.2.1, sent := r.2.2, closed := conn.closed })

/-- The function `collector_send_dump`: one `write_all` per slot of the
array, populated or not, in index order. -/
def collector_send_dump (conn : Conn) (bm : BufferMap) : Conn :=
  bm.chunks.foldl (fun cn slot => (write_all cn (slot.map chunkImage)).2) conn

/-- The call `close (fd)`. -/
def Conn.close (conn : Conn) : Conn :=
  { rx := conn.rx, tx := conn.tx, sent := conn.sent, closed := true }

/-- The function `collector_handle`. `incoming` is what `accept` yields
(`none` when it fails), `cmd0` the indeterminate content of the automatic
variable `cmd` before `read_all` stores into it. The result is the value
returned and the connection as left; `none` when the read of the command
blocks for ever. -/
def collector_handle (incoming : Option Conn) (bm : BufferMap) (args : Arguments)
    (cmd0 : List Byte) : Option (Int × Option Conn) :=
  match incoming with
  | none => some (-1, none)
  | some conn =>
    match read_all conn.rx cmd0 4 with
    | none => none
    | some (r, cmd, rx1) =>
      let conn1 : Conn := { rx := rx1, tx := conn.tx, sent := conn.sent, closed := conn.closed }
      if r < 0 then some (0, some conn1.close)
      else if leValue cmd = CMD_DUMP_AND_EXIT then
        let conn2 := (write_all conn1 (some (flagsImage { relative_time := args.relative_time }))).2
        let conn3 := collector_send_dump conn2 bm
        some (1, some conn3.close)
      else some (0, some conn1.close)

/-- The output directory `output_path`: the names of its files with their
contents. The directory is taken to exist, to be writable and to hold regular
files only. -/
abbrev Dir := List (List Byte × List Byte)

/-- The content of a file of the directory, if it exists. -/
def Dir.content (d : Dir) (name : List Byte) : Option (List Byte) :=
  (d.find? (fun e => e.1 = name)).map (fun e => e.2)

/-- The calls `fwrite (..., out)` and `fclose (out)` on a stream that
`fopen (fname, "a+")` opened on the file `name` of the directory: append to
the file, which is created when absent. -/
def Dir.appendTo : Dir → List Byte → List Byte → Dir
  | [], name, bytes => [(name, bytes)]
  | e :: d, name, bytes =>
    if e.1 = name then (e.1, e.2 ++ bytes) :: d else e :: Dir.appendTo d name bytes

/-- Behaviour the C standard leaves undefined, where the client stops being
described by its source: `fwrite` and `fclose` on the `NULL` stream of a
failed `fopen`, and a read that runs past the end of the object `c`. -/
inductive Fault where
  | null_stream
  | past_object
deriving DecidableEq

/-- How a call ends when all its reads are served: it returns, or it runs
into undefined behaviour. -/
inductive Outcome (α : Type) where
  | returned (a : α)
  | undefined (f : Fault)
deriving DecidableEq

/-- The string `%s` prints for `c.dest_stream`, given the memory image of the
whole object `c`, which starts with that field: the bytes before the first
NUL, found beyond the field when the field holds none; `none` when `c` holds
no NUL at all and the read runs past its end. -/
def printed (img : List Byte) : Option (List Byte) :=
  if (0 : Byte) ∈ img then some (cstr img) else none

/-- The string `snprintf (fname, n, ...)` stores, given the formatted text:
at most `n - 1` bytes of it. -/
def snprintf (n : Nat) (text : List Byte) : List Byte := text.take (n - 1)

/-- A name under which a regular file can be opened or created in a
directory: not empty, not `.` or `..`, no slash inside, no longer than the
limit `NAME_MAX` of the file system. -/
def PlainName (NAME_MAX : Nat) (name : List Byte) : Prop :=
  name ≠ [] ∧ name ≠ [46] ∧ name ≠ [46, 46] ∧ (47 : Byte) ∉ name ∧ name.length ≤ NAME_MAX

instance (NAME_MAX : Nat) (name : List Byte) : Decidable (PlainName NAME_MAX name) := by
  unfold PlainName; infer_instance

/-- The call `fopen (fname, "a+")`: the name of the file of `output_path`
that is opened, or `none` for `NULL`. The call fails when `fname` is not
`output_path`, a slash and a plain name: the path was cut inside
`output_path`, the name is empty, `.` or `..` (a directory), is too long for
the file system, or has a slash and so leads out of the flat directory
modelled here. -/
def fopen (NAME_MAX : Nat) (output_path fname : List Byte) : Option (List Byte) :=
  if fname.take (output_path.length + 1) = output_path ++ [47] ∧
      PlainName NAME_MAX (fname.drop (output_path.length + 1)) then
    some (fname.drop (output_path.length + 1))
  else none

/-- A bound on the number of records a socket queue can still yield: every
record read takes bytes off the queue. -/
def rxWeight : List ReadEv → Nat
  | [] => 0
  | ReadEv.seg bs :: rx => bs.length + 1 + rxWeight rx
  | _ :: rx => 1 + rxWeight rx

/-- The `while ((r = read_all (fd, &c, sizeof c)) > 0)` loop of
`collector_dump`; `fuel` bounds the number of iterations, `PATH_MAX` is
`sizeof fname`. The content of `c` before a `read_all` is immaterial: a
positive result means the whole record was stored. `%s` reads the name from
the start of `c`; `fopen` is not tested for `NULL`, so a failed `fopen` ends
in `fwrite` on a `NULL` stream; `fwrite` reads `c.length` bytes from
`c.data`, past the end of `c` when `c.length` exceeds the capacity. The
result is the last `r`, the socket queue and the directory; `none` when a
`read` blocks for ever or the bound is used up. -/
def collector_dump_loop (W C PATH_MAX NAME_MAX : Nat) (output_path : List Byte) :
    Nat → List ReadEv → Dir → Option (Outcome (Int × List ReadEv × Dir))
  | 0, _, _ => none
  | fuel + 1, rx, dir =>
    match read_all rx (List.replicate (sizeofChunk W C) 0) (sizeofChunk W C) with
    | none => none
    | some (r, img, rx1) =>
      if r > 0 then
        match printed img with
        | none => some (Outcome.undefined Fault.past_object)
        | some name =>
          match fopen NAME_MAX output_path
              (snprintf (PATH_MAX - 1) (output_path ++ 47 :: name)) with
          | none => some (Outcome.undefined Fault.null_stream)
          | some file =>
            if (chunkOfImage W C img).length ≤ C then
              collector_dump_loop W C PATH_MAX NAME_MAX output_path fuel rx1
                (dir.appendTo file
                  ((chunkOfImage W C img).data.take (chunkOfImage W C img).length))
            else some (Outcome.undefined Fault.past_object)
      else some (Outcome.returned (r, rx1, dir))

/-- The function `collector_dump`. `outgoing` is the connected socket
(`none` when `socket` or `connect` fails), `df` the content of the flags
record of the caller before the call, `dir` the content of `output_path`.
The result is the value returned, the flags record, the directory and the
connection; `none` when a `read` blocks for ever. -/
def collector_dump (W C PATH_MAX NAME_MAX : Nat) (output_path : List Byte)
    (outgoing : Option Conn) (df : List Byte) (dir : Dir) :
    Option (Outcome (Int × List Byte × Dir × Option Conn)) :=
  match outgoing with
  | none => some (Outcome.returned (-1, df, dir, none))
  | some conn =>
    let w := write_all conn (some (leBytes 4 CMD_DUMP_AND_EXIT))
    if w.1 < 0 then some (Outcome.returned (-1, df, dir, some w.2.close))
    else
      match read_all w.2.rx df sizeofFlags with
      | none => none
      | some (r, df1, rx1) =>
        let conn1 : Conn := { rx := rx1, tx := w.2.tx, sent := w.2.sent, closed := w.2.closed }
        if r < 0 then some (Outcome.returned (-1, df1, dir, some conn1.close))
        else
          match collector_dump_loop W C PATH_MAX NAME_MAX output_path
              (rxWeight rx1 + 1) rx1 dir with
          | none => none
          | some (Outcome.undefined f) => some (Outcome.undefined f)
          | some (Outcome.returned (r2, rx2, dir2)) =>
            let conn2 : Conn := { rx := rx2, tx := conn1.tx, sent := conn1.sent, closed := conn1.closed }
            if r2 < 0 then some (Outcome.returned (-1, df1, dir2, some conn2.close))
            else some (Outcome.returned (0, df1, dir2, some conn2.close))

/-- The queue `rx` hands over exactly the bytes `out`, in any segmentation and
with any number of interruptions, and then signals end of stream. -/
def Delivers : List ReadEv → List Byte → Prop
  | [], _ => False
  | ReadEv.eintr :: rx, out => Delivers rx out
  | ReadEv.err :: _, _ => False
  | ReadEv.seg bs :: rx, out =>
    if bs.length = 0 then out = []
    else bs = out.take bs.length ∧ Delivers rx (out.drop bs.length)

/-- Perform a list of allocation requests; returns the final memory and the
pointers handed out, first to last. -/
def allocs (W C : Nat) : Mem → List (List Byte) → Mem × List Nat
  | m, [] => (m, [])
  | m, d :: ds =>
    let a := chunk_alloc W C m d
    let r := allocs W C a.1 ds
    (r.1, a.2 :: r.2)

/-! ## Auxiliary definitions used in the statements and proofs -/

/-- The chunk after the store `c->length = 0`. -/
def Chunk.reset (c : Chunk) : Chunk :=
  { dest_stream := c.dest_stream, length := 0, data := c.data }

/-- The valid bytes of a chunk, `data[0..length)`. -/
def Chunk.payload (c : Chunk) : List Byte := c.data.take c.length

/-- The map whose first slots hold the chunks `pop`, in order, and whose
remaining `k` slots are `NULL`. -/
def BufferMap.ofPop (pop : List Chunk) (k : Nat) : BufferMap :=
  { chunks := pop.map some ++ List.replicate k none, max_chunk := pop.length }

/-- The chunks of the populated slots `[0, max_chunk)`, in slot order. -/
def BufferMap.populated (bm : BufferMap) : List Chunk :=
  (bm.chunks.take bm.max_chunk).reduceOption

/-- One iteration of the do-while loop of `buffer_file_append`: the state
after the body and the input still to be consumed. -/
def append_iter (W C : Nat) (m : Mem) (file : BufferFile) (str : List Byte) :
    Option (Mem × BufferFile × List Byte) :=
  match m.bm.chunks[file.cur]? with
  | some (some c) =>
    let to_write := min (C - c.length) str.length
    let c1 := chunkWrite c (str.take to_write)
    let m1 : Mem := { bm := { chunks := m.bm.chunks.set file.cur (some c1),
                              max_chunk := m.bm.max_chunk },
                      overflowed := m.overflowed }
    if c1.length ≥ C then
      some ((chunk_alloc W C m1 file.dest).1,
        { dest := file.dest, cur := (chunk_alloc W C m1 file.dest).2 }, str.drop to_write)
    else some (m1, file, str.drop to_write)
  | _ => none

/-- The shape every reachable collector has: the first `max_chunk` slots are
populated, the others `NULL`, there are `N` slots, no chunk holds more than
`C` valid bytes, every file points to a populated slot. -/
def WorldOK (C N : Nat) (w : World) : Prop :=
  ∃ pop k, w.mem.bm = BufferMap.ofPop pop k ∧ pop.length + k = N ∧
    (∀ c ∈ pop, c.length ≤ C) ∧ ∀ f ∈ w.files, f.cur < pop.length

/-- The bytes a socket queue hands over before anything other than data or
an interruption happens: the non-empty segments up to the first end of
stream, error, or exhaustion of the queue, interruptions skipped. -/
def delivered : List ReadEv → List Byte
  | [] => []
  | ReadEv.eintr :: rx => delivered rx
  | ReadEv.err :: _ => []
  | ReadEv.seg [] :: _ => []
  | ReadEv.seg (a :: as) :: rx => (a :: as) ++ delivered rx

/-- What ends the data of a socket queue. -/
inductive Stop where
  | endOfStream
  | error
  | blocked
deriving DecidableEq

/-- The event that follows the delivered bytes of a socket queue. -/
def stopOf : List ReadEv → Stop
  | [] => Stop.blocked
  | ReadEv.eintr :: rx => stopOf rx
  | ReadEv.err :: _ => Stop.error
  | ReadEv.seg [] :: _ => Stop.endOfStream
  | ReadEv.seg (_ :: _) :: rx => stopOf rx

/-- The record framing rule in the words of the specification: the value a
framed read of `len` bytes reports. `len` when the whole record arrives
(interruptions are retried), `0` when the stream ends before any byte of the
record, `-1` when it ends inside the record or an error other than an
interruption occurs; nothing while the peer keeps the connection open without
sending the rest. -/
def read_all_spec (rx : List ReadEv) (len : Nat) : Option Int :=
  if len ≤ (delivered rx).length then some (len : Int)
  else
    match stopOf rx with
    | Stop.endOfStream => if delivered rx = [] then some 0 else some (-1)
    | Stop.error => some (-1)
    | Stop.blocked => none

/-- A stream name that fits the `dest_stream` field with its terminator: no
NUL inside and fewer than `W` bytes. -/
def Fits (W : Nat) (name : List Byte) : Prop :=
  name.length < W ∧ (0 : Byte) ∉ name

instance (W : Nat) (name : List Byte) : Decidable (Fits W name) := by
  unfold Fits; infer_instance

/-- The invariant behind the stream tag of the current chunk: the map is a
run of populated slots followed by `NULL`s, `N` slots in all, every file
points into the populated part, and a file points to a chunk tagged with its
own name as long as `chunk_alloc` has never overflowed or the chunk is not in
the last slot. -/
def TagQ (W N : Nat) (_ : Nat → List Byte) (m : Mem) (files : List BufferFile) : Prop :=
  ∃ pop k, m.bm = BufferMap.ofPop pop k ∧ pop.length + k = N ∧
    (∀ f ∈ files, f.cur < pop.length) ∧
    (∀ f ∈ files, m.overflowed = false ∨ f.cur + 1 < N →
      ∃ c, pop[f.cur]? = some c ∧ c.dest_stream = strncpy W f.dest)

/-- The valid bytes of the chunks tagged `tag`, in slot order. -/
def streamBytes (pop : List Chunk) (tag : List Byte) : List Byte :=
  (pop.filter (fun c => c.dest_stream = tag)).flatMap Chunk.payload

/-- What holds of the populated chunks `pop` and the files as long as
`chunk_alloc` has never overflowed; `g i` is what has been appended so far to
the `i`-th file. The names of the files fit the name field and are pairwise
distinct; the current chunk of a file is the last chunk tagged with its name;
every chunk has fields of the declared sizes and is tagged with the name of
some file; the valid bytes of the chunks of a file, in slot order, are the
bytes appended to it. -/
structure CoreP (W C : Nat) (pop : List Chunk) (files : List BufferFile)
    (g : Nat → List Byte) : Prop where
  fits : ∀ f ∈ files, Fits W f.dest
  uniq : ∀ (i j : Nat) (fi fj : BufferFile), files[i]? = some fi → files[j]? = some fj →
    fi.dest = fj.dest → i = j
  tag : ∀ (i : Nat) (f : BufferFile), files[i]? = some f →
    ∃ c, pop[f.cur]? = some c ∧ c.dest_stream = strncpy W f.dest
  last : ∀ (i : Nat) (f : BufferFile), files[i]? = some f →
    ∀ (n : Nat) (c : Chunk), f.cur < n → pop[n]? = some c → c.dest_stream ≠ strncpy W f.dest
  shape : ∀ c ∈ pop, c.dest_stream.length = W ∧ c.data.length = C ∧ c.length ≤ C
  owned : ∀ c ∈ pop, ∃ f ∈ files, c.dest_stream = strncpy W f.dest
  bytes : ∀ (i : Nat) (f : BufferFile), files[i]? = some f →
    streamBytes pop (strncpy W f.dest) = g i
  blank : ∀ i, files.length ≤ i → g i = []

/-- The invariant behind the round trip: the map is a run of populated slots
followed by `NULL`s, `N` slots in all, every file points into the populated
part, the files carry the names `names` in order of creation, and `CoreP`
holds as long as `chunk_alloc` has never overflowed. -/
def CoreQ (W C N : Nat) (names : List (List Byte)) (g : Nat → List Byte) (m : Mem)
    (files : List BufferFile) : Prop :=
  ∃ pop k, m.bm = BufferMap.ofPop pop k ∧ pop.length + k = N ∧
    (∀ f ∈ files, f.cur < pop.length) ∧
    files.map (fun f => f.dest) = names ∧
    (m.overflowed = false → CoreP W C pop files g)

/-- The log the specification keeps of a call: the number of files created
so far and, for each file, the bytes appended to it so far, in append order.
An append through a handle not yet handed out is no call of the program and
is not logged. -/
def record (st : Nat × (Nat → List Byte)) : Call → Nat × (Nat → List Byte)
  | Call.new _ => (st.1 + 1, st.2)
  | Call.append j s => if j < st.1 then (st.1, Function.update st.2 j (st.2 j ++ s)) else st

/-- The bytes appended to the `i`-th file by a sequence of calls, in append
order. -/
def appended (calls : List Call) (i : Nat) : List Byte :=
  (calls.foldl record (0, fun _ => [])).2 i

/-- The stream names of the `buffer_file_new` calls of a sequence, in
order. -/
def newNames : List Call → List (List Byte)
  | [] => []
  | Call.new name :: cs => name :: newNames cs
  | Call.append _ _ :: cs => newNames cs

/-- The directory the client builds from the chunks it receives, in order:
each chunk appends its valid bytes to the file named by its stream. -/
def Dir.receive (d : Dir) (pop : List Chunk) : Dir :=
  pop.foldl (fun dir c => dir.appendTo (cstr c.dest_stream) c.payload) d

/-- The valid bytes of the chunks whose stream name reads `name`, in slot
order: what the client writes to the file `name`. -/
def fileBytes (pop : List Chunk) (name : List Byte) : List Byte :=
  (pop.filter (fun c => cstr c.dest_stream = name)).flatMap Chunk.payload

/-- The invariant of a map written through a single file of name `name`;
`g 0` is what has been appended so far. The populated chunks are `full`
followed by the current chunk `last`. `e` counts the times a chunk has been
filled, so `g 0` has `e * C` bytes plus those in `last`. Every chunk of `full`
is full and together they hold the first bytes appended; `last` holds the
bytes after the `e`-th chunk boundary. As long as a spare slot is left, and
exactly as long as `chunk_alloc` has not overflowed, no filled chunk has been
discarded: `e` is the number of chunks of `full`. -/
def SingleQ (W C N : Nat) (name : List Byte) (g : Nat → List Byte) (m : Mem)
    (files : List BufferFile) : Prop :=
  ∃ full last k e, m.bm = BufferMap.ofPop (full ++ [last]) k ∧
    full.length + 1 + k = N ∧
    files = [{ dest := name, cur := full.length }] ∧
    (g 0).length = e * C + last.length ∧
    last.length < C ∧
    full.length ≤ e ∧
    (0 < k → e = full.length) ∧
    (m.overflowed = false ↔ e = full.length) ∧
    full.flatMap Chunk.payload = (g 0).take (full.length * C) ∧
    last.payload = (g 0).drop (e * C) ∧
    (∀ c ∈ full, c.length = C) ∧
    (∀ c ∈ full ++ [last], c.dest_stream = strncpy W name ∧ c.data.length = C)

/-- What holds of the populated chunks `pop` and the files at all times,
overflow included; `g i` is what has been appended so far to the `i`-th file
and `N` the number of slots. The names of the files fit the name field and
are pairwise distinct, and every chunk is tagged with the name of some file.
A file whose current chunk is not in the last slot behaves as if the map had
never overflowed: its current chunk is the last chunk tagged with its name
and the chunks tagged with its name hold exactly what was appended to it. For
a file whose current chunk is the last slot, the chunks tagged with its name
in the slots before the last hold the first bytes appended to it. -/
structure PreP (W C N : Nat) (pop : List Chunk) (files : List BufferFile)
    (g : Nat → List Byte) : Prop where
  bound : ∀ f ∈ files, f.cur < pop.length
  room : pop.length ≤ N
  fits : ∀ f ∈ files, Fits W f.dest
  uniq : ∀ (i j : Nat) (fi fj : BufferFile), files[i]? = some fi → files[j]? = some fj →
    fi.dest = fj.dest → i = j
  shape : ∀ c ∈ pop, c.data.length = C ∧ c.length ≤ C
  owned : ∀ c ∈ pop, ∃ f ∈ files, c.dest_stream = strncpy W f.dest
  tag : ∀ (i : Nat) (f : BufferFile), files[i]? = some f → f.cur + 1 < N →
    ∃ c, pop[f.cur]? = some c ∧ c.dest_stream = strncpy W f.dest
  last : ∀ (i : Nat) (f : BufferFile), files[i]? = some f → f.cur + 1 < N →
    ∀ (n : Nat) (c : Chunk), f.cur < n → pop[n]? = some c → c.dest_stream ≠ strncpy W f.dest
  bytes : ∀ (i : Nat) (f : BufferFile), files[i]? = some f → f.cur + 1 < N →
    streamBytes pop (strncpy W f.dest) = g i
  frozen : ∀ (i : Nat) (f : BufferFile), files[i]? = some f → N ≤ f.cur + 1 →
    ∃ rest, g i = streamBytes (pop.take (N - 1)) (strncpy W f.dest) ++ rest
  blank : ∀ i, files.length ≤ i → g i = []

/-- The invariant behind the behaviour under overflow: the map is a run of
populated slots followed by `NULL`s, `N` slots in all, the files carry the
names `names` in order of creation, and `PreP` holds. -/
def PreQ (W C N : Nat) (names : List (List Byte)) (g : Nat → List Byte) (m : Mem)
    (files : List BufferFile) : Prop :=
  ∃ pop k, m.bm = BufferMap.ofPop pop k ∧ pop.length + k = N ∧
    files.map (fun f => f.dest) = names ∧ PreP W C N pop files g

/-! ## Lemmas on the allocator -/

theorem resetLength_length (chunks : List (Option Chunk)) (i : Nat) :
    (resetLength chunks i).length = chunks.length := by
  unfold resetLength
  split <;> simp

theorem resetLength_getElem?_ne (chunks : List (Option Chunk)) (i j : Nat) (h : j ≠ i) :
    (resetLength chunks i)[j]? = chunks[j]? := by
  unfold resetLength
  split
  · rw [List.getElem?_set_ne (Ne.symm h)]
  · rfl

theorem resetLength_getElem?_eq (chunks : List (Option Chunk)) (i : Nat) (c : Chunk)
    (h : chunks[i]? = some (some c)) :
    (resetLength chunks i)[i]? =
      some (some { dest_stream := c.dest_stream, length := 0, data := c.data }) := by
  unfold resetLength
  rw [h]
  have hi : i < chunks.length := by
    rcases Nat.lt_or_ge i chunks.length with h1 | h1
    · exact h1
    · rw [List.getElem?_eq_none h1] at h; cases h
  simp [List.getElem?_set_self hi]

theorem chunk_alloc_full (W C : Nat) (m : Mem) (dest : List Byte)
    (hfull : m.bm.max_chunk = m.bm.chunks.length) :
    chunk_alloc W C m dest =
      ({ bm := { chunks := resetLength m.bm.chunks (m.bm.chunks.length - 1),
                 max_chunk := m.bm.chunks.length },
         overflowed := true }, m.bm.chunks.length - 1) := by
  unfold chunk_alloc
  rw [if_pos hfull, hfull]

theorem allocs_full (W C : Nat) (ds : List (List Byte)) :
    ∀ (m : Mem) (d : List Byte) (c : Chunk),
      m.bm.max_chunk = m.bm.chunks.length →
      m.bm.chunks[m.bm.chunks.length - 1]? = some (some c) →
      (allocs W C m (d :: ds)).1.bm.max_chunk = m.bm.chunks.length ∧
      (allocs W C m (d :: ds)).1.bm.chunks.length = m.bm.chunks.length ∧
      (allocs W C m (d :: ds)).2 = List.replicate (ds.length + 1) (m.bm.chunks.length - 1) ∧
      (allocs W C m (d :: ds)).1.bm.chunks[m.bm.chunks.length - 1]? =
        some (some { dest_stream := c.dest_stream, length := 0, data := c.data }) ∧
      ∀ i, i ≠ m.bm.chunks.length - 1 →
        (allocs W C m (d :: ds)).1.bm.chunks[i]? = m.bm.chunks[i]? := by
  induction ds with
  | nil =>
    intro m d c hfull hlast
    simp only [allocs, chunk_alloc_full W C m d hfull, List.length_nil, Nat.zero_add,
      List.replicate_one, resetLength_length, true_and]
    exact ⟨resetLength_getElem?_eq _ _ c hlast, fun i hi => resetLength_getElem?_ne _ _ _ hi⟩
  | cons d2 ds ih =>
    intro m d c hfull hlast
    have h1 := chunk_alloc_full W C m d hfull
    have hstep : allocs W C m (d :: d2 :: ds) =
        ((allocs W C (chunk_alloc W C m d).1 (d2 :: ds)).1,
          (chunk_alloc W C m d).2 :: (allocs W C (chunk_alloc W C m d).1 (d2 :: ds)).2) := rfl
    rw [hstep, h1]
    simp only []
    have ih2 := ih (chunk_alloc W C m d).1 d2
         { dest_stream := c.dest_stream, length := 0, data := c.data }
         (by rw [h1]; simp [resetLength_length])
         (by rw [h1]; simp only [resetLength_length]; exact resetLength_getElem?_eq _ _ c hlast)
    rw [h1] at ih2
    simp only [resetLength_length] at ih2
    obtain ⟨a1, a2, a3, a4, a5⟩ := ih2
    refine ⟨a1, a2, ?_, a4, ?_⟩
    · simp only [a3, List.length_cons, List.replicate_succ]
    · intro i hi
      rw [a5 i hi, resetLength_getElem?_ne _ _ _ hi]

/-! ## The populated part of the map -/

theorem loop_succ (W C fuel : Nat) (m : Mem) (file : BufferFile) (str : List Byte) :
    buffer_file_append_loop W C (fuel + 1) m file str =
      match append_iter W C m file str with
      | none => none
      | some (m1, f1, rest) =>
        if rest.length > 0 then buffer_file_append_loop W C fuel m1 f1 rest
        else some (m1, f1) := by
  conv_lhs => rw [buffer_file_append_loop]
  unfold append_iter
  rcases h : m.bm.chunks[file.cur]? with _ | (_ | c)
  · simp
  · simp
  · simp only []
    by_cases hc : (chunkWrite c (List.take (min (C - c.length) str.length) str)).length ≥ C
    · simp only [hc, if_true]
    · simp only [hc, if_false]

theorem ofPop_length (pop : List Chunk) (k : Nat) :
    (BufferMap.ofPop pop k).chunks.length = pop.length + k := by
  simp [BufferMap.ofPop]

theorem ofPop_getElem? (pop : List Chunk) (k i : Nat) (c : Chunk) (h : pop[i]? = some c) :
    (BufferMap.ofPop pop k).chunks[i]? = some (some c) := by
  have hi : i < pop.length := by
    rcases Nat.lt_or_ge i pop.length with h1 | h1
    · exact h1
    · rw [List.getElem?_eq_none h1] at h; cases h
  simp only [BufferMap.ofPop]
  rw [List.getElem?_append_left (by simpa using hi), List.getElem?_map, h]
  rfl

theorem ofPop_getElem?_none (pop : List Chunk) (k i : Nat) (h1 : pop.length ≤ i)
    (h2 : i < pop.length + k) :
    (BufferMap.ofPop pop k).chunks[i]? = some none := by
  simp only [BufferMap.ofPop]
  rw [List.getElem?_append_right (by simpa using h1)]
  simp only [List.length_map]
  rw [List.getElem?_replicate]
  simp; omega

theorem ofPop_set (pop : List Chunk) (k i : Nat) (c : Chunk) (hi : i < pop.length) :
    (BufferMap.ofPop pop k).chunks.set i (some c) = (BufferMap.ofPop (pop.set i c) k).chunks := by
  simp only [BufferMap.ofPop]
  rw [List.set_append_left _ _ (by simpa using hi), List.map_set]

theorem ofPop_populated (pop : List Chunk) (k : Nat) :
    (BufferMap.ofPop pop k).populated = pop := by
  simp only [BufferMap.populated, BufferMap.ofPop]
  rw [List.take_append_of_le_length (by simp)]
  rw [List.take_of_length_le (by simp)]
  induction pop with
  | nil => rfl
  | cons c pop ih => simp [List.reduceOption_cons_of_some, ih]

theorem chunk_alloc_ofPop_spare (W C : Nat) (pop : List Chunk) (k : Nat) (o : Bool)
    (dest : List Byte) :
    chunk_alloc W C { bm := BufferMap.ofPop pop (k + 1), overflowed := o } dest =
      ({ bm := BufferMap.ofPop (pop ++ [freshChunk W C dest]) k, overflowed := o },
        pop.length) := by
  unfold chunk_alloc
  have hne : ¬ (BufferMap.ofPop pop (k + 1)).max_chunk
      = (BufferMap.ofPop pop (k + 1)).chunks.length := by
    rw [ofPop_length]; simp [BufferMap.ofPop]
  simp only [hne, if_false]
  simp only [BufferMap.ofPop, List.replicate_succ, List.map_append, List.map_cons, List.map_nil,
    List.length_append, List.length_cons, List.length_nil, Prod.mk.injEq, Mem.mk.injEq,
    BufferMap.mk.injEq, and_true]
  rw [List.set_append_right _ _ (by simp)]
  simp

theorem chunk_alloc_ofPop_full (W C : Nat) (pop : List Chunk) (c : Chunk) (o : Bool)
    (dest : List Byte) :
    chunk_alloc W C { bm := BufferMap.ofPop (pop ++ [c]) 0, overflowed := o } dest =
      ({ bm := BufferMap.ofPop (pop ++ [c.reset]) 0, overflowed := true }, pop.length) := by
  unfold chunk_alloc
  have he : (BufferMap.ofPop (pop ++ [c]) 0).max_chunk
      = (BufferMap.ofPop (pop ++ [c]) 0).chunks.length := by
    rw [ofPop_length]; simp [BufferMap.ofPop]
  simp only [he, if_true]
  have hl : (BufferMap.ofPop (pop ++ [c]) 0).chunks.length - 1 = pop.length := by
    rw [ofPop_length]; simp
  rw [hl]
  have hg : (BufferMap.ofPop (pop ++ [c]) 0).chunks[pop.length]? = some (some c) :=
    ofPop_getElem? _ _ _ _ (by simp)
  simp only [resetLength, hg]
  rw [ofPop_set _ _ _ _ (by simp)]
  simp [BufferMap.ofPop, Chunk.reset]

/-! ## One iteration of the append loop on a populated map -/

theorem chunkWrite_length (c : Chunk) (src : List Byte) :
    (chunkWrite c src).length = c.length + src.length := rfl

theorem chunkWrite_dest (c : Chunk) (src : List Byte) :
    (chunkWrite c src).dest_stream = c.dest_stream := rfl

theorem ofPop_set_bm (pop : List Chunk) (k i : Nat) (c : Chunk) (hi : i < pop.length) :
    ({ chunks := (BufferMap.ofPop pop k).chunks.set i (some c),
       max_chunk := (BufferMap.ofPop pop k).max_chunk } : BufferMap)
      = BufferMap.ofPop (pop.set i c) k := by
  rw [ofPop_set _ _ _ _ hi]
  simp [BufferMap.ofPop]

theorem append_iter_room (W C : Nat) (pop : List Chunk) (k : Nat) (o : Bool) (f : BufferFile)
    (s : List Byte) (c : Chunk) (hc : pop[f.cur]? = some c)
    (hroom : c.length + min (C - c.length) s.length < C) :
    append_iter W C { bm := BufferMap.ofPop pop k, overflowed := o } f s =
      some ({ bm := BufferMap.ofPop
                (pop.set f.cur (chunkWrite c (s.take (min (C - c.length) s.length)))) k,
              overflowed := o }, f, s.drop (min (C - c.length) s.length)) := by
  have hi : f.cur < pop.length := by
    rcases Nat.lt_or_ge f.cur pop.length with h1 | h1
    · exact h1
    · rw [List.getElem?_eq_none h1] at hc; cases hc
  unfold append_iter
  simp only [ofPop_getElem? pop k f.cur c hc]
  have hlen : (chunkWrite c (s.take (min (C - c.length) s.length))).length
      = c.length + min (C - c.length) s.length := by
    rw [chunkWrite_length, List.length_take]; omega
  have hnot : ¬ (chunkWrite c (s.take (min (C - c.length) s.length))).length ≥ C := by
    rw [hlen]; omega
  simp only [hnot, if_false]
  rw [ofPop_set_bm _ _ _ _ hi]

theorem append_iter_spare (W C : Nat) (pop : List Chunk) (k : Nat) (o : Bool) (f : BufferFile)
    (s : List Byte) (c : Chunk) (hc : pop[f.cur]? = some c)
    (hfull : C ≤ c.length + min (C - c.length) s.length) :
    append_iter W C { bm := BufferMap.ofPop pop (k + 1), overflowed := o } f s =
      some ({ bm := BufferMap.ofPop
                (pop.set f.cur (chunkWrite c (s.take (min (C - c.length) s.length)))
                  ++ [freshChunk W C f.dest]) k,
              overflowed := o },
            { dest := f.dest, cur := pop.length }, s.drop (min (C - c.length) s.length)) := by
  have hi : f.cur < pop.length := by
    rcases Nat.lt_or_ge f.cur pop.length with h1 | h1
    · exact h1
    · rw [List.getElem?_eq_none h1] at hc; cases hc
  unfold append_iter
  simp only [ofPop_getElem? pop (k + 1) f.cur c hc]
  have hlen : (chunkWrite c (s.take (min (C - c.length) s.length))).length
      = c.length + min (C - c.length) s.length := by
    rw [chunkWrite_length, List.length_take]; omega
  have hyes : (chunkWrite c (s.take (min (C - c.length) s.length))).length ≥ C := by
    rw [hlen]; omega
  simp only [hyes, if_true]
  rw [ofPop_set_bm _ _ _ _ hi, chunk_alloc_ofPop_spare]
  simp

theorem append_iter_full (W C : Nat) (pop : List Chunk) (o : Bool) (f : BufferFile)
    (s : List Byte) (c : Chunk) (hc : pop[f.cur]? = some c)
    (hfull : C ≤ c.length + min (C - c.length) s.length)
    (init : List Chunk) (l : Chunk)
    (hsplit : pop.set f.cur (chunkWrite c (s.take (min (C - c.length) s.length))) = init ++ [l]) :
    append_iter W C { bm := BufferMap.ofPop pop 0, overflowed := o } f s =
      some ({ bm := BufferMap.ofPop (init ++ [l.reset]) 0, overflowed := true },
            { dest := f.dest, cur := init.length }, s.drop (min (C - c.length) s.length)) := by
  have hi : f.cur < pop.length := by
    rcases Nat.lt_or_ge f.cur pop.length with h1 | h1
    · exact h1
    · rw [List.getElem?_eq_none h1] at hc; cases hc
  unfold append_iter
  simp only [ofPop_getElem? pop 0 f.cur c hc]
  have hlen : (chunkWrite c (s.take (min (C - c.length) s.length))).length
      = c.length + min (C - c.length) s.length := by
    rw [chunkWrite_length, List.length_take]; omega
  have hyes : (chunkWrite c (s.take (min (C - c.length) s.length))).length ≥ C := by
    rw [hlen]; omega
  simp only [hyes, if_true]
  rw [ofPop_set_bm _ _ _ _ hi, hsplit, chunk_alloc_ofPop_full]

/-! ## Termination of the append loop and its invariant rule -/

theorem exists_concat_of_ne_nil (l : List Chunk) (h : l ≠ []) :
    ∃ init last, l = init ++ [last] :=
  ⟨l.dropLast, l.getLast h, (List.dropLast_append_getLast h).symm⟩

theorem append_iter_progress (W C : Nat) (hC : 0 < C) (m : Mem) (f : BufferFile)
    (s : List Byte) (pop : List Chunk) (k : Nat) (c : Chunk)
    (hm : m.bm = BufferMap.ofPop pop k) (hc : pop[f.cur]? = some c) :
    ∃ m1 f1, append_iter W C m f s = some (m1, f1, s.drop (min (C - c.length) s.length)) ∧
      ∀ c1, m1.bm.chunks[f1.cur]? = some (some c1) → c1.length < C := by
  have hi : f.cur < pop.length := by
    rcases Nat.lt_or_ge f.cur pop.length with h1 | h1
    · exact h1
    · rw [List.getElem?_eq_none h1] at hc; cases hc
  obtain ⟨bm, o⟩ := m
  simp only at hm
  subst hm
  by_cases hroom : c.length + min (C - c.length) s.length < C
  · refine ⟨_, _, append_iter_room W C pop k o f s c hc hroom, ?_⟩
    intro c1 h1
    rw [ofPop_getElem? _ k f.cur (chunkWrite c (s.take (min (C - c.length) s.length)))
      (by rw [List.getElem?_set_self hi])] at h1
    simp only [Option.some.injEq] at h1
    subst h1
    rw [chunkWrite_length, List.length_take]
    omega
  · have hfull : C ≤ c.length + min (C - c.length) s.length := by omega
    cases k with
    | succ k =>
      refine ⟨_, _, append_iter_spare W C pop k o f s c hc hfull, ?_⟩
      intro c1 h1
      rw [ofPop_getElem? _ k pop.length (freshChunk W C f.dest)
        (by simp)] at h1
      simp only [Option.some.injEq] at h1
      subst h1
      exact hC
    | zero =>
      obtain ⟨init, l, hsplit⟩ := exists_concat_of_ne_nil
        (pop.set f.cur (chunkWrite c (s.take (min (C - c.length) s.length))))
        (by intro h; have := congrArg List.length h; rw [List.length_set] at this
            simp only [List.length_nil] at this; omega)
      refine ⟨_, _, append_iter_full W C pop o f s c hc hfull init l hsplit, ?_⟩
      intro c1 h1
      rw [ofPop_getElem? _ 0 init.length l.reset (by simp)] at h1
      simp only [Option.some.injEq] at h1
      subst h1
      exact hC

theorem append_loop_rule (W C : Nat) (hC : 0 < C) (P : Mem → BufferFile → List Byte → Prop)
    (hbasic : ∀ m f s, P m f s → ∃ pop k c, m.bm = BufferMap.ofPop pop k ∧ pop[f.cur]? = some c)
    (hstep : ∀ m f s m1 f1 s1, P m f s → append_iter W C m f s = some (m1, f1, s1) →
      P m1 f1 s1) :
    ∀ fuel m f s, P m f s →
      (s.length < fuel ∨ (s.length ≤ fuel ∧ 0 < fuel ∧
        ∀ c, m.bm.chunks[f.cur]? = some (some c) → c.length < C)) →
      ∃ r, buffer_file_append_loop W C fuel m f s = some r ∧ P r.1 r.2 [] := by
  intro fuel
  induction fuel with
  | zero =>
    intro m f s _ h
    rcases h with h | ⟨_, h, _⟩ <;> omega
  | succ fuel ih =>
    intro m f s hP hfuel
    obtain ⟨pop, k, c, hm, hc⟩ := hbasic m f s hP
    obtain ⟨m1, f1, hiter, hcur⟩ := append_iter_progress W C hC m f s pop k c hm hc
    have hP1 := hstep m f s m1 f1 _ hP hiter
    rw [loop_succ, hiter]
    simp only []
    by_cases hrest : (s.drop (min (C - c.length) s.length)).length > 0
    · simp only [hrest, if_true]
      apply ih m1 f1 _ hP1
      right
      have hlen := hrest
      rw [List.length_drop] at hlen ⊢
      refine ⟨?_, ?_, hcur⟩
      · rcases hfuel with h | ⟨h1, _, h3⟩
        · omega
        · have hcl := h3 c (by rw [hm]; exact ofPop_getElem? pop k f.cur c hc)
          omega
      · rcases hfuel with h | ⟨h1, _, h3⟩
        · omega
        · have hcl := h3 c (by rw [hm]; exact ofPop_getElem? pop k f.cur c hc)
          omega
    · simp only [hrest, if_false]
      refine ⟨(m1, f1), rfl, ?_⟩
      have hnil : s.drop (min (C - c.length) s.length) = [] := by
        apply List.eq_nil_of_length_eq_zero; omega
      rw [hnil] at hP1
      exact hP1

theorem append_rule (W C : Nat) (hC : 0 < C) (P : Mem → BufferFile → List Byte → Prop)
    (hbasic : ∀ m f s, P m f s → ∃ pop k c, m.bm = BufferMap.ofPop pop k ∧ pop[f.cur]? = some c)
    (hstep : ∀ m f s m1 f1 s1, P m f s → append_iter W C m f s = some (m1, f1, s1) →
      P m1 f1 s1)
    (m : Mem) (f : BufferFile) (s : List Byte) (hP : P m f s) :
    ∃ r, buffer_file_append W C m f s = some r ∧ P r.1 r.2 [] :=
  append_loop_rule W C hC P hbasic hstep (s.length + 1) m f s hP (Or.inl (Nat.lt_succ_self _))

theorem append_iter_cases (W C : Nat) (m : Mem) (f : BufferFile) (s : List Byte)
    (pop : List Chunk) (k : Nat) (c : Chunk) (m1 : Mem) (f1 : BufferFile) (s1 : List Byte)
    (hm : m.bm = BufferMap.ofPop pop k) (hc : pop[f.cur]? = some c)
    (h : append_iter W C m f s = some (m1, f1, s1)) :
    s1 = s.drop (min (C - c.length) s.length) ∧
    ((c.length + min (C - c.length) s.length < C ∧
        m1 = { bm := BufferMap.ofPop
                 (pop.set f.cur (chunkWrite c (s.take (min (C - c.length) s.length)))) k,
               overflowed := m.overflowed } ∧ f1 = f) ∨
     (C ≤ c.length + min (C - c.length) s.length ∧ ∃ k1, k = k1 + 1 ∧
        m1 = { bm := BufferMap.ofPop
                 (pop.set f.cur (chunkWrite c (s.take (min (C - c.length) s.length)))
                   ++ [freshChunk W C f.dest]) k1,
               overflowed := m.overflowed } ∧
        f1 = { dest := f.dest, cur := pop.length }) ∨
     (C ≤ c.length + min (C - c.length) s.length ∧ k = 0 ∧ ∃ init l,
        pop.set f.cur (chunkWrite c (s.take (min (C - c.length) s.length))) = init ++ [l] ∧
        m1 = { bm := BufferMap.ofPop (init ++ [l.reset]) 0, overflowed := true } ∧
        f1 = { dest := f.dest, cur := init.length })) := by
  have hi : f.cur < pop.length := by
    rcases Nat.lt_or_ge f.cur pop.length with h1 | h1
    · exact h1
    · rw [List.getElem?_eq_none h1] at hc; cases hc
  obtain ⟨bm, o⟩ := m
  simp only at hm
  subst hm
  by_cases hroom : c.length + min (C - c.length) s.length < C
  · rw [append_iter_room W C pop k o f s c hc hroom] at h
    simp only [Option.some.injEq, Prod.mk.injEq] at h
    obtain ⟨h1, h2, h3⟩ := h
    exact ⟨h3.symm, Or.inl ⟨hroom, h1.symm, h2.symm⟩⟩
  · have hfull : C ≤ c.length + min (C - c.length) s.length := by omega
    cases k with
    | succ k =>
      rw [append_iter_spare W C pop k o f s c hc hfull] at h
      simp only [Option.some.injEq, Prod.mk.injEq] at h
      obtain ⟨h1, h2, h3⟩ := h
      exact ⟨h3.symm, Or.inr (Or.inl ⟨hfull, k, rfl, h1.symm, h2.symm⟩)⟩
    | zero =>
      obtain ⟨init, l, hsplit⟩ := exists_concat_of_ne_nil
        (pop.set f.cur (chunkWrite c (s.take (min (C - c.length) s.length))))
        (by intro h; have := congrArg List.length h; rw [List.length_set] at this
            simp only [List.length_nil] at this; omega)
      rw [append_iter_full W C pop o f s c hc hfull init l hsplit] at h
      simp only [Option.some.injEq, Prod.mk.injEq] at h
      obtain ⟨h1, h2, h3⟩ := h
      exact ⟨h3.symm, Or.inr (Or.inr ⟨hfull, rfl, init, l, hsplit, h1.symm, h2.symm⟩)⟩

/-! ## The capacity invariant -/

theorem getElem?_of_lt (pop : List Chunk) (i : Nat) (hi : i < pop.length) :
    ∃ c, pop[i]? = some c := ⟨pop[i], List.getElem?_eq_getElem hi⟩

theorem mem_set_cases (pop : List Chunk) (i : Nat) (c x : Chunk) (h : x ∈ pop.set i c) :
    x ∈ pop ∨ x = c := List.mem_or_eq_of_mem_set h

theorem World.empty_ok (C N : Nat) : WorldOK C N (World.empty N) :=
  ⟨[], N, by simp [World.empty, Mem.empty, BufferMap.ofPop], by simp,
    by simp, by simp [World.empty]⟩

theorem World.new_ok (W C N : Nat) (hN : 0 < N) (w : World) (name : List Byte)
    (h : WorldOK C N w) :
    ∃ w1, World.call W C w (Call.new name) = some w1 ∧ WorldOK C N w1 := by
  obtain ⟨pop, k, hm, hlen, hcap, hfiles⟩ := h
  obtain ⟨⟨bm, o⟩, files⟩ := w
  simp only at hm hfiles
  subst hm
  refine ⟨_, rfl, ?_⟩
  simp only [buffer_file_new]
  cases k with
  | succ k =>
    rw [chunk_alloc_ofPop_spare]
    refine ⟨pop ++ [freshChunk W C name], k, rfl, by simp; omega, ?_, ?_⟩
    · intro c hc
      rcases List.mem_append.1 hc with h1 | h1
      · exact hcap c h1
      · simp only [List.mem_singleton] at h1; subst h1; simp [freshChunk]
    · intro f hf
      rcases List.mem_append.1 hf with h1 | h1
      · have := hfiles f h1; simp; omega
      · simp only [List.mem_singleton] at h1; subst h1; simp
  | zero =>
    obtain ⟨init, l, hsplit⟩ := exists_concat_of_ne_nil pop
      (by intro h; subst h; simp at hlen; omega)
    subst hsplit
    rw [chunk_alloc_ofPop_full]
    refine ⟨init ++ [l.reset], 0, rfl, by simpa using hlen, ?_, ?_⟩
    · intro c hc
      rcases List.mem_append.1 hc with h1 | h1
      · exact hcap c (List.mem_append_left _ h1)
      · simp only [List.mem_singleton] at h1; subst h1; simp [Chunk.reset]
    · intro f hf
      rcases List.mem_append.1 hf with h1 | h1
      · have := hfiles f h1; simpa using this
      · simp only [List.mem_singleton] at h1; subst h1; simp

theorem World.append_ok (W C N : Nat) (hC : 0 < C) (w : World) (j : Nat)
    (str : List Byte) (h : WorldOK C N w) :
    ∃ w1, World.call W C w (Call.append j str) = some w1 ∧ WorldOK C N w1 := by
  simp only [World.call]
  rcases hf : w.files[j]? with _ | file
  · exact ⟨w, rfl, h⟩
  · simp only []
    obtain ⟨pop0, k0, hm0, hlen0, hcap0, hfiles0⟩ := h
    have hfile : file ∈ w.files := List.getElem?_mem hf
    have hrule := append_rule W C hC
      (fun m f _ => ∃ pop k, m.bm = BufferMap.ofPop pop k ∧ pop.length + k = N ∧
        (∀ c ∈ pop, c.length ≤ C) ∧ f.cur < pop.length ∧ pop0.length ≤ pop.length)
      (by
        rintro m f s ⟨pop, k, hm, _, _, hcur, _⟩
        obtain ⟨c, hc⟩ := getElem?_of_lt pop f.cur hcur
        exact ⟨pop, k, c, hm, hc⟩)
      (by
        rintro m f s m1 f1 s1 ⟨pop, k, hm, hlen, hcap, hcur, hmono⟩ hiter
        obtain ⟨c, hc⟩ := getElem?_of_lt pop f.cur hcur
        have hcC : c.length ≤ C := hcap c (List.getElem?_mem hc)
        have hset : ∀ x ∈ pop.set f.cur
            (chunkWrite c (s.take (min (C - c.length) s.length))), x.length ≤ C := by
          intro x hx
          rcases mem_set_cases _ _ _ _ hx with h1 | h1
          · exact hcap x h1
          · subst h1; rw [chunkWrite_length, List.length_take]; omega
        obtain ⟨_, hcases⟩ := append_iter_cases W C m f s pop k c m1 f1 s1 hm hc hiter
        rcases hcases with ⟨_, h1, h2⟩ | ⟨_, k1, hk, h1, h2⟩ | ⟨_, hk, init, l, hsplit, h1, h2⟩
        · subst h1 h2
          exact ⟨_, k, rfl, by simpa using hlen, hset, by simpa using hcur, by simpa using hmono⟩
        · subst h1 h2 hk
          refine ⟨_, k1, rfl, by simp; omega, ?_, by simp, by simp; omega⟩
          intro x hx
          rcases List.mem_append.1 hx with h3 | h3
          · exact hset x h3
          · simp only [List.mem_singleton] at h3; subst h3; simp [freshChunk]
        · subst h1 h2 hk
          have hl : init.length + 1 = pop.length := by
            have := congrArg List.length hsplit
            simpa using this.symm
          refine ⟨_, 0, rfl, by simp; omega, ?_, by simp, by simp; omega⟩
          intro x hx
          rcases List.mem_append.1 hx with h3 | h3
          · exact hset x (by rw [hsplit]; exact List.mem_append_left _ h3)
          · simp only [List.mem_singleton] at h3; subst h3; simp [Chunk.reset])
      w.mem file str ⟨pop0, k0, hm0, hlen0, hcap0, hfiles0 file hfile, le_refl _⟩
    obtain ⟨r, hr, pop, k, hm, hlen, hcap, hcur, hmono⟩ := hrule
    rw [hr]
    refine ⟨_, rfl, pop, k, hm, hlen, hcap, ?_⟩
    intro g hg
    rcases List.mem_or_eq_of_mem_set hg with h1 | h1
    · exact lt_of_lt_of_le (hfiles0 g h1) hmono
    · subst h1; exact hcur

theorem World.run_ok (W C N : Nat) (hN : 0 < N) (hC : 0 < C) (calls : List Call) :
    ∀ w, WorldOK C N w → ∃ w1, World.run W C w calls = some w1 ∧ WorldOK C N w1 := by
  induction calls with
  | nil => intro w h; exact ⟨w, rfl, h⟩
  | cons c cs ih =>
    intro w h
    have hcall : ∃ w1, World.call W C w c = some w1 ∧ WorldOK C N w1 := by
      cases c with
      | new name => exact World.new_ok W C N hN w name h
      | append j str => exact World.append_ok W C N hC w j str h
    obtain ⟨w1, h1, h2⟩ := hcall
    obtain ⟨w2, h3, h4⟩ := ih w1 h2
    exact ⟨w2, by simp only [World.run, h1, h3], h4⟩

theorem ofPop_mem_of_getElem? (pop : List Chunk) (k i : Nat) (c : Chunk)
    (h : (BufferMap.ofPop pop k).chunks[i]? = some (some c)) : c ∈ pop := by
  have hmem := List.getElem?_mem h
  simp only [BufferMap.ofPop, List.mem_append, List.mem_map, List.mem_replicate] at hmem
  rcases hmem with ⟨x, hx, hxc⟩ | ⟨_, hbad⟩
  · simp only [Option.some.injEq] at hxc; subst hxc; exact hx
  · cases hbad

theorem memcpy_fresh (C : Nat) (str : List Byte) (h : str.length = C) :
    memcpy (List.replicate C 0) 0 str = str := by
  simp [memcpy, h]


theorem getElem?_concat0 (l : List Chunk) (x : Chunk) (r : List Chunk) :
    (l ++ x :: r)[l.length]? = some x := by
  rw [List.getElem?_append_right (le_refl _)]; simp

theorem getElem?_concat1 (l : List Chunk) (x y : Chunk) (r : List Chunk) :
    (l ++ x :: y :: r)[l.length + 1]? = some y := by
  rw [List.getElem?_append_right (by omega)]; simp

theorem set_concat_last (l : List Chunk) (x y : Chunk) :
    (l ++ [x]).set l.length y = l ++ [y] := by
  rw [List.set_append_right _ _ (le_refl _)]; simp

/-! ## The retrying read -/

theorem memcpy_length_le (dst : List Byte) (off : Nat) (a : List Byte) :
    off + a.length ≤ (memcpy dst off a).length ∨ dst.length < off := by
  simp only [memcpy, List.length_append, List.length_take, List.length_drop]
  omega

theorem memcpy_memcpy (dst : List Byte) (off : Nat) (a b : List Byte) :
    memcpy (memcpy dst off a) (off + a.length) b = memcpy dst off (a ++ b) := by
  rcases Nat.lt_or_ge dst.length off with h | h
  · simp only [memcpy]
    rw [List.take_of_length_le (Nat.le_of_lt h), List.drop_of_length_le (by omega),
      List.drop_of_length_le (by simp; omega)]
    rw [List.take_of_length_le (by simp; omega), List.drop_of_length_le (by simp; omega)]
    simp
  · simp only [memcpy]
    have h1 : (dst.take off ++ a).length = off + a.length := by simp; omega
    have e1 : (dst.take off ++ a ++ dst.drop (off + a.length)).take (off + a.length)
        = dst.take off ++ a := by
      rw [← h1]; exact List.take_left' rfl
    have e2 : (dst.take off ++ a ++ dst.drop (off + a.length)).drop (off + a.length + b.length)
        = dst.drop (off + a.length + b.length) := by
      rw [← h1, List.drop_append, List.drop_drop, h1]
    rw [e1, e2]
    simp [Nat.add_assoc]

theorem memcpy_nil (dst : List Byte) (off : Nat) : memcpy dst off [] = dst := by
  simp [memcpy]


theorem read_all_loop_spec (rx : List ReadEv) :
    ∀ (len total : Nat) (buf : List Byte), 0 < len →
      (len ≤ (delivered rx).length → ∃ rest, read_all_loop rx len total buf =
        some (toInt32 (total + len), memcpy buf total ((delivered rx).take len), rest)) ∧
      ((delivered rx).length < len →
        match stopOf rx with
        | Stop.endOfStream => ∃ rest, read_all_loop rx len total buf =
            some (if total + (delivered rx).length ≠ 0 then -1 else 0,
              memcpy buf total (delivered rx), rest)
        | Stop.error => ∃ rest, read_all_loop rx len total buf =
            some (-1, memcpy buf total (delivered rx), rest)
        | Stop.blocked => read_all_loop rx len total buf = none) := by
  induction rx with
  | nil =>
    intro len total buf hlen
    have hne : len ≠ 0 := by omega
    refine ⟨fun h => ?_, fun _ => ?_⟩
    · simp [delivered] at h; omega
    · simp [stopOf, read_all_loop, hne]
  | cons ev rx ih =>
    intro len total buf hlen
    have hne : len ≠ 0 := by omega
    cases ev with
    | eintr =>
      have := ih len total buf hlen
      simpa [read_all_loop, hne, delivered, stopOf] using this
    | err =>
      refine ⟨fun h => ?_, fun _ => ?_⟩
      · simp [delivered] at h; omega
      · simp [stopOf, read_all_loop, hne, delivered, memcpy_nil]
    | seg bs =>
      cases bs with
      | nil =>
        refine ⟨fun h => ?_, fun _ => ?_⟩
        · simp [delivered] at h; omega
        · simp [stopOf, read_all_loop, hne, delivered, memcpy_nil]
      | cons a as =>
        by_cases hfit : len ≤ (a :: as).length
        · refine ⟨fun _ => ?_, fun h => ?_⟩
          · have hmin : min (a :: as).length len = len := by omega
            refine ⟨requeue ((a :: as).drop len) rx, ?_⟩
            rw [read_all_loop]
            simp only [hne, if_false, hmin, Nat.sub_self, if_true]
            simp only [delivered]
            rw [List.take_append_of_le_length hfit]
          · simp only [delivered, List.length_append] at h; omega
        · have hlt : (a :: as).length < len := by omega
          have hmin : min (a :: as).length len = (a :: as).length := by omega
          have hstep : read_all_loop (ReadEv.seg (a :: as) :: rx) len total buf =
              read_all_loop rx (len - (a :: as).length) (total + (a :: as).length)
                (memcpy buf total (a :: as)) := by
            rw [read_all_loop]
            have h1 : ¬ (a :: as).length = 0 := by simp
            have h2 : ¬ len - (a :: as).length = 0 := by omega
            simp only [hne, if_false, hmin, h1, h2, List.take_length]
          have ih1 := ih (len - (a :: as).length) (total + (a :: as).length)
            (memcpy buf total (a :: as)) (by omega)
          rw [hstep]
          simp only [delivered, stopOf, List.length_append]
          refine ⟨fun h => ?_, fun h => ?_⟩
          · obtain ⟨rest, hr⟩ := ih1.1 (by omega)
            refine ⟨rest, ?_⟩
            rw [hr, memcpy_memcpy, List.take_append_eq_append_take,
              List.take_of_length_le (Nat.le_of_lt hlt)]
            congr 3
            omega
          · have ih2 := ih1.2 (by omega)
            rcases hs : stopOf rx with _ | _ | _
            · rw [hs] at ih2
              obtain ⟨rest, hr⟩ := ih2
              refine ⟨rest, ?_⟩
              rw [hr, memcpy_memcpy, Nat.add_assoc]
            · rw [hs] at ih2
              obtain ⟨rest, hr⟩ := ih2
              refine ⟨rest, ?_⟩
              rw [hr, memcpy_memcpy]
            · rw [hs] at ih2
              exact ih2

theorem toInt32_of_lt (n : Nat) (h : n < 2 ^ 31) : toInt32 n = (n : Int) := by
  have h1 : n % 2 ^ 32 = n := Nat.mod_eq_of_lt (by omega)
  simp only [toInt32, h1, h, if_true]

theorem memcpy_zero (buf src : List Byte) :
    memcpy buf 0 src = src ++ buf.drop src.length := by
  simp [memcpy]

theorem read_all_complete (rx : List ReadEv) (buf : List Byte) (len : Nat) (hpos : 0 < len)
    (h : len ≤ (delivered rx).length) :
    ∃ rest, read_all rx buf len =
      some (toInt32 len, (delivered rx).take len ++ buf.drop len, rest) := by
  obtain ⟨rest, hr⟩ := (read_all_loop_spec rx len 0 buf hpos).1 h
  refine ⟨rest, ?_⟩
  rw [read_all, hr, memcpy_zero, Nat.zero_add, List.length_take, Nat.min_eq_left h]

theorem delivered_pair (n m : Nat) (b : Byte) :
    delivered [ReadEv.seg (List.replicate (n + 1) b), ReadEv.seg (List.replicate (m + 1) b)]
      = List.replicate (n + 1) b ++ List.replicate (m + 1) b := by
  rw [List.replicate_succ, List.replicate_succ]
  simp [delivered]

theorem read_all_pair (n m : Nat) (b : Byte) :
    ∃ buf rest, read_all
        [ReadEv.seg (List.replicate (n + 1) b), ReadEv.seg (List.replicate (m + 1) b)] []
        (n + 1 + (m + 1)) = some (toInt32 (n + 1 + (m + 1)), buf, rest) := by
  obtain ⟨rest, hr⟩ := read_all_complete
    [ReadEv.seg (List.replicate (n + 1) b), ReadEv.seg (List.replicate (m + 1) b)] []
    (n + 1 + (m + 1)) (by omega)
    (by rw [delivered_pair, List.length_append, List.length_replicate, List.length_replicate])
  exact ⟨_, rest, hr⟩

theorem read_all_spec_pair (n m : Nat) (b : Byte) :
    read_all_spec
        [ReadEv.seg (List.replicate (n + 1) b), ReadEv.seg (List.replicate (m + 1) b)]
        (n + 1 + (m + 1)) = some ((n + 1 + (m + 1) : Nat) : Int) := by
  unfold read_all_spec
  rw [delivered_pair, List.length_append, List.length_replicate, List.length_replicate,
    if_pos (le_refl _)]

theorem read_all_refines (rx : List ReadEv) (buf : List Byte) (len : Nat) (hpos : 0 < len)
    (hint : len < 2 ^ 31) :
    (read_all rx buf len).map (fun r => r.1) = read_all_spec rx len := by
  unfold read_all_spec
  by_cases h : len ≤ (delivered rx).length
  · obtain ⟨rest, hr⟩ := read_all_complete rx buf len hpos h
    rw [hr, if_pos h, toInt32_of_lt len hint]
    rfl
  · rw [if_neg h]
    have hs := (read_all_loop_spec rx len 0 buf hpos).2 (by omega)
    rcases hst : stopOf rx with _ | _ | _
    · rw [hst] at hs
      obtain ⟨rest, hr⟩ := hs
      rw [read_all, hr]
      by_cases hd : delivered rx = []
      · simp [hd]
      · have : (delivered rx).length ≠ 0 := by
          intro h0; exact hd (List.eq_nil_of_length_eq_zero h0)
        simp [hd, this]
    · rw [hst] at hs
      obtain ⟨rest, hr⟩ := hs
      rw [read_all, hr]
      rfl
    · rw [hst] at hs
      rw [read_all, hs]
      rfl

/-! ## The retrying write and the server side of the dump -/

theorem write_all_loop_healthy (tx : List WriteEv) :
    ∀ (buf : List Byte) (total : Nat) (sent : List Byte), WriteEv.err ∉ tx →
      (write_all_loop tx buf total sent).2.2 = sent ++ buf ∧
      WriteEv.err ∉ (write_all_loop tx buf total sent).2.1 := by
  induction tx with
  | nil => intro buf total sent _; simp [write_all_loop]
  | cons ev tx ih =>
    intro buf total sent h
    have htx : WriteEv.err ∉ tx := fun hm => h (List.mem_cons_of_mem _ hm)
    by_cases hb : buf.length = 0
    · have : buf = [] := List.eq_nil_of_length_eq_zero hb
      subst this
      simp only [write_all_loop, List.length_nil, if_true, List.append_nil, true_and]
      exact h
    · simp only [write_all_loop, hb, if_false]
      cases ev with
      | eintr => exact ih buf total sent htx
      | err => exact absurd (List.mem_cons_self _ _) h
      | took n =>
        have := ih (buf.drop n) (total + min n buf.length) (sent ++ buf.take n) htx
        simpa [List.append_assoc] using this

theorem write_all_some (conn : Conn) (buf : List Byte) (h : WriteEv.err ∉ conn.tx) :
    (write_all conn (some buf)).2.sent = conn.sent ++ buf ∧
    WriteEv.err ∉ (write_all conn (some buf)).2.tx ∧
    (write_all conn (some buf)).2.rx = conn.rx ∧
    (write_all conn (some buf)).2.closed = conn.closed := by
  have := write_all_loop_healthy conn.tx buf 0 conn.sent h
  exact ⟨this.1, this.2, rfl, rfl⟩

theorem write_all_null (conn : Conn) : write_all conn none = (-1, conn) := rfl

theorem send_slots_null (k : Nat) (conn : Conn) :
    (List.replicate k (none : Option Chunk)).foldl
      (fun cn slot => (write_all cn (slot.map chunkImage)).2) conn = conn := by
  induction k with
  | zero => rfl
  | succ k ih => simpa [List.replicate_succ, write_all_null] using ih

theorem send_slots_populated (pop : List Chunk) :
    ∀ conn : Conn, WriteEv.err ∉ conn.tx →
      ((pop.map some).foldl (fun cn slot => (write_all cn (slot.map chunkImage)).2) conn).sent
        = conn.sent ++ pop.flatMap chunkImage ∧
      WriteEv.err ∉ ((pop.map some).foldl
        (fun cn slot => (write_all cn (slot.map chunkImage)).2) conn).tx ∧
      ((pop.map some).foldl (fun cn slot => (write_all cn (slot.map chunkImage)).2) conn).rx
        = conn.rx ∧
      ((pop.map some).foldl (fun cn slot => (write_all cn (slot.map chunkImage)).2) conn).closed
        = conn.closed := by
  induction pop with
  | nil => intro conn h; simp [h]
  | cons c pop ih =>
    intro conn h
    obtain ⟨h1, h2, h3, h4⟩ := write_all_some conn (chunkImage c) h
    obtain ⟨i1, i2, i3, i4⟩ := ih (write_all conn (some (chunkImage c))).2 h2
    simp only [List.map_cons, List.foldl_cons, Option.map_some', List.flatMap_cons]
    refine ⟨?_, i2, ?_, ?_⟩
    · rw [i1, h1, List.append_assoc]
    · rw [i3, h3]
    · rw [i4, h4]

theorem collector_send_dump_ofPop (pop : List Chunk) (k : Nat) (conn : Conn)
    (h : WriteEv.err ∉ conn.tx) :
    (collector_send_dump conn (BufferMap.ofPop pop k)).sent
      = conn.sent ++ pop.flatMap chunkImage ∧
    (collector_send_dump conn (BufferMap.ofPop pop k)).rx = conn.rx ∧
    (collector_send_dump conn (BufferMap.ofPop pop k)).closed = conn.closed := by
  simp only [collector_send_dump, BufferMap.ofPop, List.foldl_append, send_slots_null]
  obtain ⟨h1, _, h3, h4⟩ := send_slots_populated pop conn h
  exact ⟨h1, h3, h4⟩

theorem leBytes_length (n v : Nat) : (leBytes n v).length = n := by
  induction n generalizing v with
  | zero => rfl
  | succ n ih => simp [leBytes, ih]

theorem chunkImage_length (W C : Nat) (c : Chunk) (hW : c.dest_stream.length = W)
    (hC : c.data.length = C) : (chunkImage c).length = sizeofChunk W C := by
  simp [chunkImage, sizeofChunk, leBytes_length, hW, hC]
  omega

theorem collector_handle_dump (pop : List Chunk) (k : Nat) (args : Arguments) (conn : Conn)
    (cmd0 : List Byte) (hcmd0 : cmd0.length = 4)
    (hread : 4 ≤ (delivered conn.rx).length)
    (hcode : leValue ((delivered conn.rx).take 4) = CMD_DUMP_AND_EXIT)
    (htx : WriteEv.err ∉ conn.tx) :
    ∃ conn1, collector_handle (some conn) (BufferMap.ofPop pop k) args cmd0
        = some (1, some conn1) ∧
      conn1.sent = conn.sent ++ flagsImage { relative_time := args.relative_time }
        ++ pop.flatMap chunkImage ∧
      conn1.closed = true := by
  obtain ⟨rest, hr⟩ := read_all_complete conn.rx cmd0 4 (by decide) hread
  have hdrop : cmd0.drop 4 = [] := by rw [← hcmd0]; simp
  have h4 : toInt32 4 = 4 := by decide
  rw [hdrop, List.append_nil, h4] at hr
  simp only [collector_handle, hr]
  have hnot : ¬ ((4 : Int) < 0) := by decide
  simp only [hnot, if_false, hcode, if_true]
  obtain ⟨w1, w2, w3, w4⟩ := write_all_some
    { rx := rest, tx := conn.tx, sent := conn.sent, closed := conn.closed }
    (flagsImage { relative_time := args.relative_time }) htx
  obtain ⟨s1, _, _⟩ := collector_send_dump_ofPop pop k _ w2
  refine ⟨_, rfl, ?_, rfl⟩
  simp only [Conn.close]
  rw [s1, w1]

theorem collector_handle_other_code (bm : BufferMap) (args : Arguments) (conn : Conn)
    (cmd0 : List Byte) (hcmd0 : cmd0.length = 4)
    (hread : 4 ≤ (delivered conn.rx).length)
    (hcode : leValue ((delivered conn.rx).take 4) ≠ CMD_DUMP_AND_EXIT) :
    ∃ conn1, collector_handle (some conn) bm args cmd0 = some (0, some conn1) ∧
      conn1.sent = conn.sent ∧ conn1.closed = true := by
  obtain ⟨rest, hr⟩ := read_all_complete conn.rx cmd0 4 (by decide) hread
  have hdrop : cmd0.drop 4 = [] := by rw [← hcmd0]; simp
  have h4 : toInt32 4 = 4 := by decide
  rw [hdrop, List.append_nil, h4] at hr
  simp only [collector_handle, hr]
  have hnot : ¬ ((4 : Int) < 0) := by decide
  simp only [hnot, if_false, hcode]
  exact ⟨_, rfl, rfl, rfl⟩

theorem collector_handle_short_read (bm : BufferMap) (args : Arguments) (conn : Conn)
    (cmd0 : List Byte)
    (hshort : (delivered conn.rx).length < 4)
    (hstop : (delivered conn.rx ≠ [] ∧ stopOf conn.rx = Stop.endOfStream) ∨
      stopOf conn.rx = Stop.error) :
    ∃ conn1, collector_handle (some conn) bm args cmd0 = some (0, some conn1) ∧
      conn1.sent = conn.sent ∧ conn1.closed = true := by
  have hs := (read_all_loop_spec conn.rx 4 0 cmd0 (by decide)).2 hshort
  have hneg : ((-1 : Int) < 0) := by decide
  rcases hstop with ⟨hne, hst⟩ | hst
  · rw [hst] at hs
    obtain ⟨rest, hr⟩ := hs
    have hlen : (delivered conn.rx).length ≠ 0 := by
      intro h0; exact hne (List.eq_nil_of_length_eq_zero h0)
    simp only [Nat.zero_add, ne_eq, hlen, not_false_eq_true, if_true] at hr
    simp only [collector_handle, read_all, hr, hneg, if_true]
    exact ⟨_, rfl, rfl, rfl⟩
  · rw [hst] at hs
    obtain ⟨rest, hr⟩ := hs
    simp only [collector_handle, read_all, hr, hneg, if_true]
    exact ⟨_, rfl, rfl, rfl⟩

/-! ## Lifting an invariant of one loop iteration to a whole append -/

theorem set_self_of_getElem? (files : List BufferFile) (j : Nat) (f : BufferFile)
    (h : files[j]? = some f) : files.set j f = files := by
  apply List.ext_getElem?
  intro i
  by_cases hij : j = i
  · subst hij
    have hj : j < files.length := by
      rcases Nat.lt_or_ge j files.length with h1 | h1
      · exact h1
      · rw [List.getElem?_eq_none h1] at h; cases h
    rw [List.getElem?_set_self hj, h]
  · rw [List.getElem?_set_ne hij]

theorem lt_of_getElem?_some (files : List BufferFile) (j : Nat) (f : BufferFile)
    (h : files[j]? = some f) : j < files.length := by
  rcases Nat.lt_or_ge j files.length with h1 | h1
  · exact h1
  · rw [List.getElem?_eq_none h1] at h; cases h

theorem append_lift (W C : Nat) (hC : 0 < C)
    (Q : (Nat → List Byte) → Mem → List BufferFile → Prop)
    (hbasic : ∀ g m files, Q g m files →
      ∃ pop k, m.bm = BufferMap.ofPop pop k ∧ ∀ f ∈ files, f.cur < pop.length)
    (hiter : ∀ g m files j f s m1 f1 s1, Q g m files → files[j]? = some f →
      append_iter W C m f s = some (m1, f1, s1) →
      ∃ p, s = p ++ s1 ∧ Q (Function.update g j (g j ++ p)) m1 (files.set j f1))
    (g : Nat → List Byte) (m : Mem) (files : List BufferFile) (j : Nat) (f : BufferFile)
    (s : List Byte) (hQ : Q g m files) (hf : files[j]? = some f) :
    ∃ r, buffer_file_append W C m f s = some r ∧
      Q (Function.update g j (g j ++ s)) r.1 (files.set j r.2) := by
  have hj := lt_of_getElem?_some files j f hf
  have hrule := append_rule W C hC
    (fun m1 f1 rest => ∃ done, s = done ++ rest ∧
      Q (Function.update g j (g j ++ done)) m1 (files.set j f1))
    (by
      rintro m1 f1 rest ⟨done, _, hq⟩
      obtain ⟨pop, k, hm, hcur⟩ := hbasic _ _ _ hq
      have hmem : f1 ∈ files.set j f1 := List.getElem?_mem (List.getElem?_set_self hj)
      obtain ⟨c, hc⟩ := getElem?_of_lt pop f1.cur (hcur f1 hmem)
      exact ⟨pop, k, c, hm, hc⟩)
    (by
      rintro m1 f1 rest m2 f2 rest2 ⟨done, hs, hq⟩ hit
      have hf1 : (files.set j f1)[j]? = some f1 := List.getElem?_set_self hj
      obtain ⟨p, hp, hq2⟩ := hiter _ _ _ j f1 rest m2 f2 rest2 hq hf1 hit
      refine ⟨done ++ p, by rw [hs, hp, List.append_assoc], ?_⟩
      rw [Function.update_idem, Function.update_same, List.set_set, List.append_assoc] at hq2
      exact hq2)
    m f s ⟨[], by simp, by
      rw [List.append_nil, Function.update_eq_self, set_self_of_getElem? files j f hf]
      exact hQ⟩
  obtain ⟨r, hr, done, hs, hq⟩ := hrule
  refine ⟨r, hr, ?_⟩
  rw [List.append_nil] at hs
  rw [hs]
  exact hq

/-! ## Stream names and the tag of the current chunk -/

theorem cstr_of_no_nul (name : List Byte) (h : (0 : Byte) ∉ name) : cstr name = name := by
  unfold cstr
  rw [List.takeWhile_eq_self_iff]
  intro b hb
  simp only [ne_eq, decide_eq_true_eq]
  intro h0
  exact h (h0 ▸ hb)

theorem cstr_append_nul (name rest : List Byte) (h : (0 : Byte) ∉ name) :
    cstr (name ++ 0 :: rest) = name := by
  induction name with
  | nil => simp [cstr]
  | cons a as ih =>
    have ha : a ≠ 0 := fun h0 => h (h0 ▸ List.mem_cons_self _ _)
    have has : (0 : Byte) ∉ as := fun hm => h (List.mem_cons_of_mem _ hm)
    have hd : decide (a ≠ 0) = true := by simpa using ha
    have := ih has
    simp only [cstr] at this ⊢
    rw [List.cons_append, List.takeWhile_cons, hd, if_pos rfl, this]

theorem strncpy_length (W : Nat) (s : List Byte) : (strncpy W s).length = W := by
  simp only [strncpy, List.length_append, List.length_take, List.length_replicate]
  omega

theorem strncpy_fits (W : Nat) (name : List Byte) (h : Fits W name) :
    strncpy W name = name ++ List.replicate (W - name.length) 0 := by
  unfold strncpy
  rw [cstr_of_no_nul name h.2, List.take_of_length_le (Nat.le_of_lt h.1)]

theorem cstr_strncpy (W : Nat) (name : List Byte) (h : Fits W name) :
    cstr (strncpy W name) = name := by
  rw [strncpy_fits W name h]
  obtain ⟨n, hn⟩ : ∃ n, W - name.length = n + 1 := ⟨W - name.length - 1, by have := h.1; omega⟩
  rw [hn, List.replicate_succ]
  exact cstr_append_nul name _ h.2

theorem strncpy_injective (W : Nat) (a b : List Byte) (ha : Fits W a) (hb : Fits W b)
    (h : strncpy W a = strncpy W b) : a = b := by
  rw [← cstr_strncpy W a ha, ← cstr_strncpy W b hb, h]

theorem getElem?_set_write (pop : List Chunk) (i j : Nat) (c x : Chunk) (src : List Byte)
    (hc : pop[i]? = some c) (hx : (pop.set i (chunkWrite c src))[j]? = some x) :
    ∃ y, pop[j]? = some y ∧ y.dest_stream = x.dest_stream := by
  by_cases hij : i = j
  · subst hij
    have hi : i < pop.length := by
      rcases Nat.lt_or_ge i pop.length with h1 | h1
      · exact h1
      · rw [List.getElem?_eq_none h1] at hc; cases hc
    rw [List.getElem?_set_self hi] at hx
    simp only [Option.some.injEq] at hx
    subst hx
    exact ⟨c, hc, rfl⟩
  · rw [List.getElem?_set_ne hij] at hx
    exact ⟨x, hx, rfl⟩

theorem getElem?_set_write_inv (pop : List Chunk) (i j : Nat) (c y : Chunk) (src : List Byte)
    (hc : pop[i]? = some c) (hy : pop[j]? = some y) :
    ∃ x, (pop.set i (chunkWrite c src))[j]? = some x ∧ x.dest_stream = y.dest_stream := by
  by_cases hij : i = j
  · subst hij
    have hi : i < pop.length := by
      rcases Nat.lt_or_ge i pop.length with h1 | h1
      · exact h1
      · rw [List.getElem?_eq_none h1] at hc; cases hc
    rw [hc] at hy
    simp only [Option.some.injEq] at hy
    subst hy
    exact ⟨_, List.getElem?_set_self hi, rfl⟩
  · exact ⟨y, by rw [List.getElem?_set_ne hij]; exact hy, rfl⟩

theorem TagQ_basic (W N : Nat) (g : Nat → List Byte) (m : Mem) (files : List BufferFile)
    (h : TagQ W N g m files) :
    ∃ pop k, m.bm = BufferMap.ofPop pop k ∧ ∀ f ∈ files, f.cur < pop.length := by
  obtain ⟨pop, k, hm, _, hcur, _⟩ := h
  exact ⟨pop, k, hm, hcur⟩

theorem TagQ_iter (W C N : Nat) (g : Nat → List Byte) (m : Mem) (files : List BufferFile)
    (j : Nat) (f : BufferFile) (s : List Byte) (m1 : Mem) (f1 : BufferFile) (s1 : List Byte)
    (hQ : TagQ W N g m files) (hf : files[j]? = some f)
    (hit : append_iter W C m f s = some (m1, f1, s1)) :
    ∃ p, s = p ++ s1 ∧ TagQ W N (Function.update g j (g j ++ p)) m1 (files.set j f1) := by
  obtain ⟨pop, k, hm, hlen, hcur, htag⟩ := hQ
  have hfm : f ∈ files := List.getElem?_mem hf
  obtain ⟨c, hc⟩ := getElem?_of_lt pop f.cur (hcur f hfm)
  obtain ⟨hs1, hcases⟩ := append_iter_cases W C m f s pop k c m1 f1 s1 hm hc hit
  refine ⟨s.take (min (C - c.length) s.length), by rw [hs1, List.take_append_drop], ?_⟩
  rcases hcases with ⟨_, h1, h2⟩ | ⟨_, k1, hk, h1, h2⟩ | ⟨_, hk, init, l, hsplit, h1, h2⟩
  · subst h1
    rw [h2, set_self_of_getElem? files j f hf]
    refine ⟨_, k, rfl, by simpa using hlen, by simpa using hcur, ?_⟩
    intro g1 hg1 hov
    obtain ⟨y, hy, hyt⟩ := htag g1 hg1 hov
    obtain ⟨x, hx, hxt⟩ := getElem?_set_write_inv pop f.cur g1.cur c y _ hc hy
    exact ⟨x, hx, by rw [hxt, hyt]⟩
  · subst h1 h2 hk
    refine ⟨_, k1, rfl, by simp; omega, ?_, ?_⟩
    · intro g1 hg1
      rcases List.mem_or_eq_of_mem_set hg1 with h3 | h3
      · have := hcur g1 h3; simp; omega
      · subst h3; simp
    · intro g1 hg1 hov
      rcases List.mem_or_eq_of_mem_set hg1 with h3 | h3
      · obtain ⟨y, hy, hyt⟩ := htag g1 h3 hov
        obtain ⟨x, hx, hxt⟩ := getElem?_set_write_inv pop f.cur g1.cur c y
          (s.take (min (C - c.length) s.length)) hc hy
        refine ⟨x, ?_, by rw [hxt, hyt]⟩
        rw [List.getElem?_append_left (by simpa using hcur g1 h3)]
        exact hx
      · subst h3
        refine ⟨freshChunk W C f.dest, ?_, rfl⟩
        have : pop.length = (pop.set f.cur
            (chunkWrite c (s.take (min (C - c.length) s.length)))).length := by simp
        simp only []
        rw [this]
        exact getElem?_concat0 _ _ _
  · subst h1 h2 hk
    have hl : init.length + 1 = pop.length := by
      have := congrArg List.length hsplit
      simpa using this.symm
    refine ⟨_, 0, rfl, by simp; omega, ?_, ?_⟩
    · intro g1 hg1
      rcases List.mem_or_eq_of_mem_set hg1 with h3 | h3
      · have := hcur g1 h3; simp; omega
      · subst h3; simp
    · intro g1 hg1 hov
      have hlt : g1.cur + 1 < N := by
        rcases hov with h4 | h4
        · cases h4
        · exact h4
      rcases List.mem_or_eq_of_mem_set hg1 with h3 | h3
      · obtain ⟨y, hy, hyt⟩ := htag g1 h3 (Or.inr hlt)
        obtain ⟨x, hx, hxt⟩ := getElem?_set_write_inv pop f.cur g1.cur c y
          (s.take (min (C - c.length) s.length)) hc hy
        refine ⟨x, ?_, by rw [hxt, hyt]⟩
        rw [hsplit, List.getElem?_append_left (by omega)] at hx
        rw [List.getElem?_append_left (by omega)]
        exact hx
      · subst h3
        simp only at hlt
        omega

theorem TagQ_new (W C N : Nat) (hN : 0 < N) (g : Nat → List Byte) (m : Mem)
    (files : List BufferFile) (name : List Byte) (hQ : TagQ W N g m files) :
    TagQ W N g (buffer_file_new W C m name).1 (files ++ [(buffer_file_new W C m name).2]) := by
  obtain ⟨pop, k, hm, hlen, hcur, htag⟩ := hQ
  obtain ⟨bm, o⟩ := m
  simp only at hm htag
  subst hm
  simp only [buffer_file_new]
  cases k with
  | succ k =>
    rw [chunk_alloc_ofPop_spare]
    refine ⟨pop ++ [freshChunk W C name], k, rfl, by simp; omega, ?_, ?_⟩
    · intro f hf
      rcases List.mem_append.1 hf with h1 | h1
      · have := hcur f h1; simp; omega
      · simp only [List.mem_singleton] at h1; subst h1; simp
    · intro f hf hov
      rcases List.mem_append.1 hf with h1 | h1
      · obtain ⟨y, hy, hyt⟩ := htag f h1 hov
        exact ⟨y, by rw [List.getElem?_append_left (hcur f h1)]; exact hy, hyt⟩
      · simp only [List.mem_singleton] at h1; subst h1
        exact ⟨freshChunk W C name, getElem?_concat0 _ _ _, rfl⟩
  | zero =>
    obtain ⟨init, l, hsplit⟩ := exists_concat_of_ne_nil pop
      (by intro h; subst h; simp at hlen; omega)
    subst hsplit
    rw [chunk_alloc_ofPop_full]
    have hl : init.length + 1 = N := by simpa using hlen
    refine ⟨init ++ [l.reset], 0, rfl, by simpa using hlen, ?_, ?_⟩
    · intro f hf
      rcases List.mem_append.1 hf with h1 | h1
      · have := hcur f h1; simpa using this
      · simp only [List.mem_singleton] at h1; subst h1; simp
    · intro f hf hov
      have hlt : f.cur + 1 < N := by
        rcases hov with h4 | h4
        · cases h4
        · exact h4
      rcases List.mem_append.1 hf with h1 | h1
      · obtain ⟨y, hy, hyt⟩ := htag f h1 (Or.inr hlt)
        rw [List.getElem?_append_left (by omega)] at hy
        exact ⟨y, by rw [List.getElem?_append_left (by omega)]; exact hy, hyt⟩
      · simp only [List.mem_singleton] at h1; subst h1
        simp only at hlt
        omega

theorem TagQ_run (W C N : Nat) (hN : 0 < N) (hC : 0 < C) (calls : List Call) :
    ∀ w, TagQ W N (fun _ => []) w.mem w.files →
      ∃ w1, World.run W C w calls = some w1 ∧ TagQ W N (fun _ => []) w1.mem w1.files := by
  induction calls with
  | nil => intro w h; exact ⟨w, rfl, h⟩
  | cons c cs ih =>
    intro w h
    have hcall : ∃ w1, World.call W C w c = some w1 ∧
        TagQ W N (fun _ => []) w1.mem w1.files := by
      cases c with
      | new name => exact ⟨_, rfl, TagQ_new W C N hN _ w.mem w.files name h⟩
      | append j str =>
        simp only [World.call]
        rcases hf : w.files[j]? with _ | file
        · exact ⟨w, rfl, h⟩
        · obtain ⟨r, hr, hq⟩ := append_lift W C hC (TagQ W N) (TagQ_basic W N)
            (TagQ_iter W C N) (fun _ => []) w.mem w.files j file str h hf
          simp only [hr]
          exact ⟨_, rfl, hq⟩
    obtain ⟨w1, h1, h2⟩ := hcall
    obtain ⟨w2, h3, h4⟩ := ih w1 h2
    exact ⟨w2, by simp only [World.run, h1, h3], h4⟩

/-! ## The bytes of a stream -/

theorem streamBytes_append (l1 l2 : List Chunk) (t : List Byte) :
    streamBytes (l1 ++ l2) t = streamBytes l1 t ++ streamBytes l2 t := by
  simp [streamBytes, List.filter_append, List.flatMap_append]

theorem streamBytes_cons (c : Chunk) (l : List Chunk) (t : List Byte) :
    streamBytes (c :: l) t
      = (if c.dest_stream = t then c.payload else []) ++ streamBytes l t := by
  by_cases h : c.dest_stream = t
  · simp [streamBytes, List.filter_cons, h]
  · simp [streamBytes, List.filter_cons, h]

theorem streamBytes_none (l : List Chunk) (t : List Byte)
    (h : ∀ c ∈ l, c.dest_stream ≠ t) : streamBytes l t = [] := by
  induction l with
  | nil => rfl
  | cons c l ih =>
    rw [streamBytes_cons, if_neg (h c (List.mem_cons_self _ _)),
      ih (fun x hx => h x (List.mem_cons_of_mem _ hx))]
    rfl

theorem split_at (pop : List Chunk) (i : Nat) (c : Chunk) (h : pop[i]? = some c) :
    pop = pop.take i ++ c :: pop.drop (i + 1) ∧ (pop.take i).length = i := by
  have hi : i < pop.length := by
    rcases Nat.lt_or_ge i pop.length with h1 | h1
    · exact h1
    · rw [List.getElem?_eq_none h1] at h; cases h
  have hc : pop[i] = c := by
    rw [List.getElem?_eq_getElem hi] at h
    exact Option.some.inj h
  constructor
  · conv_lhs => rw [← List.take_append_drop i pop]
    rw [List.drop_eq_getElem_cons hi, hc]
  · rw [List.length_take]; omega

theorem set_split (pop : List Chunk) (i : Nat) (c x : Chunk) (h : pop[i]? = some c) :
    pop.set i x = pop.take i ++ x :: pop.drop (i + 1) := by
  obtain ⟨h1, h2⟩ := split_at pop i c h
  conv_lhs => rw [h1]
  rw [List.set_append_right _ _ (by omega), h2, Nat.sub_self]
  rfl

theorem streamBytes_set_other (pop : List Chunk) (i : Nat) (c x : Chunk) (t : List Byte)
    (h : pop[i]? = some c) (hc : c.dest_stream ≠ t) (hx : x.dest_stream ≠ t) :
    streamBytes (pop.set i x) t = streamBytes pop t := by
  rw [set_split pop i c x h]
  conv_rhs => rw [(split_at pop i c h).1]
  simp only [streamBytes_append, streamBytes_cons, if_neg hc, if_neg hx]

theorem mem_drop_getElem? (pop : List Chunk) (i : Nat) (y : Chunk)
    (hy : y ∈ pop.drop (i + 1)) : ∃ n, i < n ∧ pop[n]? = some y := by
  obtain ⟨n, hn⟩ := List.mem_iff_getElem?.1 hy
  rw [List.getElem?_drop] at hn
  exact ⟨i + 1 + n, by omega, hn⟩

theorem streamBytes_set_last (pop : List Chunk) (i : Nat) (c x : Chunk) (t extra : List Byte)
    (h : pop[i]? = some c) (hc : c.dest_stream = t) (hx : x.dest_stream = t)
    (hpay : x.payload = c.payload ++ extra)
    (hlast : ∀ n y, i < n → pop[n]? = some y → y.dest_stream ≠ t) :
    streamBytes (pop.set i x) t = streamBytes pop t ++ extra := by
  have hpost : streamBytes (pop.drop (i + 1)) t = [] := by
    apply streamBytes_none
    intro y hy
    obtain ⟨n, hn, hyn⟩ := mem_drop_getElem? pop i y hy
    exact hlast n y hn hyn
  rw [set_split pop i c x h]
  conv_rhs => rw [(split_at pop i c h).1]
  simp only [streamBytes_append, streamBytes_cons, if_pos hc, if_pos hx, hpost, hpay,
    List.append_nil, List.append_assoc]

theorem payload_chunkWrite (c : Chunk) (src : List Byte) (h : c.length ≤ c.data.length) :
    (chunkWrite c src).payload = c.payload ++ src := by
  simp only [Chunk.payload, chunkWrite, memcpy]
  have h1 : (c.data.take c.length ++ src).length = c.length + src.length := by
    simp; omega
  rw [← h1, List.take_left' rfl]

theorem payload_fresh (W C : Nat) (dest : List Byte) : (freshChunk W C dest).payload = [] := by
  simp [Chunk.payload, freshChunk]

theorem chunkWrite_data_length (c : Chunk) (src : List Byte)
    (h : c.length + src.length ≤ c.data.length) :
    (chunkWrite c src).data.length = c.data.length := by
  simp only [chunkWrite, memcpy, List.length_append, List.length_take, List.length_drop]
  omega

/-! ## The round-trip invariant under a write into the current chunk -/

theorem tag_ne_of_index_ne (W C : Nat) (pop : List Chunk) (files : List BufferFile)
    (g : Nat → List Byte) (h : CoreP W C pop files g) (i j : Nat) (x f : BufferFile)
    (hx : files[i]? = some x) (hf : files[j]? = some f) (hij : i ≠ j) :
    strncpy W f.dest ≠ strncpy W x.dest := by
  intro heq
  have hd := strncpy_injective W f.dest x.dest (h.fits f (List.getElem?_mem hf))
    (h.fits x (List.getElem?_mem hx)) heq
  exact hij (h.uniq i j x f hx hf hd.symm)

theorem core_write (W C : Nat) (pop : List Chunk) (files : List BufferFile)
    (g : Nat → List Byte) (h : CoreP W C pop files g) (j : Nat) (f : BufferFile) (c : Chunk)
    (p : List Byte) (hf : files[j]? = some f) (hc : pop[f.cur]? = some c)
    (hp : c.length + p.length ≤ C) :
    CoreP W C (pop.set f.cur (chunkWrite c p)) files (Function.update g j (g j ++ p)) := by
  have hcs := h.shape c (List.getElem?_mem hc)
  obtain ⟨c0, hc0, hct⟩ := h.tag j f hf
  rw [hc] at hc0
  simp only [Option.some.injEq] at hc0
  subst hc0
  refine ⟨h.fits, h.uniq, ?_, ?_, ?_, ?_, ?_, ?_⟩
  · intro i x hx
    obtain ⟨y, hy, hyt⟩ := h.tag i x hx
    obtain ⟨z, hz, hzt⟩ := getElem?_set_write_inv pop f.cur x.cur c y p hc hy
    exact ⟨z, hz, by rw [hzt, hyt]⟩
  · intro i x hx n y hn hy
    obtain ⟨z, hz, hzt⟩ := getElem?_set_write pop f.cur n c y p hc hy
    rw [← hzt]
    exact h.last i x hx n z hn hz
  · intro x hx
    rcases mem_set_cases _ _ _ _ hx with h1 | h1
    · exact h.shape x h1
    · subst h1
      refine ⟨hcs.1, ?_, ?_⟩
      · rw [chunkWrite_data_length c p (by omega)]; exact hcs.2.1
      · rw [chunkWrite_length]; exact hp
  · intro x hx
    rcases mem_set_cases _ _ _ _ hx with h1 | h1
    · exact h.owned x h1
    · subst h1
      exact ⟨f, List.getElem?_mem hf, hct⟩
  · intro i x hx
    by_cases hij : i = j
    · subst hij
      rw [hf] at hx
      simp only [Option.some.injEq] at hx
      subst hx
      rw [Function.update_same,
        streamBytes_set_last pop f.cur c (chunkWrite c p) (strncpy W f.dest) p hc hct hct
          (payload_chunkWrite c p (by omega)) (h.last i f hf),
        h.bytes i f hf]
    · rw [Function.update_noteq hij]
      have hne := tag_ne_of_index_ne W C pop files g h i j x f hx hf hij
      rw [streamBytes_set_other pop f.cur c (chunkWrite c p) (strncpy W x.dest) hc
        (by rw [hct]; exact hne) (by rw [chunkWrite_dest, hct]; exact hne)]
      exact h.bytes i x hx
  · intro i hi
    have hj := lt_of_getElem?_some files j f hf
    rw [Function.update_noteq (by omega)]
    exact h.blank i hi

/-! ## The round-trip invariant under an allocation -/

theorem getElem?_set_cases (files : List BufferFile) (j i : Nat) (f1 x : BufferFile)
    (h : (files.set j f1)[i]? = some x) :
    (i = j ∧ x = f1) ∨ (i ≠ j ∧ files[i]? = some x) := by
  by_cases hij : j = i
  · subst hij
    left
    have hj : j < files.length := by
      have := lt_of_getElem?_some _ _ _ h
      simpa using this
    rw [List.getElem?_set_self hj] at h
    exact ⟨rfl, (Option.some.inj h).symm⟩
  · right
    rw [List.getElem?_set_ne hij] at h
    exact ⟨fun e => hij e.symm, h⟩

theorem getElem?_snoc_cases (files : List BufferFile) (i : Nat) (fn x : BufferFile)
    (h : (files ++ [fn])[i]? = some x) :
    (i < files.length ∧ files[i]? = some x) ∨ (i = files.length ∧ x = fn) := by
  rcases Nat.lt_or_ge i files.length with h1 | h1
  · left
    rw [List.getElem?_append_left h1] at h
    exact ⟨h1, h⟩
  · right
    have hlt := lt_of_getElem?_some _ _ _ h
    simp only [List.length_append, List.length_singleton] at hlt
    have hi : i = files.length := by omega
    subst hi
    rw [List.getElem?_append_right (le_refl _)] at h
    simp only [Nat.sub_self, List.getElem?_cons_zero, Option.some.injEq] at h
    exact ⟨rfl, h.symm⟩

theorem getElem?_pop_snoc (pop : List Chunk) (x y : Chunk) (n : Nat)
    (h : (pop ++ [x])[n]? = some y) :
    (n < pop.length ∧ pop[n]? = some y) ∨ (n = pop.length ∧ y = x) := by
  rcases Nat.lt_or_ge n pop.length with h1 | h1
  · left
    rw [List.getElem?_append_left h1] at h
    exact ⟨h1, h⟩
  · right
    have hlt : n < (pop ++ [x]).length := by
      rcases Nat.lt_or_ge n (pop ++ [x]).length with h2 | h2
      · exact h2
      · rw [List.getElem?_eq_none h2] at h; cases h
    simp only [List.length_append, List.length_singleton] at hlt
    have hi : n = pop.length := by omega
    subst hi
    rw [getElem?_concat0] at h
    exact ⟨rfl, (Option.some.inj h).symm⟩

theorem getElem?_pop_left (pop : List Chunk) (x c : Chunk) (n : Nat) (h : pop[n]? = some c) :
    (pop ++ [x])[n]? = some c := by
  have hn : n < pop.length := by
    rcases Nat.lt_or_ge n pop.length with h1 | h1
    · exact h1
    · rw [List.getElem?_eq_none h1] at h; cases h
  rw [List.getElem?_append_left hn]
  exact h

theorem streamBytes_snoc_fresh (W C : Nat) (pop : List Chunk) (dest t : List Byte) :
    streamBytes (pop ++ [freshChunk W C dest]) t = streamBytes pop t := by
  rw [streamBytes_append, streamBytes_cons, payload_fresh]
  simp [streamBytes]

theorem fresh_shape (W C : Nat) (dest : List Byte) :
    (freshChunk W C dest).dest_stream.length = W ∧ (freshChunk W C dest).data.length = C ∧
      (freshChunk W C dest).length ≤ C := by
  simp [freshChunk, strncpy_length]

theorem core_alloc (W C : Nat) (pop : List Chunk) (files : List BufferFile)
    (g : Nat → List Byte) (h : CoreP W C pop files g) (j : Nat) (f : BufferFile)
    (hf : files[j]? = some f) :
    CoreP W C (pop ++ [freshChunk W C f.dest])
      (files.set j { dest := f.dest, cur := pop.length }) g := by
  have hold : ∀ (i : Nat) (x : BufferFile), (files.set j { dest := f.dest, cur := pop.length })[i]? = some x →
      ∃ y, files[i]? = some y ∧ y.dest = x.dest := by
    intro i x hx
    rcases getElem?_set_cases _ _ _ _ _ hx with ⟨h1, h2⟩ | ⟨_, h2⟩
    · subst h1 h2; exact ⟨f, hf, rfl⟩
    · exact ⟨x, h2, rfl⟩
  refine ⟨?_, ?_, ?_, ?_, ?_, ?_, ?_, ?_⟩
  · intro x hx
    rcases List.mem_or_eq_of_mem_set hx with h1 | h1
    · exact h.fits x h1
    · subst h1; exact h.fits f (List.getElem?_mem hf)
  · intro a b xa xb ha hb hab
    obtain ⟨ya, hya, hyad⟩ := hold a xa ha
    obtain ⟨yb, hyb, hybd⟩ := hold b xb hb
    exact h.uniq a b ya yb hya hyb (by rw [hyad, hybd, hab])
  · intro i x hx
    rcases getElem?_set_cases _ _ _ _ _ hx with ⟨_, h2⟩ | ⟨_, h2⟩
    · subst h2
      exact ⟨freshChunk W C f.dest, getElem?_concat0 _ _ _, rfl⟩
    · obtain ⟨y, hy, hyt⟩ := h.tag i x h2
      exact ⟨y, getElem?_pop_left pop _ y x.cur hy, hyt⟩
  · intro i x hx n y hn hy
    rcases getElem?_pop_snoc pop _ y n hy with ⟨hlt, h3⟩ | ⟨h3, h4⟩
    · rcases getElem?_set_cases _ _ _ _ _ hx with ⟨_, h2⟩ | ⟨_, h2⟩
      · subst h2
        simp only at hn
        omega
      · exact h.last i x h2 n y hn h3
    · rcases getElem?_set_cases _ _ _ _ _ hx with ⟨_, h2⟩ | ⟨hij, h2⟩
      · subst h2; simp only at hn; omega
      · subst h4
        exact tag_ne_of_index_ne W C pop files g h i j x f h2 hf hij
  · intro x hx
    rcases List.mem_append.1 hx with h1 | h1
    · exact h.shape x h1
    · simp only [List.mem_singleton] at h1; subst h1; exact fresh_shape W C f.dest
  · intro x hx
    have hkeep : ∀ y ∈ files, ∃ z ∈ files.set j { dest := f.dest, cur := pop.length },
        z.dest = y.dest := by
      intro y hy
      obtain ⟨i, hi⟩ := List.mem_iff_getElem?.1 hy
      by_cases hij : j = i
      · subst hij
        rw [hf] at hi
        simp only [Option.some.injEq] at hi
        subst hi
        exact ⟨_, List.getElem?_mem
          (List.getElem?_set_self (lt_of_getElem?_some files j f hf)), rfl⟩
      · exact ⟨y, List.getElem?_mem (by rw [List.getElem?_set_ne hij]; exact hi), rfl⟩
    rcases List.mem_append.1 hx with h1 | h1
    · obtain ⟨y, hy, hyt⟩ := h.owned x h1
      obtain ⟨z, hz, hzd⟩ := hkeep y hy
      exact ⟨z, hz, by rw [hyt, hzd]⟩
    · simp only [List.mem_singleton] at h1; subst h1
      obtain ⟨z, hz, hzd⟩ := hkeep f (List.getElem?_mem hf)
      exact ⟨z, hz, by rw [hzd]; rfl⟩
  · intro i x hx
    rw [streamBytes_snoc_fresh]
    obtain ⟨y, hy, hyd⟩ := hold i x hx
    rw [← hyd]
    exact h.bytes i y hy
  · intro i hi
    rw [List.length_set] at hi
    exact h.blank i hi

theorem core_new (W C : Nat) (pop : List Chunk) (files : List BufferFile)
    (g : Nat → List Byte) (h : CoreP W C pop files g) (name : List Byte)
    (hfit : Fits W name) (hnew : ∀ f ∈ files, f.dest ≠ name) :
    CoreP W C (pop ++ [freshChunk W C name])
      (files ++ [{ dest := name, cur := pop.length }]) g := by
  have hne : ∀ f ∈ files, strncpy W f.dest ≠ strncpy W name := by
    intro f hf heq
    exact hnew f hf (strncpy_injective W f.dest name (h.fits f hf) hfit heq)
  refine ⟨?_, ?_, ?_, ?_, ?_, ?_, ?_, ?_⟩
  · intro x hx
    rcases List.mem_append.1 hx with h1 | h1
    · exact h.fits x h1
    · simp only [List.mem_singleton] at h1; subst h1; exact hfit
  · intro a b xa xb ha hb hab
    rcases getElem?_snoc_cases _ _ _ _ ha with ⟨_, h1⟩ | ⟨h1, h2⟩
    · rcases getElem?_snoc_cases _ _ _ _ hb with ⟨_, h3⟩ | ⟨h3, h4⟩
      · exact h.uniq a b xa xb h1 h3 hab
      · subst h4
        exact absurd hab (hnew xa (List.getElem?_mem h1))
    · rcases getElem?_snoc_cases _ _ _ _ hb with ⟨_, h3⟩ | ⟨h3, h4⟩
      · subst h2
        exact absurd hab.symm (hnew xb (List.getElem?_mem h3))
      · omega
  · intro i x hx
    rcases getElem?_snoc_cases _ _ _ _ hx with ⟨_, h1⟩ | ⟨_, h2⟩
    · obtain ⟨y, hy, hyt⟩ := h.tag i x h1
      exact ⟨y, getElem?_pop_left pop _ y x.cur hy, hyt⟩
    · subst h2
      exact ⟨freshChunk W C name, getElem?_concat0 _ _ _, rfl⟩
  · intro i x hx n y hn hy
    rcases getElem?_pop_snoc pop _ y n hy with ⟨hlt, h3⟩ | ⟨h3, h4⟩
    · rcases getElem?_snoc_cases _ _ _ _ hx with ⟨_, h1⟩ | ⟨_, h2⟩
      · exact h.last i x h1 n y hn h3
      · subst h2
        simp only at hn
        omega
    · rcases getElem?_snoc_cases _ _ _ _ hx with ⟨_, h1⟩ | ⟨_, h2⟩
      · subst h4
        exact fun heq => hne x (List.getElem?_mem h1) heq.symm
      · subst h2; simp only at hn; omega
  · intro x hx
    rcases List.mem_append.1 hx with h1 | h1
    · exact h.shape x h1
    · simp only [List.mem_singleton] at h1; subst h1; exact fresh_shape W C name
  · intro x hx
    rcases List.mem_append.1 hx with h1 | h1
    · obtain ⟨y, hy, hyt⟩ := h.owned x h1
      exact ⟨y, List.mem_append_left _ hy, hyt⟩
    · simp only [List.mem_singleton] at h1; subst h1
      exact ⟨_, List.mem_append_right _ (List.mem_singleton_self _), rfl⟩
  · intro i x hx
    rw [streamBytes_snoc_fresh]
    rcases getElem?_snoc_cases _ _ _ _ hx with ⟨_, h1⟩ | ⟨h1, h2⟩
    · exact h.bytes i x h1
    · subst h1 h2
      rw [h.blank files.length (le_refl _)]
      apply streamBytes_none
      intro y hy
      obtain ⟨z, hz, hzt⟩ := h.owned y hy
      rw [hzt]
      exact hne z hz
  · intro i hi
    simp only [List.length_append, List.length_singleton] at hi
    exact h.blank i (by omega)

/-! ## The round-trip invariant along a run -/

theorem CoreQ_basic (W C N : Nat) (names : List (List Byte)) (g : Nat → List Byte) (m : Mem)
    (files : List BufferFile) (h : CoreQ W C N names g m files) :
    ∃ pop k, m.bm = BufferMap.ofPop pop k ∧ ∀ f ∈ files, f.cur < pop.length := by
  obtain ⟨pop, k, hm, _, hcur, _⟩ := h
  exact ⟨pop, k, hm, hcur⟩

theorem map_dest_set (files : List BufferFile) (j : Nat) (f f1 : BufferFile)
    (hf : files[j]? = some f) (hd : f1.dest = f.dest) :
    (files.set j f1).map (fun x => x.dest) = files.map (fun x => x.dest) := by
  apply List.ext_getElem?
  intro i
  rw [List.getElem?_map, List.getElem?_map]
  by_cases hij : j = i
  · subst hij
    rw [List.getElem?_set_self (lt_of_getElem?_some files j f hf), hf]
    simp [hd]
  · rw [List.getElem?_set_ne hij]

theorem CoreQ_iter (W C N : Nat) (names : List (List Byte)) (g : Nat → List Byte) (m : Mem)
    (files : List BufferFile) (j : Nat) (f : BufferFile) (s : List Byte) (m1 : Mem)
    (f1 : BufferFile) (s1 : List Byte)
    (hQ : CoreQ W C N names g m files) (hf : files[j]? = some f)
    (hit : append_iter W C m f s = some (m1, f1, s1)) :
    ∃ p, s = p ++ s1 ∧
      CoreQ W C N names (Function.update g j (g j ++ p)) m1 (files.set j f1) := by
  obtain ⟨pop, k, hm, hlen, hcur, hnames, hcore⟩ := hQ
  have hfm : f ∈ files := List.getElem?_mem hf
  obtain ⟨c, hc⟩ := getElem?_of_lt pop f.cur (hcur f hfm)
  obtain ⟨hs1, hcases⟩ := append_iter_cases W C m f s pop k c m1 f1 s1 hm hc hit
  refine ⟨s.take (min (C - c.length) s.length), by rw [hs1, List.take_append_drop], ?_⟩
  have hwrite : m.overflowed = false →
      CoreP W C (pop.set f.cur (chunkWrite c (s.take (min (C - c.length) s.length)))) files
        (Function.update g j (g j ++ s.take (min (C - c.length) s.length))) := by
    intro hov
    have hcp := hcore hov
    have hcs := hcp.shape c (List.getElem?_mem hc)
    exact core_write W C pop files g hcp j f c _ hf hc
      (by rw [List.length_take]; have := hcs.2.2; omega)
  rcases hcases with ⟨_, h1, h2⟩ | ⟨_, k1, hk, h1, h2⟩ | ⟨_, hk, init, l, hsplit, h1, h2⟩
  · subst h1
    rw [h2, set_self_of_getElem? files j f hf]
    exact ⟨_, k, rfl, by simpa using hlen, by simpa using hcur, hnames, hwrite⟩
  · subst h1 h2 hk
    refine ⟨_, k1, rfl, by simp; omega, ?_, ?_, ?_⟩
    · intro g1 hg1
      rcases List.mem_or_eq_of_mem_set hg1 with h3 | h3
      · have := hcur g1 h3; simp; omega
      · subst h3; simp
    · rw [map_dest_set files j f { dest := f.dest, cur := pop.length } hf rfl]; exact hnames
    · intro hov
      have hw := hwrite hov
      have := core_alloc W C _ files _ hw j f hf
      rw [List.length_set] at this
      exact this
  · subst h1 h2 hk
    have hl : init.length + 1 = pop.length := by
      have := congrArg List.length hsplit
      simpa using this.symm
    refine ⟨_, 0, rfl, by simp; omega, ?_, ?_, ?_⟩
    · intro g1 hg1
      rcases List.mem_or_eq_of_mem_set hg1 with h3 | h3
      · have := hcur g1 h3; simp; omega
      · subst h3; simp
    · rw [map_dest_set files j f { dest := f.dest, cur := init.length } hf rfl]; exact hnames
    · intro hov; cases hov

theorem CoreQ_new (W C N : Nat) (hN : 0 < N) (names : List (List Byte))
    (g : Nat → List Byte) (m : Mem) (files : List BufferFile) (name : List Byte)
    (hQ : CoreQ W C N names g m files) (hfit : Fits W name) (hnew : name ∉ names) :
    CoreQ W C N (names ++ [name]) g (buffer_file_new W C m name).1
      (files ++ [(buffer_file_new W C m name).2]) := by
  obtain ⟨pop, k, hm, hlen, hcur, hnames, hcore⟩ := hQ
  obtain ⟨bm, o⟩ := m
  simp only at hm hcore
  subst hm
  simp only [buffer_file_new]
  cases k with
  | succ k =>
    rw [chunk_alloc_ofPop_spare]
    refine ⟨pop ++ [freshChunk W C name], k, rfl, by simp; omega, ?_, ?_, ?_⟩
    · intro f hf
      rcases List.mem_append.1 hf with h1 | h1
      · have := hcur f h1; simp; omega
      · simp only [List.mem_singleton] at h1; subst h1; simp
    · simp [hnames]
    · intro hov
      refine core_new W C pop files g (hcore hov) name hfit ?_
      intro f hf hd
      apply hnew
      rw [← hnames, ← hd]
      exact List.mem_map_of_mem (fun x => x.dest) hf
  | zero =>
    obtain ⟨init, l, hsplit⟩ := exists_concat_of_ne_nil pop
      (by intro h; subst h; simp at hlen; omega)
    subst hsplit
    rw [chunk_alloc_ofPop_full]
    refine ⟨init ++ [l.reset], 0, rfl, by simpa using hlen, ?_, by simp [hnames], ?_⟩
    · intro f hf
      rcases List.mem_append.1 hf with h1 | h1
      · have := hcur f h1; simpa using this
      · simp only [List.mem_singleton] at h1; subst h1; simp
    · intro hov; cases hov

theorem CoreQ_run (W C N : Nat) (hN : 0 < N) (hC : 0 < C) (calls : List Call) :
    ∀ (w : World) (names : List (List Byte)) (g : Nat → List Byte),
      CoreQ W C N names g w.mem w.files →
      (∀ name ∈ newNames calls, Fits W name) →
      (names ++ newNames calls).Nodup →
      ∃ w1, World.run W C w calls = some w1 ∧
        CoreQ W C N (names ++ newNames calls)
          (calls.foldl record (w.files.length, g)).2 w1.mem w1.files := by
  induction calls with
  | nil =>
    intro w names g h _ _
    exact ⟨w, rfl, by simpa [newNames] using h⟩
  | cons c cs ih =>
    intro w names g h hfit hnd
    cases c with
    | new name =>
      simp only [newNames] at hfit hnd
      have hnew : name ∉ names := by
        intro hmem
        have := List.nodup_append.1 hnd
        exact this.2.2 hmem (List.mem_cons_self _ _)
      have hq := CoreQ_new W C N hN names g w.mem w.files name h
        (hfit name (List.mem_cons_self _ _)) hnew
      obtain ⟨w2, h3, h4⟩ := ih
        { mem := (buffer_file_new W C w.mem name).1,
          files := w.files ++ [(buffer_file_new W C w.mem name).2] }
        (names ++ [name]) g hq
        (fun x hx => hfit x (List.mem_cons_of_mem _ hx))
        (by simpa using hnd)
      refine ⟨w2, by simp only [World.run, World.call, h3], ?_⟩
      simpa [newNames, record] using h4
    | append j str =>
      simp only [newNames] at hfit hnd
      rcases hf : w.files[j]? with _ | file
      · have hj : ¬ j < w.files.length := by
          intro hlt
          rw [List.getElem?_eq_getElem hlt] at hf
          cases hf
        obtain ⟨w2, h3, h4⟩ := ih w names g h hfit hnd
        refine ⟨w2, by simp only [World.run, World.call, hf, h3], ?_⟩
        simpa [newNames, record, hj] using h4
      · have hj : j < w.files.length := lt_of_getElem?_some _ _ _ hf
        obtain ⟨r, hr, hq⟩ := append_lift W C hC (CoreQ W C N names) (CoreQ_basic W C N names)
          (CoreQ_iter W C N names) g w.mem w.files j file str h hf
        obtain ⟨w2, h3, h4⟩ := ih { mem := r.1, files := w.files.set j r.2 } names _ hq hfit hnd
        refine ⟨w2, by simp only [World.run, World.call, hf, hr, h3], ?_⟩
        simpa [newNames, record, hj] using h4

/-! ## The client side: framed reads of the dump and the output directory -/

theorem requeue_delivers (bs : List Byte) (rx : List ReadEv) (out : List Byte)
    (h1 : bs = out.take bs.length) (h2 : Delivers rx (out.drop bs.length)) :
    Delivers (requeue bs rx) out := by
  unfold requeue
  by_cases hb : bs.length = 0
  · simp only [hb, if_true]
    rw [hb] at h2
    simpa using h2
  · simp only [hb, if_false, Delivers]
    exact ⟨h1, h2⟩

theorem read_all_loop_delivers (rx : List ReadEv) :
    ∀ (len total : Nat) (buf rec more : List Byte), Delivers rx (rec ++ more) →
      rec.length = len → 0 < len →
      ∃ rx1, read_all_loop rx len total buf =
          some (toInt32 (total + len), memcpy buf total rec, rx1) ∧ Delivers rx1 more := by
  induction rx with
  | nil => intro len total buf rec more h; exact absurd h (by simp [Delivers])
  | cons ev rx ih =>
    intro len total buf rec more h hrec hlen
    have hne : len ≠ 0 := by omega
    cases ev with
    | eintr =>
      obtain ⟨rx1, h1, h2⟩ := ih len total buf rec more (by simpa [Delivers] using h) hrec hlen
      exact ⟨rx1, by simpa [read_all_loop, hne] using h1, h2⟩
    | err => exact absurd h (by simp [Delivers])
    | seg bs =>
      simp only [Delivers] at h
      by_cases hb : bs.length = 0
      · simp only [hb, if_true] at h
        have := congrArg List.length h
        simp only [List.length_append, List.length_nil] at this
        omega
      · simp only [hb, if_false] at h
        obtain ⟨hbs, hrest⟩ := h
        by_cases hfit : len ≤ bs.length
        · have hmin : min bs.length len = len := by omega
          have htake : bs.take len = rec := by
            rw [hbs, List.take_take, Nat.min_eq_left hfit,
              List.take_append_of_le_length (by omega), List.take_of_length_le (by omega)]
          refine ⟨requeue (bs.drop len) rx, ?_, ?_⟩
          · rw [read_all_loop]
            simp only [hne, if_false, hmin, Nat.sub_self, if_true, htake]
          · apply requeue_delivers
            · rw [List.length_drop]
              conv_lhs => rw [hbs]
              rw [List.drop_take, ← hrec, List.drop_left]
            · rw [List.length_drop]
              have : more.drop (bs.length - len) = (rec ++ more).drop bs.length := by
                have e : bs.length = rec.length + (bs.length - len) := by omega
                conv_rhs => rw [e, List.drop_append]
              rw [this]
              exact hrest
        · have hlt : bs.length < len := by omega
          have hmin : min bs.length len = bs.length := by omega
          have hstep : read_all_loop (ReadEv.seg bs :: rx) len total buf =
              read_all_loop rx (len - bs.length) (total + bs.length) (memcpy buf total bs) := by
            rw [read_all_loop]
            have h2 : ¬ len - bs.length = 0 := by omega
            simp only [hne, if_false, hmin, hb, h2, List.take_length]
          have hbs2 : bs = rec.take bs.length := by
            have e := hbs
            rw [List.take_append_of_le_length (by omega)] at e
            exact e
          have hdrop : (rec ++ more).drop bs.length = rec.drop bs.length ++ more :=
            List.drop_append_of_le_length (by omega)
          rw [hdrop] at hrest
          obtain ⟨rx1, h1, h2⟩ := ih (len - bs.length) (total + bs.length)
            (memcpy buf total bs) (rec.drop bs.length) more hrest
            (by rw [List.length_drop]; omega) (by omega)
          refine ⟨rx1, ?_, h2⟩
          rw [hstep, h1, memcpy_memcpy]
          have e1 : bs ++ rec.drop bs.length = rec := by
            conv_lhs => rw [hbs2]
            rw [List.length_take, Nat.min_eq_left (by omega), List.take_append_drop]
          rw [e1]
          congr 3
          omega

theorem read_all_delivers (rx : List ReadEv) (buf rec more : List Byte) (len : Nat)
    (h : Delivers rx (rec ++ more)) (hrec : rec.length = len) (hlen : 0 < len) :
    ∃ rx1, read_all rx buf len = some (toInt32 len, rec ++ buf.drop len, rx1) ∧
      Delivers rx1 more := by
  obtain ⟨rx1, h1, h2⟩ := read_all_loop_delivers rx len 0 buf rec more h hrec hlen
  refine ⟨rx1, ?_, h2⟩
  rw [read_all, h1, memcpy_zero, Nat.zero_add, hrec]

theorem read_all_end (rx : List ReadEv) (buf : List Byte) (len : Nat)
    (h : Delivers rx []) (hlen : 0 < len) :
    ∃ rx1, read_all rx buf len = some (0, buf, rx1) := by
  have hne : len ≠ 0 := by omega
  induction rx with
  | nil => exact absurd h (by simp [Delivers])
  | cons ev rx ih =>
    cases ev with
    | eintr =>
      obtain ⟨rx1, h1⟩ := ih (by simpa [Delivers] using h)
      exact ⟨rx1, by simpa [read_all, read_all_loop, hne] using h1⟩
    | err => exact absurd h (by simp [Delivers])
    | seg bs =>
      simp only [Delivers] at h
      by_cases hb : bs.length = 0
      · have : bs = [] := List.eq_nil_of_length_eq_zero hb
        subst this
        exact ⟨ReadEv.seg [] :: rx, by simp [read_all, read_all_loop, hne]⟩
      · simp only [hb, if_false, List.take_nil] at h
        exact absurd (by rw [h.1]; rfl) hb

theorem delivers_weight (rx : List ReadEv) :
    ∀ out, Delivers rx out → out.length ≤ rxWeight rx := by
  induction rx with
  | nil => intro out h; exact absurd h (by simp [Delivers])
  | cons ev rx ih =>
    intro out h
    cases ev with
    | eintr => have := ih out (by simpa [Delivers] using h); simp [rxWeight]; omega
    | err => exact absurd h (by simp [Delivers])
    | seg bs =>
      simp only [Delivers] at h
      by_cases hb : bs.length = 0
      · simp only [hb, if_true] at h
        subst h
        simp
      · simp only [hb, if_false] at h
        have := ih _ h.2
        rw [List.length_drop] at this
        simp only [rxWeight]
        omega

/-! ## Record images -/

theorem leValue_leBytes (n v : Nat) (h : v < 256 ^ n) : leValue (leBytes n v) = v := by
  induction n generalizing v with
  | zero => simp at h; subst h; rfl
  | succ n ih =>
    have hdiv : v / 256 < 256 ^ n := by
      rw [Nat.div_lt_iff_lt_mul (by decide)]
      rw [Nat.pow_succ] at h
      exact h
    simp only [leBytes, leValue, ih (v / 256) hdiv]
    have := Nat.mod_add_div v 256
    omega

theorem chunkOfImage_chunkImage (W C : Nat) (c : Chunk) (hW : c.dest_stream.length = W)
    (hC : c.data.length = C) (hl : c.length < 256 ^ 8) :
    chunkOfImage W C (chunkImage c) = c := by
  have h8 : (leBytes 8 c.length).length = 8 := leBytes_length 8 c.length
  have e1 : (c.dest_stream ++ leBytes 8 c.length ++ c.data).take W = c.dest_stream := by
    rw [List.append_assoc, ← hW]; exact List.take_left' rfl
  have e2 : (c.dest_stream ++ leBytes 8 c.length ++ c.data).drop W
      = leBytes 8 c.length ++ c.data := by
    rw [List.append_assoc, ← hW]; exact List.drop_left' rfl
  have e3 : (c.dest_stream ++ leBytes 8 c.length ++ c.data).drop (W + 8) = c.data := by
    have : (c.dest_stream ++ leBytes 8 c.length).length = W + 8 := by simp [hW, h8]
    rw [← this]; exact List.drop_left' rfl
  have e4 : (leBytes 8 c.length ++ c.data).take 8 = leBytes 8 c.length := by
    conv_lhs => rw [← h8]
    exact List.take_left' rfl
  simp only [chunkOfImage, chunkImage, e1, e2, e3, e4, leValue_leBytes 8 c.length hl]
  rw [List.take_of_length_le (by omega)]

theorem write_all_loop_ret (tx : List WriteEv) :
    ∀ (buf : List Byte) (total : Nat) (sent : List Byte), WriteEv.err ∉ tx →
      (write_all_loop tx buf total sent).1 = toInt32 (total + buf.length) := by
  induction tx with
  | nil => intro buf total sent _; simp [write_all_loop]
  | cons ev tx ih =>
    intro buf total sent h
    have htx : WriteEv.err ∉ tx := fun hm => h (List.mem_cons_of_mem _ hm)
    by_cases hb : buf.length = 0
    · simp only [write_all_loop, hb, if_true, Nat.add_zero]
    · simp only [write_all_loop, hb, if_false]
      cases ev with
      | eintr => exact ih buf total sent htx
      | err => exact absurd (List.mem_cons_self _ _) h
      | took n =>
        have := ih (buf.drop n) (total + min n buf.length) (sent ++ buf.take n) htx
        simp only [this, List.length_drop]
        congr 1
        omega

/-! ## The output directory -/

theorem Dir.content_appendTo_same (d : Dir) (name bytes : List Byte) :
    (Dir.appendTo d name bytes).content name = some ((d.content name).getD [] ++ bytes) := by
  induction d with
  | nil => simp [Dir.appendTo, Dir.content]
  | cons e d ih =>
    by_cases he : e.1 = name
    · simp [Dir.appendTo, Dir.content, he]
    · simp only [Dir.content] at ih
      simp [Dir.appendTo, Dir.content, he, ih]

theorem Dir.content_appendTo_other (d : Dir) (name other bytes : List Byte)
    (h : name ≠ other) :
    (Dir.appendTo d name bytes).content other = d.content other := by
  induction d with
  | nil => simp [Dir.appendTo, Dir.content, h]
  | cons e d ih =>
    by_cases he : e.1 = name
    · have : ¬ e.1 = other := by rw [he]; exact h
      simp [Dir.appendTo, Dir.content, he, h]
    · simp only [Dir.content] at ih
      by_cases ho : e.1 = other
      · have hon : ¬ other = name := fun x => h x.symm
        have he2 : ¬ e.1 = name := he
        simp only [Dir.appendTo, Dir.content, he2, if_false, List.find?_cons, ho,
          decide_True]
        rw [if_neg hon]
        simp [ho]
      · simp [Dir.appendTo, Dir.content, he, ho, ih]

theorem Dir.receive_other (pop : List Chunk) (name : List Byte) :
    ∀ d : Dir, (∀ c ∈ pop, cstr c.dest_stream ≠ name) →
      (d.receive pop).content name = d.content name := by
  induction pop with
  | nil => intro d _; rfl
  | cons c pop ih =>
    intro d h
    simp only [Dir.receive, List.foldl_cons]
    have := ih (d.appendTo (cstr c.dest_stream) c.payload)
      (fun x hx => h x (List.mem_cons_of_mem _ hx))
    simp only [Dir.receive] at this
    rw [this, Dir.content_appendTo_other _ _ _ _ (h c (List.mem_cons_self _ _))]

theorem fileBytes_cons (c : Chunk) (pop : List Chunk) (name : List Byte) :
    fileBytes (c :: pop) name
      = (if cstr c.dest_stream = name then c.payload else []) ++ fileBytes pop name := by
  by_cases h : cstr c.dest_stream = name
  · simp [fileBytes, List.filter_cons, h]
  · simp [fileBytes, List.filter_cons, h]

theorem Dir.receive_content (pop : List Chunk) (name : List Byte) :
    ∀ d : Dir, (∃ c ∈ pop, cstr c.dest_stream = name) →
      (d.receive pop).content name = some ((d.content name).getD [] ++ fileBytes pop name) := by
  induction pop with
  | nil => intro d h; obtain ⟨c, hc, _⟩ := h; cases hc
  | cons c pop ih =>
    intro d h
    have hstep : Dir.receive d (c :: pop)
        = Dir.receive (d.appendTo (cstr c.dest_stream) c.payload) pop := rfl
    rw [hstep, fileBytes_cons]
    by_cases hc : cstr c.dest_stream = name
    · rw [if_pos hc]
      by_cases hmore : ∃ x ∈ pop, cstr x.dest_stream = name
      · rw [ih _ hmore, hc, Dir.content_appendTo_same]
        simp [List.append_assoc]
      · have hnone : ∀ x ∈ pop, cstr x.dest_stream ≠ name :=
          fun x hx hn => hmore ⟨x, hx, hn⟩
        rw [Dir.receive_other pop name _ hnone, hc, Dir.content_appendTo_same]
        have : fileBytes pop name = [] := by
          simp only [fileBytes]
          rw [List.filter_eq_nil_iff.2 (fun x hx => by simpa using hnone x hx)]
          rfl
        rw [this, List.append_nil]
    · rw [if_neg hc, List.nil_append]
      have hmore : ∃ x ∈ pop, cstr x.dest_stream = name := by
        obtain ⟨x, hx, hn⟩ := h
        rcases List.mem_cons.1 hx with h1 | h1
        · subst h1; exact absurd hn hc
        · exact ⟨x, h1, hn⟩
      rw [ih _ hmore, Dir.content_appendTo_other _ _ _ _ hc]

/-! ## The client loop on a delivered dump -/

theorem sizeofChunk_pos (W C : Nat) : 0 < sizeofChunk W C := by
  unfold sizeofChunk; omega

theorem length_le_images (pop : List Chunk) : pop.length ≤ (pop.flatMap chunkImage).length := by
  induction pop with
  | nil => simp
  | cons c pop ih =>
    simp only [List.flatMap_cons, List.length_cons, List.length_append]
    have : 8 ≤ (chunkImage c).length := by
      simp [chunkImage, leBytes_length]; omega
    omega

theorem cstr_append_of_nul (a b : List Byte) (h : (0 : Byte) ∈ a) : cstr (a ++ b) = cstr a := by
  induction a with
  | nil => cases h
  | cons x a ih =>
    by_cases hx : x = 0
    · subst hx; simp [cstr]
    · have hmem : (0 : Byte) ∈ a := by
        rcases List.mem_cons.1 h with h1 | h1
        · exact absurd h1.symm hx
        · exact h1
      have hd : decide (x ≠ 0) = true := by simpa using hx
      have := ih hmem
      simp only [cstr] at this ⊢
      rw [List.cons_append, List.takeWhile_cons, List.takeWhile_cons, hd, if_pos rfl, if_pos rfl,
        this]

theorem printed_chunkImage (c : Chunk) (h : (0 : Byte) ∈ c.dest_stream) :
    printed (chunkImage c) = some (cstr c.dest_stream) := by
  unfold printed chunkImage
  rw [if_pos (List.mem_append_left _ (List.mem_append_left _ h)), List.append_assoc,
    cstr_append_of_nul _ _ h]

theorem fopen_snprintf (PATH_MAX NAME_MAX : Nat) (output_path name : List Byte)
    (hplain : PlainName NAME_MAX name)
    (hroom : output_path.length + 1 + name.length ≤ PATH_MAX - 2) :
    fopen NAME_MAX output_path (snprintf (PATH_MAX - 1) (output_path ++ 47 :: name))
      = some name := by
  have hcut : snprintf (PATH_MAX - 1) (output_path ++ 47 :: name) = output_path ++ 47 :: name := by
    unfold snprintf
    apply List.take_of_length_le
    simp only [List.length_append, List.length_cons]
    omega
  have htake : (output_path ++ 47 :: name).take (output_path.length + 1)
      = output_path ++ [47] := by
    have : output_path ++ 47 :: name = (output_path ++ [47]) ++ name := by simp
    rw [this, List.take_append_of_le_length (by simp), List.take_of_length_le (by simp)]
  have hdrop : (output_path ++ 47 :: name).drop (output_path.length + 1) = name := by
    have : output_path ++ 47 :: name = (output_path ++ [47]) ++ name := by simp
    rw [this, List.drop_append_of_le_length (by simp), List.drop_of_length_le (by simp)]
    rfl
  unfold fopen
  rw [hcut, htake, hdrop, if_pos ⟨rfl, hplain⟩]

theorem dump_loop_receive (W C PATH_MAX NAME_MAX : Nat) (output_path : List Byte)
    (hsize : sizeofChunk W C < 2 ^ 31) (pop : List Chunk) :
    ∀ (fuel : Nat) (rx : List ReadEv) (dir : Dir), pop.length < fuel →
      Delivers rx (pop.flatMap chunkImage) →
      (∀ c ∈ pop, c.dest_stream.length = W ∧ c.data.length = C ∧ c.length ≤ C) →
      (∀ c ∈ pop, (0 : Byte) ∈ c.dest_stream ∧ PlainName NAME_MAX (cstr c.dest_stream) ∧
        output_path.length + 1 + (cstr c.dest_stream).length ≤ PATH_MAX - 2) →
      ∃ rx1, collector_dump_loop W C PATH_MAX NAME_MAX output_path fuel rx dir
        = some (Outcome.returned (0, rx1, dir.receive pop)) := by
  induction pop with
  | nil =>
    intro fuel rx dir hfuel hrx _ _
    obtain ⟨fuel, rfl⟩ : ∃ f, fuel = f + 1 := ⟨fuel - 1, by simp at hfuel; omega⟩
    obtain ⟨rx1, h1⟩ := read_all_end rx (List.replicate (sizeofChunk W C) 0) (sizeofChunk W C)
      (by simpa using hrx) (sizeofChunk_pos W C)
    refine ⟨rx1, ?_⟩
    rw [collector_dump_loop, h1]
    simp [Dir.receive]
  | cons c pop ih =>
    intro fuel rx dir hfuel hrx hshape hname
    obtain ⟨fuel, rfl⟩ : ∃ f, fuel = f + 1 := ⟨fuel - 1, by simp at hfuel; omega⟩
    have hc := hshape c (List.mem_cons_self _ _)
    have hn := hname c (List.mem_cons_self _ _)
    have himg : (chunkImage c).length = sizeofChunk W C :=
      chunkImage_length W C c hc.1 hc.2.1
    obtain ⟨rx1, h1, h2⟩ := read_all_delivers rx (List.replicate (sizeofChunk W C) 0)
      (chunkImage c) (pop.flatMap chunkImage) (sizeofChunk W C)
      (by simpa using hrx) himg (sizeofChunk_pos W C)
    have hdrop : (List.replicate (sizeofChunk W C) (0 : Byte)).drop (sizeofChunk W C) = [] := by
      simp
    rw [hdrop, List.append_nil, toInt32_of_lt _ hsize] at h1
    have hpos : ((sizeofChunk W C : Nat) : Int) > 0 := by
      have := sizeofChunk_pos W C
      omega
    have hlen : c.length < 256 ^ 8 := by
      have : C < 2 ^ 31 := by unfold sizeofChunk at hsize; omega
      have h2 : (2 : Nat) ^ 31 < 256 ^ 8 := by decide
      omega
    obtain ⟨rx2, h3⟩ := ih fuel rx1
      (dir.appendTo (cstr c.dest_stream) (c.data.take c.length))
      (by simp at hfuel; omega) h2 (fun x hx => hshape x (List.mem_cons_of_mem _ hx))
      (fun x hx => hname x (List.mem_cons_of_mem _ hx))
    refine ⟨rx2, ?_⟩
    rw [collector_dump_loop, h1]
    simp only [hpos, if_true, printed_chunkImage c hn.1,
      fopen_snprintf PATH_MAX NAME_MAX output_path _ hn.2.1 hn.2.2,
      chunkOfImage_chunkImage W C c hc.1 hc.2.1 hlen, hc.2.2]
    rw [h3]
    rfl

theorem collector_dump_ok (W C PATH_MAX NAME_MAX : Nat) (output_path : List Byte)
    (hsize : sizeofChunk W C < 2 ^ 31) (cli : Conn)
    (df flags : List Byte) (pop : List Chunk) (hflags : flags.length = 4)
    (hshape : ∀ c ∈ pop, c.dest_stream.length = W ∧ c.data.length = C ∧ c.length ≤ C)
    (hname : ∀ c ∈ pop, (0 : Byte) ∈ c.dest_stream ∧ PlainName NAME_MAX (cstr c.dest_stream) ∧
      output_path.length + 1 + (cstr c.dest_stream).length ≤ PATH_MAX - 2)
    (htx : WriteEv.err ∉ cli.tx) (hrx : Delivers cli.rx (flags ++ pop.flatMap chunkImage)) :
    ∃ conn2, collector_dump W C PATH_MAX NAME_MAX output_path (some cli) df []
        = some (Outcome.returned (0, flags ++ df.drop 4, Dir.receive [] pop, some conn2)) ∧
      conn2.sent = cli.sent ++ leBytes 4 CMD_DUMP_AND_EXIT ∧ conn2.closed = true := by
  obtain ⟨w1, w2, w3, w4⟩ := write_all_some cli (leBytes 4 CMD_DUMP_AND_EXIT) htx
  have wret : (write_all cli (some (leBytes 4 CMD_DUMP_AND_EXIT))).1 = 4 := by
    have := write_all_loop_ret cli.tx (leBytes 4 CMD_DUMP_AND_EXIT) 0 cli.sent htx
    simp only [write_all]
    rw [this]
    decide
  rw [← w3] at hrx
  obtain ⟨rx1, h1, h2⟩ := read_all_delivers _ df flags (pop.flatMap chunkImage) sizeofFlags
    hrx hflags (by decide)
  have h4 : toInt32 sizeofFlags = 4 := by decide
  rw [h4] at h1
  have hfuel : pop.length < rxWeight rx1 + 1 := by
    have a := delivers_weight rx1 _ h2
    have b := length_le_images pop
    omega
  obtain ⟨rx2, h3⟩ := dump_loop_receive W C PATH_MAX NAME_MAX output_path hsize pop
    (rxWeight rx1 + 1) rx1 [] hfuel h2 hshape hname
  refine ⟨Conn.close (Conn.mk rx2
      (write_all cli (some (leBytes 4 CMD_DUMP_AND_EXIT))).2.tx
      (write_all cli (some (leBytes 4 CMD_DUMP_AND_EXIT))).2.sent
      (write_all cli (some (leBytes 4 CMD_DUMP_AND_EXIT))).2.closed), ?_, ?_, ?_⟩
  · simp only [collector_dump, wret, h1, h3]
    have hnot : ¬ ((4 : Int) < 0) := by decide
    have hnot0 : ¬ ((0 : Int) < 0) := by decide
    simp only [hnot, hnot0, if_false]
    rfl
  · simp only [Conn.close]; exact w1
  · rfl

theorem fileBytes_eq_streamBytes (W C : Nat) (pop : List Chunk) (files : List BufferFile)
    (g : Nat → List Byte) (h : CoreP W C pop files g) (name : List Byte)
    (hfit : Fits W name) :
    fileBytes pop name = streamBytes pop (strncpy W name) := by
  unfold fileBytes streamBytes
  congr 1
  apply List.filter_congr
  intro c hc
  simp only [decide_eq_decide]
  constructor
  · intro hk
    obtain ⟨f, hf, hft⟩ := h.owned c hc
    rw [hft, cstr_strncpy W f.dest (h.fits f hf)] at hk
    rw [hft, hk]
  · intro ht
    rw [ht, cstr_strncpy W name hfit]

/-! ## Assembling the round trip -/

theorem CoreP_empty (W C : Nat) : CoreP W C [] [] (fun _ => []) :=
  ⟨by simp, by simp, by simp, by simp, by simp, by simp, by simp, by simp⟩

theorem CoreQ_empty (W C N : Nat) :
    CoreQ W C N [] (fun _ => []) (World.empty N).mem (World.empty N).files :=
  ⟨[], N, by simp [World.empty, Mem.empty, BufferMap.ofPop], by simp, by simp [World.empty],
    by simp [World.empty], fun _ => CoreP_empty W C⟩

theorem received_content (W C : Nat) (pop : List Chunk) (files : List BufferFile)
    (g : Nat → List Byte) (h : CoreP W C pop files g) (i : Nat) (f : BufferFile)
    (hf : files[i]? = some f) :
    (Dir.receive [] pop).content f.dest = some (g i) := by
  have hfit := h.fits f (List.getElem?_mem hf)
  obtain ⟨c, hc, hct⟩ := h.tag i f hf
  have hex : ∃ x ∈ pop, cstr x.dest_stream = f.dest :=
    ⟨c, List.getElem?_mem hc, by rw [hct, cstr_strncpy W f.dest hfit]⟩
  rw [Dir.receive_content pop f.dest [] hex, fileBytes_eq_streamBytes W C pop files g h f.dest hfit,
    h.bytes i f hf]
  simp [Dir.content]

/-! ## A single stream, overflow included -/

theorem SingleQ_basic (W C N : Nat) (name : List Byte) (g : Nat → List Byte) (m : Mem)
    (files : List BufferFile) (h : SingleQ W C N name g m files) :
    ∃ pop k, m.bm = BufferMap.ofPop pop k ∧ ∀ f ∈ files, f.cur < pop.length := by
  obtain ⟨full, last, k, e, hm, _, hfiles, _⟩ := h
  refine ⟨full ++ [last], k, hm, ?_⟩
  intro f hf
  rw [hfiles] at hf
  simp only [List.mem_singleton] at hf
  subst hf
  simp

theorem SingleQ_iter (W C N : Nat) (name : List Byte) (g : Nat → List Byte) (m : Mem)
    (files : List BufferFile) (j : Nat) (f : BufferFile) (s : List Byte) (m1 : Mem)
    (f1 : BufferFile) (s1 : List Byte)
    (hQ : SingleQ W C N name g m files) (hf : files[j]? = some f)
    (hit : append_iter W C m f s = some (m1, f1, s1)) :
    ∃ p, s = p ++ s1 ∧
      SingleQ W C N name (Function.update g j (g j ++ p)) m1 (files.set j f1) := by
  obtain ⟨full, last, k, e, hm, hlen, hfiles, hT, hlast, hqe, hspare, hov, hfull, hpay,
    hfullC, hshape⟩ := hQ
  subst hfiles
  have hj : j = 0 := by
    have := lt_of_getElem?_some _ _ _ hf
    simpa using this
  subst hj
  simp only [List.getElem?_cons_zero, Option.some.injEq] at hf
  subst hf
  have hc : (full ++ [last])[full.length]? = some last := getElem?_concat0 _ _ _
  have hls := hshape last (by simp)
  obtain ⟨hs1, hcases⟩ := append_iter_cases W C m { dest := name, cur := full.length } s
    (full ++ [last]) k last m1 f1 s1 hm hc hit
  refine ⟨s.take (min (C - last.length) s.length), by rw [hs1, List.take_append_drop], ?_⟩
  have hw : (s.take (min (C - last.length) s.length)).length
      = min (C - last.length) s.length := by
    rw [List.length_take]; omega
  have hpay1 : (chunkWrite last (s.take (min (C - last.length) s.length))).payload
      = last.payload ++ s.take (min (C - last.length) s.length) :=
    payload_chunkWrite last _ (by omega)
  have hshape1 : ∀ c ∈ full ++ [chunkWrite last (s.take (min (C - last.length) s.length))],
      c.dest_stream = strncpy W name ∧ c.data.length = C := by
    intro c hc
    rcases List.mem_append.1 hc with h1 | h1
    · exact hshape c (List.mem_append_left _ h1)
    · simp only [List.mem_singleton] at h1
      subst h1
      exact ⟨hls.1, by rw [chunkWrite_data_length last _ (by omega)]; exact hls.2⟩
  suffices key : ∀ g1 : Nat → List Byte,
      g1 0 = g 0 ++ s.take (min (C - last.length) s.length) →
      SingleQ W C N name g1 m1 [f1] from
    key _ (Function.update_same _ _ _)
  intro g1 hg1
  rcases hcases with ⟨hroom, h1, h2⟩ | ⟨hfill, k1, hk, h1, h2⟩ | ⟨hfill, hk, init, l, hsplit, h1, h2⟩
  · subst h1 h2
    rw [set_concat_last]
    refine ⟨full, _, k, e, rfl, hlen, rfl, ?_, ?_, hqe, hspare, hov, ?_, ?_, hfullC, hshape1⟩
    · rw [hg1, List.length_append, hT, hw, chunkWrite_length, hw]; omega
    · rw [chunkWrite_length, hw]; exact hroom
    · rw [hg1, List.take_append_of_le_length]
      · exact hfull
      · rw [hT]
        have := Nat.mul_le_mul_right C hqe
        omega
    · rw [hg1, hpay1, hpay, List.drop_append_of_le_length (by rw [hT]; omega)]
  · subst h1 h2 hk
    rw [set_concat_last]
    have he : e = full.length := hspare (by omega)
    have hC : last.length + min (C - last.length) s.length = C := by omega
    have hT1 : (g 0 ++ s.take (min (C - last.length) s.length)).length
        = (full.length + 1) * C := by
      rw [List.length_append, hT, hw, he, Nat.succ_mul]; omega
    refine ⟨full ++ [chunkWrite last (s.take (min (C - last.length) s.length))],
      freshChunk W C name, k1, e + 1, by simp, by simp; omega, by simp, ?_, ?_, ?_, ?_, ?_,
      ?_, ?_, ?_, ?_⟩
    · rw [hg1, hT1, he]; simp [freshChunk]
    · simp only [freshChunk]; omega
    · simp; omega
    · intro _; simp; omega
    · simp only [List.length_append, List.length_singleton]
      constructor
      · intro _; omega
      · intro _; exact hov.2 he
    · rw [hg1, List.flatMap_append, hfull]
      simp only [List.flatMap_cons, List.flatMap_nil, List.append_nil, List.length_append,
        List.length_singleton]
      rw [hpay1, hpay, he, ← hT1, List.take_length]
      rw [← List.append_assoc, List.take_append_drop]
    · rw [hg1, payload_fresh, List.drop_of_length_le]
      rw [hT1, he]
    · intro c hc
      rcases List.mem_append.1 hc with h3 | h3
      · exact hfullC c h3
      · simp only [List.mem_singleton] at h3
        subst h3
        rw [chunkWrite_length, hw]; exact hC
    · intro c hc
      rcases List.mem_append.1 hc with h3 | h3
      · exact hshape1 c h3
      · simp only [List.mem_singleton] at h3
        subst h3
        exact ⟨rfl, by simp [freshChunk]⟩
  · subst h1 h2 hk
    rw [set_concat_last] at hsplit
    obtain ⟨hi, hl⟩ := List.append_inj' hsplit rfl
    simp only [List.cons.injEq, and_true] at hl
    subst hi hl
    have hC : last.length + min (C - last.length) s.length = C := by omega
    have hT1 : (g 0 ++ s.take (min (C - last.length) s.length)).length = (e + 1) * C := by
      rw [List.length_append, hT, hw, Nat.succ_mul]; omega
    refine ⟨full, (chunkWrite last (s.take (min (C - last.length) s.length))).reset, 0, e + 1,
      rfl, hlen, rfl, ?_, ?_, by omega, ?_, ?_, ?_, ?_, hfullC, ?_⟩
    · rw [hg1, hT1]; simp [Chunk.reset]
    · simp only [Chunk.reset]; omega
    · intro h; omega
    · constructor
      · intro h; cases h
      · intro h; omega
    · rw [hg1, List.take_append_of_le_length]
      · exact hfull
      · rw [hT]
        have := Nat.mul_le_mul_right C hqe
        omega
    · rw [hg1, List.drop_of_length_le (by rw [hT1])]
      simp [Chunk.payload, Chunk.reset]
    · intro c hc
      rcases List.mem_append.1 hc with h3 | h3
      · exact hshape c (List.mem_append_left _ h3)
      · simp only [List.mem_singleton] at h3
        subst h3
        exact hshape1 (chunkWrite last (s.take (min (C - last.length) s.length))) (by simp)

theorem SingleQ_new (W C N : Nat) (hN : 0 < N) (hC : 0 < C) (name : List Byte) :
    SingleQ W C N name (fun _ => []) (buffer_file_new W C (Mem.empty N) name).1
      [(buffer_file_new W C (Mem.empty N) name).2] := by
  obtain ⟨k, rfl⟩ : ∃ k, N = k + 1 := ⟨N - 1, by omega⟩
  have hm : Mem.empty (k + 1) = { bm := BufferMap.ofPop [] (k + 1), overflowed := false } := by
    simp [Mem.empty, BufferMap.ofPop]
  simp only [buffer_file_new]
  rw [hm, chunk_alloc_ofPop_spare]
  refine ⟨[], freshChunk W C name, k, 0, rfl, by simp only [List.length_nil]; omega, rfl,
    by simp [freshChunk],
    ?_, le_refl _, fun _ => rfl, by simp, by simp, by simp [payload_fresh], by simp, ?_⟩
  · simp only [freshChunk]; omega
  · intro c hc
    simp only [List.nil_append, List.mem_singleton] at hc
    subst hc
    exact ⟨rfl, by simp [freshChunk]⟩

theorem SingleQ_appends (W C N : Nat) (hC : 0 < C) (name : List Byte)
    (strs : List (List Byte)) :
    ∀ (w : World) (g : Nat → List Byte), SingleQ W C N name g w.mem w.files →
      ∃ w1 g1, World.run W C w (strs.map (Call.append 0)) = some w1 ∧
        g1 0 = g 0 ++ strs.flatten ∧ SingleQ W C N name g1 w1.mem w1.files := by
  induction strs with
  | nil => intro w g h; exact ⟨w, g, rfl, by simp, h⟩
  | cons s strs ih =>
    intro w g h
    have hfiles : ∃ f, w.files[0]? = some f := by
      obtain ⟨full, last, k, e, _, _, hf, _⟩ := h
      exact ⟨_, by rw [hf]; rfl⟩
    obtain ⟨f, hf⟩ := hfiles
    obtain ⟨r, hr, hq⟩ := append_lift W C hC (SingleQ W C N name) (SingleQ_basic W C N name)
      (SingleQ_iter W C N name) g w.mem w.files 0 f s h hf
    obtain ⟨w1, g1, h1, h2, h3⟩ := ih { mem := r.1, files := w.files.set 0 r.2 } _ hq
    refine ⟨w1, g1, ?_, ?_, h3⟩
    · simp only [List.map_cons, World.run, World.call, hf, hr, h1]
    · rw [h2, Function.update_same, List.flatten_cons, List.append_assoc]

theorem single_stream_layout (W C N : Nat) (hN : 0 < N) (hC : 0 < C) (name : List Byte)
    (strs : List (List Byte)) :
    ∃ w full last e, World.run W C (World.empty N)
        (Call.new name :: strs.map (Call.append 0)) = some w ∧
      w.mem.bm.populated = full ++ [last] ∧
      full.length + 1 ≤ N ∧
      strs.flatten.length = e * C + last.length ∧
      last.length < C ∧
      full.length ≤ e ∧
      (full.length + 1 < N → e = full.length) ∧
      (w.mem.overflowed = false ↔ e = full.length) ∧
      full.flatMap Chunk.payload = strs.flatten.take (full.length * C) ∧
      last.payload = strs.flatten.drop (e * C) ∧
      (∀ c ∈ full, c.length = C) ∧
      (∀ c ∈ full ++ [last], c.dest_stream = strncpy W name ∧ c.data.length = C) := by
  obtain ⟨w, g1, hrun, hg, full, last, k, e, hm, hlen, _, hT, hlast, hqe, hspare, hov, hfull,
    hpay, hfullC, hshape⟩ := SingleQ_appends W C N hC name strs
      { mem := (buffer_file_new W C (Mem.empty N) name).1,
        files := [(buffer_file_new W C (Mem.empty N) name).2] }
      (fun _ => []) (SingleQ_new W C N hN hC name)
  simp only [List.nil_append] at hg
  rw [hg] at hT hfull hpay
  refine ⟨w, full, last, e, ?_, by rw [hm, ofPop_populated], by omega, hT, hlast, hqe,
    fun h => hspare (by omega), hov, hfull, hpay, hfullC, hshape⟩
  simpa [World.run, World.call, World.empty] using hrun

theorem streamBytes_all (pop : List Chunk) (t : List Byte)
    (h : ∀ c ∈ pop, c.dest_stream = t) : streamBytes pop t = pop.flatMap Chunk.payload := by
  unfold streamBytes
  rw [List.filter_eq_self.2 (fun c hc => by simpa using h c hc)]

theorem single_stream_bytes (W C N : Nat) (name : List Byte) (strs : List (List Byte))
    (hN : 0 < N) (hC : 0 < C) :
    ∃ w, World.run W C (World.empty N) (Call.new name :: strs.map (Call.append 0)) = some w ∧
      streamBytes w.mem.bm.populated (strncpy W name)
        = strs.flatten.take (min (N - 1) (strs.flatten.length / C) * C)
          ++ strs.flatten.drop (strs.flatten.length / C * C) ∧
      (w.mem.overflowed = true ↔ N * C ≤ strs.flatten.length) := by
  obtain ⟨w, full, last, e, hrun, hpop, hqN, hT, hlast, hqe, hspare, hov, hfull, hpay, _,
    hshape⟩ := single_stream_layout W C N hN hC name strs
  have hdiv : strs.flatten.length / C = e :=
    Nat.div_eq_of_lt_le (by omega) (by rw [Nat.succ_mul]; omega)
  have hmin : min (N - 1) e = full.length := by
    by_cases h : full.length + 1 < N
    · have := hspare h; omega
    · omega
  refine ⟨w, hrun, ?_, ?_⟩
  · rw [hpop, streamBytes_all _ _ (fun c hc => (hshape c hc).1), List.flatMap_append, hfull,
      hdiv, hmin]
    simp only [List.flatMap_cons, List.flatMap_nil, List.append_nil]
    rw [hpay]
  · have hb : w.mem.overflowed = true ↔ e ≠ full.length := by
      rw [Ne, ← hov]
      cases w.mem.overflowed <;> simp
    rw [hb]
    constructor
    · intro hne
      have hq : full.length + 1 = N := by
        by_contra h
        exact hne (hspare (by omega))
      have : N * C ≤ e * C := Nat.mul_le_mul_right C (by omega)
      omega
    · intro hle heq
      have : (full.length + 1) * C ≤ N * C := Nat.mul_le_mul_right C hqN
      rw [Nat.succ_mul] at this
      rw [heq] at hT
      omega

/-! ## Several streams, overflow included -/

theorem tag_ne_of (W : Nat) (files : List BufferFile)
    (hfits : ∀ f ∈ files, Fits W f.dest)
    (huniq : ∀ (i j : Nat) (fi fj : BufferFile), files[i]? = some fi → files[j]? = some fj →
      fi.dest = fj.dest → i = j)
    (i j : Nat) (x f : BufferFile)
    (hx : files[i]? = some x) (hf : files[j]? = some f) (hij : i ≠ j) :
    strncpy W f.dest ≠ strncpy W x.dest := by
  intro heq
  have hd := strncpy_injective W f.dest x.dest (hfits f (List.getElem?_mem hf))
    (hfits x (List.getElem?_mem hx)) heq
  exact hij (huniq i j x f hx hf hd.symm)

theorem take_set_beyond (pop : List Chunk) (n i : Nat) (x : Chunk) (h : n ≤ i) :
    (pop.set i x).take n = pop.take n := by
  rw [List.set_take, List.set_eq_of_length_le]
  rw [List.length_take]
  omega

theorem pre_write (W C N : Nat) (pop : List Chunk) (files : List BufferFile)
    (g : Nat → List Byte) (h : PreP W C N pop files g) (j : Nat) (f : BufferFile) (c : Chunk)
    (p : List Byte) (hf : files[j]? = some f) (hc : pop[f.cur]? = some c)
    (hp : c.length + p.length ≤ C) :
    PreP W C N (pop.set f.cur (chunkWrite c p)) files (Function.update g j (g j ++ p)) := by
  have hcs := h.shape c (List.getElem?_mem hc)
  have hother : ∀ (i : Nat) (x : BufferFile), files[i]? = some x → x.cur + 1 < N → i ≠ j →
      c.dest_stream ≠ strncpy W x.dest := by
    intro i x hx hxa hij
    by_cases hfa : f.cur + 1 < N
    · obtain ⟨c0, hc0, hct⟩ := h.tag j f hf hfa
      rw [hc] at hc0
      simp only [Option.some.injEq] at hc0
      subst hc0
      rw [hct]
      exact tag_ne_of W files h.fits h.uniq i j x f hx hf hij
    · exact h.last i x hx hxa f.cur c (by omega) hc
  refine ⟨?_, ?_, h.fits, h.uniq, ?_, ?_, ?_, ?_, ?_, ?_, ?_⟩
  · intro x hx; rw [List.length_set]; exact h.bound x hx
  · rw [List.length_set]; exact h.room
  · intro x hx
    rcases mem_set_cases _ _ _ _ hx with h1 | h1
    · exact h.shape x h1
    · subst h1
      refine ⟨?_, ?_⟩
      · rw [chunkWrite_data_length c p (by omega)]; exact hcs.1
      · rw [chunkWrite_length]; exact hp
  · intro x hx
    rcases mem_set_cases _ _ _ _ hx with h1 | h1
    · exact h.owned x h1
    · subst h1
      exact h.owned c (List.getElem?_mem hc)
  · intro i x hx hxa
    obtain ⟨y, hy, hyt⟩ := h.tag i x hx hxa
    obtain ⟨z, hz, hzt⟩ := getElem?_set_write_inv pop f.cur x.cur c y p hc hy
    exact ⟨z, hz, by rw [hzt, hyt]⟩
  · intro i x hx hxa n y hn hy
    obtain ⟨z, hz, hzt⟩ := getElem?_set_write pop f.cur n c y p hc hy
    rw [← hzt]
    exact h.last i x hx hxa n z hn hz
  · intro i x hx hxa
    by_cases hij : i = j
    · subst hij
      rw [hf] at hx
      simp only [Option.some.injEq] at hx
      subst hx
      obtain ⟨c0, hc0, hct⟩ := h.tag i f hf hxa
      rw [hc] at hc0
      simp only [Option.some.injEq] at hc0
      subst hc0
      rw [Function.update_same,
        streamBytes_set_last pop f.cur c (chunkWrite c p) (strncpy W f.dest) p hc hct hct
          (payload_chunkWrite c p (by omega)) (h.last i f hf hxa),
        h.bytes i f hf hxa]
    · rw [Function.update_noteq hij]
      have hne := hother i x hx hxa hij
      rw [streamBytes_set_other pop f.cur c (chunkWrite c p) (strncpy W x.dest) hc hne
        (by rw [chunkWrite_dest]; exact hne)]
      exact h.bytes i x hx hxa
  · intro i x hx hxb
    obtain ⟨rest, hrest⟩ := h.frozen i x hx hxb
    by_cases hfa : f.cur + 1 < N
    · have hij : i ≠ j := by
        intro e
        subst e
        rw [hf] at hx
        simp only [Option.some.injEq] at hx
        subst hx
        omega
      obtain ⟨c0, hc0, hct⟩ := h.tag j f hf hfa
      rw [hc] at hc0
      simp only [Option.some.injEq] at hc0
      subst hc0
      have hne : c.dest_stream ≠ strncpy W x.dest := by
        rw [hct]; exact tag_ne_of W files h.fits h.uniq i j x f hx hf hij
      rw [Function.update_noteq hij, List.set_take,
        streamBytes_set_other (pop.take (N - 1)) f.cur c (chunkWrite c p) (strncpy W x.dest)
          (by rw [List.getElem?_take_of_lt (by omega)]; exact hc) hne
          (by rw [chunkWrite_dest]; exact hne)]
      exact ⟨rest, hrest⟩
    · rw [take_set_beyond pop (N - 1) f.cur _ (by omega)]
      by_cases hij : i = j
      · subst hij
        rw [Function.update_same]
        exact ⟨rest ++ p, by rw [hrest, List.append_assoc]⟩
      · rw [Function.update_noteq hij]
        exact ⟨rest, hrest⟩
  · intro i hi
    have hj := lt_of_getElem?_some files j f hf
    rw [Function.update_noteq (by omega)]
    exact h.blank i hi

theorem take_snoc_length (init : List Chunk) (y : Chunk) (n : Nat) (h : n = init.length) :
    (init ++ [y]).take n = init := by
  subst h
  rw [List.take_append_of_le_length (le_refl _), List.take_of_length_le (le_refl _)]

theorem streamBytes_snoc_other (init : List Chunk) (y : Chunk) (t : List Byte)
    (h : y.dest_stream ≠ t) : streamBytes (init ++ [y]) t = streamBytes init t := by
  rw [streamBytes_append, streamBytes_cons, if_neg h]
  simp [streamBytes]

theorem set_keeps_dest (files : List BufferFile) (j : Nat) (f f1 : BufferFile)
    (hf : files[j]? = some f) (hd : f1.dest = f.dest) :
    ∀ y ∈ files, ∃ z ∈ files.set j f1, z.dest = y.dest := by
  intro y hy
  obtain ⟨i, hi⟩ := List.mem_iff_getElem?.1 hy
  by_cases hij : j = i
  · subst hij
    rw [hf] at hi
    simp only [Option.some.injEq] at hi
    subst hi
    exact ⟨_, List.getElem?_mem
      (List.getElem?_set_self (lt_of_getElem?_some files j f hf)), hd⟩
  · exact ⟨y, List.getElem?_mem (by rw [List.getElem?_set_ne hij]; exact hi), rfl⟩

theorem set_dest_old (files : List BufferFile) (j : Nat) (f f1 : BufferFile)
    (hf : files[j]? = some f) (hd : f1.dest = f.dest) (i : Nat) (x : BufferFile)
    (hx : (files.set j f1)[i]? = some x) : ∃ y, files[i]? = some y ∧ y.dest = x.dest := by
  rcases getElem?_set_cases _ _ _ _ _ hx with ⟨h1, h2⟩ | ⟨_, h2⟩
  · subst h1 h2; exact ⟨f, hf, hd.symm⟩
  · exact ⟨x, h2, rfl⟩

theorem pre_spare (W C N : Nat) (pop : List Chunk) (files : List BufferFile)
    (g : Nat → List Byte) (h : PreP W C N pop files g) (j : Nat) (f : BufferFile)
    (hf : files[j]? = some f) (hN : pop.length < N) :
    PreP W C N (pop ++ [freshChunk W C f.dest])
      (files.set j { dest := f.dest, cur := pop.length }) g := by
  have hfa : f.cur + 1 < N := by
    have := h.bound f (List.getElem?_mem hf); omega
  refine ⟨?_, ?_, ?_, ?_, ?_, ?_, ?_, ?_, ?_, ?_, ?_⟩
  · intro x hx
    rw [List.length_append, List.length_singleton]
    rcases List.mem_or_eq_of_mem_set hx with h1 | h1
    · have := h.bound x h1; omega
    · subst h1; simp
  · rw [List.length_append, List.length_singleton]; omega
  · intro x hx
    rcases List.mem_or_eq_of_mem_set hx with h1 | h1
    · exact h.fits x h1
    · subst h1; exact h.fits f (List.getElem?_mem hf)
  · intro a b xa xb ha hb hab
    obtain ⟨ya, hya, hyad⟩ := set_dest_old files j f { dest := f.dest, cur := pop.length } hf rfl a xa ha
    obtain ⟨yb, hyb, hybd⟩ := set_dest_old files j f { dest := f.dest, cur := pop.length } hf rfl b xb hb
    exact h.uniq a b ya yb hya hyb (by rw [hyad, hybd, hab])
  · intro x hx
    rcases List.mem_append.1 hx with h1 | h1
    · exact h.shape x h1
    · simp only [List.mem_singleton] at h1; subst h1; exact (fresh_shape W C f.dest).2
  · intro x hx
    rcases List.mem_append.1 hx with h1 | h1
    · obtain ⟨y, hy, hyt⟩ := h.owned x h1
      obtain ⟨z, hz, hzd⟩ := set_keeps_dest files j f { dest := f.dest, cur := pop.length } hf rfl y hy
      exact ⟨z, hz, by rw [hyt, hzd]⟩
    · simp only [List.mem_singleton] at h1; subst h1
      obtain ⟨z, hz, hzd⟩ := set_keeps_dest files j f
        { dest := f.dest, cur := pop.length } hf rfl f (List.getElem?_mem hf)
      exact ⟨z, hz, by rw [hzd]; rfl⟩
  · intro i x hx hxa
    rcases getElem?_set_cases _ _ _ _ _ hx with ⟨_, h2⟩ | ⟨_, h2⟩
    · subst h2
      exact ⟨freshChunk W C f.dest, getElem?_concat0 _ _ _, rfl⟩
    · obtain ⟨y, hy, hyt⟩ := h.tag i x h2 hxa
      exact ⟨y, getElem?_pop_left pop _ y x.cur hy, hyt⟩
  · intro i x hx hxa n y hn hy
    rcases getElem?_pop_snoc pop _ y n hy with ⟨hlt, h3⟩ | ⟨h3, h4⟩
    · rcases getElem?_set_cases _ _ _ _ _ hx with ⟨_, h2⟩ | ⟨_, h2⟩
      · subst h2
        simp only at hn
        omega
      · exact h.last i x h2 hxa n y hn h3
    · rcases getElem?_set_cases _ _ _ _ _ hx with ⟨_, h2⟩ | ⟨hij, h2⟩
      · subst h2; simp only at hn; omega
      · subst h4
        exact tag_ne_of W files h.fits h.uniq i j x f h2 hf hij
  · intro i x hx hxa
    rw [streamBytes_snoc_fresh]
    rcases getElem?_set_cases _ _ _ _ _ hx with ⟨h1, h2⟩ | ⟨_, h2⟩
    · subst h1 h2
      exact h.bytes i f hf hfa
    · exact h.bytes i x h2 hxa
  · intro i x hx hxb
    rcases getElem?_set_cases _ _ _ _ _ hx with ⟨h1, h2⟩ | ⟨_, h2⟩
    · subst h1 h2
      simp only at hxb
      rw [take_snoc_length pop _ (N - 1) (by omega)]
      exact ⟨[], by rw [List.append_nil]; exact (h.bytes i f hf hfa).symm⟩
    · have := h.bound x (List.getElem?_mem h2); omega
  · intro i hi
    rw [List.length_set] at hi
    exact h.blank i hi

theorem pre_full (W C N : Nat) (init : List Chunk) (l : Chunk) (files : List BufferFile)
    (g : Nat → List Byte) (h : PreP W C N (init ++ [l]) files g) (j : Nat) (f : BufferFile)
    (hf : files[j]? = some f) (hN : init.length + 1 = N) :
    PreP W C N (init ++ [l.reset])
      (files.set j { dest := f.dest, cur := init.length }) g := by
  have hlast : ∀ (i : Nat) (x : BufferFile), files[i]? = some x → x.cur + 1 < N →
      l.dest_stream ≠ strncpy W x.dest := by
    intro i x hx hxa
    exact h.last i x hx hxa init.length l (by omega) (getElem?_concat0 init l [])
  have hsame : ∀ (i : Nat) (x : BufferFile), files[i]? = some x → x.cur + 1 < N →
      streamBytes init (strncpy W x.dest) = g i := by
    intro i x hx hxa
    rw [← streamBytes_snoc_other init l _ (hlast i x hx hxa)]
    exact h.bytes i x hx hxa
  refine ⟨?_, ?_, ?_, ?_, ?_, ?_, ?_, ?_, ?_, ?_, ?_⟩
  · intro x hx
    rw [List.length_append, List.length_singleton]
    rcases List.mem_or_eq_of_mem_set hx with h1 | h1
    · have := h.bound x h1
      rw [List.length_append, List.length_singleton] at this
      exact this
    · subst h1; simp
  · rw [List.length_append, List.length_singleton]; omega
  · intro x hx
    rcases List.mem_or_eq_of_mem_set hx with h1 | h1
    · exact h.fits x h1
    · subst h1; exact h.fits f (List.getElem?_mem hf)
  · intro a b xa xb ha hb hab
    obtain ⟨ya, hya, hyad⟩ := set_dest_old files j f { dest := f.dest, cur := init.length } hf rfl a xa ha
    obtain ⟨yb, hyb, hybd⟩ := set_dest_old files j f { dest := f.dest, cur := init.length } hf rfl b xb hb
    exact h.uniq a b ya yb hya hyb (by rw [hyad, hybd, hab])
  · intro x hx
    rcases List.mem_append.1 hx with h1 | h1
    · exact h.shape x (List.mem_append_left _ h1)
    · simp only [List.mem_singleton] at h1; subst h1
      have := h.shape l (List.mem_append_right _ (List.mem_singleton_self _))
      exact ⟨this.1, Nat.zero_le _⟩
  · intro x hx
    have hx1 : ∃ y ∈ init ++ [l], x.dest_stream = y.dest_stream := by
      rcases List.mem_append.1 hx with h1 | h1
      · exact ⟨x, List.mem_append_left _ h1, rfl⟩
      · simp only [List.mem_singleton] at h1; subst h1
        exact ⟨l, List.mem_append_right _ (List.mem_singleton_self _), rfl⟩
    obtain ⟨y0, hy0, hxy⟩ := hx1
    obtain ⟨y, hy, hyt⟩ := h.owned y0 hy0
    obtain ⟨z, hz, hzd⟩ := set_keeps_dest files j f
      { dest := f.dest, cur := init.length } hf rfl y hy
    exact ⟨z, hz, by rw [hxy, hyt, hzd]⟩
  · intro i x hx hxa
    rcases getElem?_set_cases _ _ _ _ _ hx with ⟨_, h2⟩ | ⟨_, h2⟩
    · subst h2; simp only at hxa; omega
    · obtain ⟨y, hy, hyt⟩ := h.tag i x h2 hxa
      rw [List.getElem?_append_left (by omega)] at hy
      exact ⟨y, by rw [List.getElem?_append_left (by omega)]; exact hy, hyt⟩
  · intro i x hx hxa n y hn hy
    rcases getElem?_set_cases _ _ _ _ _ hx with ⟨_, h2⟩ | ⟨_, h2⟩
    · subst h2; simp only at hxa; omega
    · rcases getElem?_pop_snoc init _ y n hy with ⟨hlt, h3⟩ | ⟨h3, h4⟩
      · exact h.last i x h2 hxa n y hn (getElem?_pop_left init l y n h3)
      · subst h4
        exact hlast i x h2 hxa
  · intro i x hx hxa
    rcases getElem?_set_cases _ _ _ _ _ hx with ⟨_, h2⟩ | ⟨_, h2⟩
    · subst h2; simp only at hxa; omega
    · rw [streamBytes_snoc_other init l.reset _ (hlast i x h2 hxa)]
      exact hsame i x h2 hxa
  · intro i x hx hxb
    rw [take_snoc_length init _ (N - 1) (by omega)]
    rcases getElem?_set_cases _ _ _ _ _ hx with ⟨h1, h2⟩ | ⟨_, h2⟩
    · subst h1 h2
      by_cases hfa : f.cur + 1 < N
      · exact ⟨[], by rw [List.append_nil]; exact (hsame i f hf hfa).symm⟩
      · obtain ⟨rest, hrest⟩ := h.frozen i f hf (by omega)
        rw [take_snoc_length init _ (N - 1) (by omega)] at hrest
        exact ⟨rest, hrest⟩
    · obtain ⟨rest, hrest⟩ := h.frozen i x h2 hxb
      rw [take_snoc_length init _ (N - 1) (by omega)] at hrest
      exact ⟨rest, hrest⟩
  · intro i hi
    rw [List.length_set] at hi
    exact h.blank i hi

theorem pre_new_spare (W C N : Nat) (pop : List Chunk) (files : List BufferFile)
    (g : Nat → List Byte) (h : PreP W C N pop files g) (name : List Byte)
    (hfit : Fits W name) (hnew : ∀ f ∈ files, f.dest ≠ name) (hN : pop.length < N) :
    PreP W C N (pop ++ [freshChunk W C name])
      (files ++ [{ dest := name, cur := pop.length }]) g := by
  have hne : ∀ f ∈ files, strncpy W f.dest ≠ strncpy W name := by
    intro f hf heq
    exact hnew f hf (strncpy_injective W f.dest name (h.fits f hf) hfit heq)
  have hnone : streamBytes pop (strncpy W name) = [] := by
    apply streamBytes_none
    intro y hy
    obtain ⟨z, hz, hzt⟩ := h.owned y hy
    rw [hzt]
    exact hne z hz
  refine ⟨?_, ?_, ?_, ?_, ?_, ?_, ?_, ?_, ?_, ?_, ?_⟩
  · intro x hx
    rw [List.length_append, List.length_singleton]
    rcases List.mem_append.1 hx with h1 | h1
    · have := h.bound x h1; omega
    · simp only [List.mem_singleton] at h1; subst h1; simp
  · rw [List.length_append, List.length_singleton]; omega
  · intro x hx
    rcases List.mem_append.1 hx with h1 | h1
    · exact h.fits x h1
    · simp only [List.mem_singleton] at h1; subst h1; exact hfit
  · intro a b xa xb ha hb hab
    rcases getElem?_snoc_cases _ _ _ _ ha with ⟨_, h1⟩ | ⟨h1, h2⟩
    · rcases getElem?_snoc_cases _ _ _ _ hb with ⟨_, h3⟩ | ⟨h3, h4⟩
      · exact h.uniq a b xa xb h1 h3 hab
      · subst h4
        exact absurd hab (hnew xa (List.getElem?_mem h1))
    · rcases getElem?_snoc_cases _ _ _ _ hb with ⟨_, h3⟩ | ⟨h3, h4⟩
      · subst h2
        exact absurd hab.symm (hnew xb (List.getElem?_mem h3))
      · omega
  · intro x hx
    rcases List.mem_append.1 hx with h1 | h1
    · exact h.shape x h1
    · simp only [List.mem_singleton] at h1; subst h1; exact (fresh_shape W C name).2
  · intro x hx
    rcases List.mem_append.1 hx with h1 | h1
    · obtain ⟨y, hy, hyt⟩ := h.owned x h1
      exact ⟨y, List.mem_append_left _ hy, hyt⟩
    · simp only [List.mem_singleton] at h1; subst h1
      exact ⟨_, List.mem_append_right _ (List.mem_singleton_self _), rfl⟩
  · intro i x hx hxa
    rcases getElem?_snoc_cases _ _ _ _ hx with ⟨_, h1⟩ | ⟨_, h2⟩
    · obtain ⟨y, hy, hyt⟩ := h.tag i x h1 hxa
      exact ⟨y, getElem?_pop_left pop _ y x.cur hy, hyt⟩
    · subst h2
      exact ⟨freshChunk W C name, getElem?_concat0 _ _ _, rfl⟩
  · intro i x hx hxa n y hn hy
    rcases getElem?_pop_snoc pop _ y n hy with ⟨hlt, h3⟩ | ⟨h3, h4⟩
    · rcases getElem?_snoc_cases _ _ _ _ hx with ⟨_, h1⟩ | ⟨_, h2⟩
      · exact h.last i x h1 hxa n y hn h3
      · subst h2
        simp only at hn
        omega
    · rcases getElem?_snoc_cases _ _ _ _ hx with ⟨_, h1⟩ | ⟨_, h2⟩
      · subst h4
        exact fun heq => hne x (List.getElem?_mem h1) heq.symm
      · subst h2; simp only at hn; omega
  · intro i x hx hxa
    rw [streamBytes_snoc_fresh]
    rcases getElem?_snoc_cases _ _ _ _ hx with ⟨_, h1⟩ | ⟨h1, h2⟩
    · exact h.bytes i x h1 hxa
    · subst h1 h2
      rw [h.blank files.length (le_refl _)]
      exact hnone
  · intro i x hx hxb
    rcases getElem?_snoc_cases _ _ _ _ hx with ⟨_, h1⟩ | ⟨h1, h2⟩
    · have := h.bound x (List.getElem?_mem h1); omega
    · subst h1 h2
      simp only at hxb
      rw [take_snoc_length pop _ (N - 1) (by omega), h.blank files.length (le_refl _), hnone]
      exact ⟨[], rfl⟩
  · intro i hi
    simp only [List.length_append, List.length_singleton] at hi
    exact h.blank i (by omega)

theorem pre_new_full (W C N : Nat) (init : List Chunk) (l : Chunk) (files : List BufferFile)
    (g : Nat → List Byte) (h : PreP W C N (init ++ [l]) files g) (name : List Byte)
    (hfit : Fits W name) (hnew : ∀ f ∈ files, f.dest ≠ name) (hN : init.length + 1 = N) :
    PreP W C N (init ++ [l.reset])
      (files ++ [{ dest := name, cur := init.length }]) g := by
  have hne : ∀ f ∈ files, strncpy W f.dest ≠ strncpy W name := by
    intro f hf heq
    exact hnew f hf (strncpy_injective W f.dest name (h.fits f hf) hfit heq)
  have hnone : streamBytes init (strncpy W name) = [] := by
    apply streamBytes_none
    intro y hy
    obtain ⟨z, hz, hzt⟩ := h.owned y (List.mem_append_left _ hy)
    rw [hzt]
    exact hne z hz
  have hlast : ∀ (i : Nat) (x : BufferFile), files[i]? = some x → x.cur + 1 < N →
      l.dest_stream ≠ strncpy W x.dest := by
    intro i x hx hxa
    exact h.last i x hx hxa init.length l (by omega) (getElem?_concat0 init l [])
  have hsame : ∀ (i : Nat) (x : BufferFile), files[i]? = some x → x.cur + 1 < N →
      streamBytes init (strncpy W x.dest) = g i := by
    intro i x hx hxa
    rw [← streamBytes_snoc_other init l _ (hlast i x hx hxa)]
    exact h.bytes i x hx hxa
  refine ⟨?_, ?_, ?_, ?_, ?_, ?_, ?_, ?_, ?_, ?_, ?_⟩
  · intro x hx
    rw [List.length_append, List.length_singleton]
    rcases List.mem_append.1 hx with h1 | h1
    · have := h.bound x h1
      rw [List.length_append, List.length_singleton] at this
      exact this
    · simp only [List.mem_singleton] at h1; subst h1; simp
  · rw [List.length_append, List.length_singleton]; omega
  · intro x hx
    rcases List.mem_append.1 hx with h1 | h1
    · exact h.fits x h1
    · simp only [List.mem_singleton] at h1; subst h1; exact hfit
  · intro a b xa xb ha hb hab
    rcases getElem?_snoc_cases _ _ _ _ ha with ⟨_, h1⟩ | ⟨h1, h2⟩
    · rcases getElem?_snoc_cases _ _ _ _ hb with ⟨_, h3⟩ | ⟨h3, h4⟩
      · exact h.uniq a b xa xb h1 h3 hab
      · subst h4
        exact absurd hab (hnew xa (List.getElem?_mem h1))
    · rcases getElem?_snoc_cases _ _ _ _ hb with ⟨_, h3⟩ | ⟨h3, h4⟩
      · subst h2
        exact absurd hab.symm (hnew xb (List.getElem?_mem h3))
      · omega
  · intro x hx
    rcases List.mem_append.1 hx with h1 | h1
    · exact h.shape x (List.mem_append_left _ h1)
    · simp only [List.mem_singleton] at h1; subst h1
      have := h.shape l (List.mem_append_right _ (List.mem_singleton_self _))
      exact ⟨this.1, Nat.zero_le _⟩
  · intro x hx
    have hx1 : ∃ y ∈ init ++ [l], x.dest_stream = y.dest_stream := by
      rcases List.mem_append.1 hx with h1 | h1
      · exact ⟨x, List.mem_append_left _ h1, rfl⟩
      · simp only [List.mem_singleton] at h1; subst h1
        exact ⟨l, List.mem_append_right _ (List.mem_singleton_self _), rfl⟩
    obtain ⟨y0, hy0, hxy⟩ := hx1
    obtain ⟨y, hy, hyt⟩ := h.owned y0 hy0
    exact ⟨y, List.mem_append_left _ hy, by rw [hxy, hyt]⟩
  · intro i x hx hxa
    rcases getElem?_snoc_cases _ _ _ _ hx with ⟨_, h2⟩ | ⟨_, h2⟩
    · obtain ⟨y, hy, hyt⟩ := h.tag i x h2 hxa
      rw [List.getElem?_append_left (by omega)] at hy
      exact ⟨y, by rw [List.getElem?_append_left (by omega)]; exact hy, hyt⟩
    · subst h2; simp only at hxa; omega
  · intro i x hx hxa n y hn hy
    rcases getElem?_snoc_cases _ _ _ _ hx with ⟨_, h2⟩ | ⟨_, h2⟩
    · rcases getElem?_pop_snoc init _ y n hy with ⟨hlt, h3⟩ | ⟨h3, h4⟩
      · exact h.last i x h2 hxa n y hn (getElem?_pop_left init l y n h3)
      · subst h4
        exact hlast i x h2 hxa
    · subst h2; simp only at hxa; omega
  · intro i x hx hxa
    rcases getElem?_snoc_cases _ _ _ _ hx with ⟨_, h2⟩ | ⟨_, h2⟩
    · rw [streamBytes_snoc_other init l.reset _ (hlast i x h2 hxa)]
      exact hsame i x h2 hxa
    · subst h2; simp only at hxa; omega
  · intro i x hx hxb
    rw [take_snoc_length init _ (N - 1) (by omega)]
    rcases getElem?_snoc_cases _ _ _ _ hx with ⟨_, h2⟩ | ⟨h1, h2⟩
    · obtain ⟨rest, hrest⟩ := h.frozen i x h2 hxb
      rw [take_snoc_length init _ (N - 1) (by omega)] at hrest
      exact ⟨rest, hrest⟩
    · subst h1 h2
      rw [h.blank files.length (le_refl _), hnone]
      exact ⟨[], rfl⟩
  · intro i hi
    simp only [List.length_append, List.length_singleton] at hi
    exact h.blank i (by omega)

theorem PreP_empty (W C N : Nat) : PreP W C N [] [] (fun _ => []) :=
  ⟨by simp, by simp, by simp, by simp, by simp, by simp, by simp, by simp, by simp, by simp,
    by simp⟩

theorem PreQ_empty (W C N : Nat) :
    PreQ W C N [] (fun _ => []) (World.empty N).mem (World.empty N).files :=
  ⟨[], N, by simp [World.empty, Mem.empty, BufferMap.ofPop], by simp, by simp [World.empty],
    by simp only [World.empty]; exact PreP_empty W C N⟩

theorem PreQ_basic (W C N : Nat) (names : List (List Byte)) (g : Nat → List Byte) (m : Mem)
    (files : List BufferFile) (h : PreQ W C N names g m files) :
    ∃ pop k, m.bm = BufferMap.ofPop pop k ∧ ∀ f ∈ files, f.cur < pop.length := by
  obtain ⟨pop, k, hm, _, _, hp⟩ := h
  exact ⟨pop, k, hm, hp.bound⟩

theorem PreQ_iter (W C N : Nat) (names : List (List Byte)) (g : Nat → List Byte) (m : Mem)
    (files : List BufferFile) (j : Nat) (f : BufferFile) (s : List Byte) (m1 : Mem)
    (f1 : BufferFile) (s1 : List Byte)
    (hQ : PreQ W C N names g m files) (hf : files[j]? = some f)
    (hit : append_iter W C m f s = some (m1, f1, s1)) :
    ∃ p, s = p ++ s1 ∧
      PreQ W C N names (Function.update g j (g j ++ p)) m1 (files.set j f1) := by
  obtain ⟨pop, k, hm, hlen, hnames, hp⟩ := hQ
  have hfm : f ∈ files := List.getElem?_mem hf
  obtain ⟨c, hc⟩ := getElem?_of_lt pop f.cur (hp.bound f hfm)
  obtain ⟨hs1, hcases⟩ := append_iter_cases W C m f s pop k c m1 f1 s1 hm hc hit
  refine ⟨s.take (min (C - c.length) s.length), by rw [hs1, List.take_append_drop], ?_⟩
  have hcs := hp.shape c (List.getElem?_mem hc)
  have hw := pre_write W C N pop files g hp j f c (s.take (min (C - c.length) s.length)) hf hc
    (by rw [List.length_take]; have := hcs.2; omega)
  rcases hcases with ⟨_, h1, h2⟩ | ⟨_, k1, hk, h1, h2⟩ | ⟨_, hk, init, l, hsplit, h1, h2⟩
  · subst h1
    rw [h2, set_self_of_getElem? files j f hf]
    exact ⟨_, k, rfl, by simpa using hlen, hnames, hw⟩
  · subst h1 h2 hk
    refine ⟨_, k1, rfl, by simp; omega, ?_, ?_⟩
    · rw [map_dest_set files j f { dest := f.dest, cur := pop.length } hf rfl]; exact hnames
    · have := pre_spare W C N _ files _ hw j f hf (by rw [List.length_set]; omega)
      rw [List.length_set] at this
      exact this
  · subst h1 h2 hk
    have hl : init.length + 1 = pop.length := by
      have := congrArg List.length hsplit
      simpa using this.symm
    refine ⟨_, 0, rfl, by simp; omega, ?_, ?_⟩
    · rw [map_dest_set files j f { dest := f.dest, cur := init.length } hf rfl]; exact hnames
    · rw [hsplit] at hw
      exact pre_full W C N init l files _ hw j f hf (by omega)

theorem PreQ_new (W C N : Nat) (hN : 0 < N) (names : List (List Byte))
    (g : Nat → List Byte) (m : Mem) (files : List BufferFile) (name : List Byte)
    (hQ : PreQ W C N names g m files) (hfit : Fits W name) (hnew : name ∉ names) :
    PreQ W C N (names ++ [name]) g (buffer_file_new W C m name).1
      (files ++ [(buffer_file_new W C m name).2]) := by
  obtain ⟨pop, k, hm, hlen, hnames, hp⟩ := hQ
  obtain ⟨bm, o⟩ := m
  simp only at hm
  subst hm
  have hfresh : ∀ f ∈ files, f.dest ≠ name := by
    intro f hf hd
    apply hnew
    rw [← hnames, ← hd]
    exact List.mem_map_of_mem (fun x => x.dest) hf
  simp only [buffer_file_new]
  cases k with
  | succ k =>
    rw [chunk_alloc_ofPop_spare]
    exact ⟨pop ++ [freshChunk W C name], k, rfl, by simp; omega, by simp [hnames],
      pre_new_spare W C N pop files g hp name hfit hfresh (by omega)⟩
  | zero =>
    obtain ⟨init, l, hsplit⟩ := exists_concat_of_ne_nil pop
      (by intro h; subst h; simp at hlen; omega)
    subst hsplit
    rw [chunk_alloc_ofPop_full]
    exact ⟨init ++ [l.reset], 0, rfl, by simpa using hlen, by simp [hnames],
      pre_new_full W C N init l files g hp name hfit hfresh (by simpa using hlen)⟩

theorem PreQ_run (W C N : Nat) (hN : 0 < N) (hC : 0 < C) (calls : List Call) :
    ∀ (w : World) (names : List (List Byte)) (g : Nat → List Byte),
      PreQ W C N names g w.mem w.files →
      (∀ name ∈ newNames calls, Fits W name) →
      (names ++ newNames calls).Nodup →
      ∃ w1, World.run W C w calls = some w1 ∧
        PreQ W C N (names ++ newNames calls)
          (calls.foldl record (w.files.length, g)).2 w1.mem w1.files := by
  induction calls with
  | nil =>
    intro w names g h _ _
    exact ⟨w, rfl, by simpa [newNames] using h⟩
  | cons c cs ih =>
    intro w names g h hfit hnd
    cases c with
    | new name =>
      simp only [newNames] at hfit hnd
      have hnew : name ∉ names := by
        intro hmem
        have := List.nodup_append.1 hnd
        exact this.2.2 hmem (List.mem_cons_self _ _)
      have hq := PreQ_new W C N hN names g w.mem w.files name h
        (hfit name (List.mem_cons_self _ _)) hnew
      obtain ⟨w2, h3, h4⟩ := ih
        { mem := (buffer_file_new W C w.mem name).1,
          files := w.files ++ [(buffer_file_new W C w.mem name).2] }
        (names ++ [name]) g hq
        (fun x hx => hfit x (List.mem_cons_of_mem _ hx))
        (by simpa using hnd)
      refine ⟨w2, by simp only [World.run, World.call, h3], ?_⟩
      simpa [newNames, record] using h4
    | append j str =>
      simp only [newNames] at hfit hnd
      rcases hf : w.files[j]? with _ | file
      · have hj : ¬ j < w.files.length := by
          intro hlt
          rw [List.getElem?_eq_getElem hlt] at hf
          cases hf
        obtain ⟨w2, h3, h4⟩ := ih w names g h hfit hnd
        refine ⟨w2, by simp only [World.run, World.call, hf, h3], ?_⟩
        simpa [newNames, record, hj] using h4
      · have hj : j < w.files.length := lt_of_getElem?_some _ _ _ hf
        obtain ⟨r, hr, hq⟩ := append_lift W C hC (PreQ W C N names) (PreQ_basic W C N names)
          (PreQ_iter W C N names) g w.mem w.files j file str h hf
        obtain ⟨w2, h3, h4⟩ := ih { mem := r.1, files := w.files.set j r.2 } names _ hq hfit hnd
        refine ⟨w2, by simp only [World.run, World.call, hf, hr, h3], ?_⟩
        simpa [newNames, record, hj] using h4

theorem multi_stream_layout (W C N : Nat) (hN : 0 < N) (hC : 0 < C) (calls : List Call)
    (hfit : ∀ name ∈ newNames calls, Fits W name) (hnd : (newNames calls).Nodup) :
    ∃ w, World.run W C (World.empty N) calls = some w ∧
      w.files.map (fun f => f.dest) = newNames calls ∧
      ∀ (i : Nat) (f : BufferFile), w.files[i]? = some f →
        (∃ rest, appended calls i
          = streamBytes (w.mem.bm.populated.take (N - 1)) (strncpy W f.dest) ++ rest) ∧
        (f.cur + 1 < N →
          streamBytes w.mem.bm.populated (strncpy W f.dest) = appended calls i) := by
  obtain ⟨w, hrun, pop, k, hm, hlen, hnames, hp⟩ := PreQ_run W C N hN hC calls (World.empty N)
    [] (fun _ => []) (PreQ_empty W C N) hfit (by simpa using hnd)
  refine ⟨w, hrun, by simpa using hnames, ?_⟩
  intro i f hf
  rw [hm, ofPop_populated]
  have hg : (calls.foldl record ((World.empty N).files.length, fun _ => [])).2
      = appended calls := by
    funext x; simp [appended, World.empty]
  rw [hg] at hp
  refine ⟨?_, fun hfa => hp.bytes i f hf hfa⟩
  by_cases hfa : f.cur + 1 < N
  · have hsplit : streamBytes pop (strncpy W f.dest)
        = streamBytes (pop.take (N - 1)) (strncpy W f.dest)
          ++ streamBytes (pop.drop (N - 1)) (strncpy W f.dest) := by
      rw [← streamBytes_append, List.take_append_drop]
    exact ⟨_, by rw [← hp.bytes i f hf hfa, hsplit]⟩
  · exact hp.frozen i f hf (by omega)

/-- C2, capacity invariant. Starting from an empty map with `N ≥ 1` slots and
chunk capacity `C ≥ 1`, every finite sequence of `buffer_file_new` and
`buffer_file_append` calls (any number of files, any byte lengths, overflowing
or not) runs to completion, and in the collector it leaves the slot array
still has `N` slots, `max_chunk ≤ N`, and every chunk held by a slot has
`length ≤ C`. -/
theorem capacity_invariant (W C N : Nat) (hN : 0 < N) (hC : 0 < C) (calls : List Call) :
    ∃ w, World.run W C (World.empty N) calls = some w ∧
      w.mem.bm.chunks.length = N ∧
      w.mem.bm.max_chunk ≤ N ∧
      ∀ (i : Nat) (c : Chunk), w.mem.bm.chunks[i]? = some (some c) → c.length ≤ C := by
  obtain ⟨w, hrun, pop, k, hm, hlen, hcap, _⟩ :=
    World.run_ok W C N hN hC calls (World.empty N) (World.empty_ok C N)
  refine ⟨w, hrun, ?_, ?_, ?_⟩
  · rw [hm, ofPop_length]; exact hlen
  · rw [hm]; simp only [BufferMap.ofPop]; omega
  · intro i c hc
    rw [hm] at hc
    exact hcap c (ofPop_mem_of_getElem? pop k i c hc)

/-- Witness for C2: one slot of capacity 2, two files, an append that
overflows the map twice over. -/
theorem capacity_invariant_witness :
    0 < 1 ∧ 0 < 2 ∧
    ∃ w, World.run 2 2 (World.empty 1)
        [Call.new [120], Call.new [121], Call.append 1 [7, 8, 9, 10, 11]] = some w ∧
      w.mem.bm.chunks.length = 1 ∧
      w.mem.bm.max_chunk ≤ 1 ∧
      ∀ (i : Nat) (c : Chunk), w.mem.bm.chunks[i]? = some (some c) → c.length ≤ 2 :=
  ⟨by decide, by decide, capacity_invariant 2 2 1 (by decide) (by decide) _⟩

/-- C3 fails as stated once the map overflows: with a single slot, the second
file is handed the chunk of the first, whose `dest_stream` still reads
`"x"` while the file's own name is `"y"`. -/
theorem stream_tag_lost_on_overflow :
    World.run 2 2 (World.empty 1) [Call.new [120], Call.new [121]] =
      some { mem := { bm := { chunks := [some { dest_stream := [120, 0], length := 0,
                                                data := [0, 0] }],
                              max_chunk := 1 },
                      overflowed := true },
             files := [{ dest := [120], cur := 0 }, { dest := [121], cur := 0 }] } ∧
    cstr [120, 0] ≠ [121] ∧ ([120, 0] : List Byte) ≠ strncpy 2 [121] := by
  decide

/-- C3 as amended. From an empty map with `N ≥ 1` slots and capacity `C ≥ 1`,
every sequence of `buffer_file_new` / `buffer_file_append` calls runs to
completion, and afterwards the current chunk `file->cur` of every file created
is populated; if `chunk_alloc` has not overflowed in the sequence, or if the
current chunk of the file is not in the last slot, then its `dest_stream`
field holds the file's name as `strncpy` stores it (NUL-padded, cut at the
field width); for a name that fits the field, the string in `dest_stream` is
the name itself. -/
theorem stream_tag_invariant (W C N : Nat) (hN : 0 < N) (hC : 0 < C) (calls : List Call) :
    ∃ w, World.run W C (World.empty N) calls = some w ∧
      ∀ f ∈ w.files, ∃ c, w.mem.bm.chunks[f.cur]? = some (some c) ∧
        (w.mem.overflowed = false ∨ f.cur + 1 < N →
          c.dest_stream = strncpy W f.dest ∧
          (Fits W f.dest → cstr c.dest_stream = f.dest)) := by
  obtain ⟨w, hrun, pop, k, hm, _, hcur, htag⟩ := TagQ_run W C N hN hC calls (World.empty N)
    ⟨[], N, by simp [World.empty, Mem.empty, BufferMap.ofPop], by simp,
      by simp [World.empty], by simp [World.empty]⟩
  refine ⟨w, hrun, fun f hf => ?_⟩
  obtain ⟨c, hc⟩ := getElem?_of_lt pop f.cur (hcur f hf)
  refine ⟨c, by rw [hm]; exact ofPop_getElem? pop k f.cur c hc, fun hov => ?_⟩
  obtain ⟨c1, hc1, hct⟩ := htag f hf hov
  rw [hc] at hc1
  simp only [Option.some.injEq] at hc1
  subst hc1
  exact ⟨hct, fun hfit => by rw [hct]; exact cstr_strncpy W f.dest hfit⟩

/-- Witness for the amended C3: two streams on three slots of capacity 2. The
second stream fills its chunk twice and the map overflows; the first file,
whose chunk is in slot 0, still points to a chunk carrying its name. -/
theorem stream_tag_invariant_witness :
    ∃ w, World.run 3 2 (World.empty 3)
        [Call.new [120], Call.new [121], Call.append 1 [1, 2], Call.append 1 [3, 4]] = some w ∧
      w.mem.overflowed = true ∧ w.files[0]? = some { dest := [120], cur := 0 } ∧
      ∀ f ∈ w.files, ∃ c, w.mem.bm.chunks[f.cur]? = some (some c) ∧
        (w.mem.overflowed = false ∨ f.cur + 1 < 3 →
          c.dest_stream = strncpy 3 f.dest ∧
          (Fits 3 f.dest → cstr c.dest_stream = f.dest)) := by
  obtain ⟨w, hrun, h⟩ := stream_tag_invariant 3 2 3 (by decide) (by decide)
    [Call.new [120], Call.new [121], Call.append 1 [1, 2], Call.append 1 [3, 4]]
  have hov : (World.run 3 2 (World.empty 3)
      [Call.new [120], Call.new [121], Call.append 1 [1, 2], Call.append 1 [3, 4]]).map
      (fun x => (x.mem.overflowed, x.files[0]?))
        = some (true, some { dest := [120], cur := 0 }) := by decide
  rw [hrun] at hov
  simp only [Option.map_some', Option.some.injEq, Prod.mk.injEq] at hov
  exact ⟨w, hrun, hov.1, hov.2, h⟩

/-- C4 fails as stated. With one slot of capacity 2 and two streams, the byte
appended to the second stream lands in the chunk tagged with the first: the
file of the first stream, to which nothing was appended, holds it. With two
slots and a single stream, seven bytes leave the first, the second and the
seventh: a piece of the stream that is neither its beginning nor its end nor
contiguous. -/
theorem overflow_mixes_streams :
    (World.run 2 2 (World.empty 1)
        [Call.new [120], Call.new [121], Call.append 1 [89]]).map
      (fun w => streamBytes w.mem.bm.populated (strncpy 2 [120])) = some [89] ∧
    appended [Call.new [120], Call.new [121], Call.append 1 [89]] 0 = [] ∧
    appended [Call.new [120], Call.new [121], Call.append 1 [89]] 1 = [89] ∧
    (World.run 2 2 (World.empty 2)
        [Call.new [120], Call.append 0 [1, 2, 3, 4, 5, 6, 7]]).map
      (fun w => streamBytes w.mem.bm.populated (strncpy 2 [120])) = some [1, 2, 7] ∧
    appended [Call.new [120], Call.append 0 [1, 2, 3, 4, 5, 6, 7]] 0
      = [1, 2, 3, 4, 5, 6, 7] ∧
    ¬ (([1, 2, 7] : List Byte) <:+: [1, 2, 3, 4, 5, 6, 7]) := by
  decide

/-- C4 as amended, overflow lossiness with the damage confined to the last
slot. On a map of `N ≥ 1` slots of capacity `C ≥ 1`, for every sequence of
`buffer_file_new` / `buffer_file_append` calls over streams with pairwise
distinct names that fit the name field, overflow included, every call returns
and the files created carry the names in order of creation; for every file,
the valid bytes of the chunks tagged with its name in the slots before the
last, in slot order, are the first bytes of what was appended to that file,
and if the current chunk of the file is not in the last slot, the valid bytes
of the chunks tagged with its name in all slots are exactly what was appended
to it. When one file is the only writer, then after any sequence of appends,
`T` bytes in all, the map has overflowed exactly when `T ≥ N * C`, and the
bytes a dump assigns to the stream are the first `min (N - 1, T / C) * C`
bytes appended followed by the bytes appended after the last multiple of
`C`. -/
theorem overflow_confined_to_last_slot (W C N : Nat) (calls : List Call) (name : List Byte)
    (strs : List (List Byte)) (hN : 0 < N) (hC : 0 < C) :
    ((∀ n ∈ newNames calls, Fits W n) → (newNames calls).Nodup →
      ∃ w, World.run W C (World.empty N) calls = some w ∧
        w.files.map (fun f => f.dest) = newNames calls ∧
        ∀ (i : Nat) (f : BufferFile), w.files[i]? = some f →
          (∃ rest, appended calls i
            = streamBytes (w.mem.bm.populated.take (N - 1)) (strncpy W f.dest) ++ rest) ∧
          (f.cur + 1 < N →
            streamBytes w.mem.bm.populated (strncpy W f.dest) = appended calls i)) ∧
    (∃ w, World.run W C (World.empty N) (Call.new name :: strs.map (Call.append 0)) = some w ∧
      streamBytes w.mem.bm.populated (strncpy W name)
        = strs.flatten.take (min (N - 1) (strs.flatten.length / C) * C)
          ++ strs.flatten.drop (strs.flatten.length / C * C) ∧
      (w.mem.overflowed = true ↔ N * C ≤ strs.flatten.length)) :=
  ⟨fun hfit hnd => multi_stream_layout W C N hN hC calls hfit hnd,
    single_stream_bytes W C N name strs hN hC⟩

/-- Witness for the amended C4. Two streams on three slots of capacity 2: the
second stream overflows the map, then the first is handed the last slot, and
the slots before the last hold the first two bytes of each stream. One stream
on two slots of capacity 2, seven bytes in two appends. -/
theorem overflow_confined_to_last_slot_witness :
    (∃ w, World.run 3 2 (World.empty 3)
        [Call.new [120], Call.new [121], Call.append 1 [1, 2], Call.append 1 [3, 4],
          Call.append 0 [5, 6, 7]] = some w ∧
      w.files.map (fun f => f.dest)
        = newNames [Call.new [120], Call.new [121], Call.append 1 [1, 2],
            Call.append 1 [3, 4], Call.append 0 [5, 6, 7]] ∧
      ∀ (i : Nat) (f : BufferFile), w.files[i]? = some f →
        (∃ rest, appended [Call.new [120], Call.new [121], Call.append 1 [1, 2],
            Call.append 1 [3, 4], Call.append 0 [5, 6, 7]] i
          = streamBytes (w.mem.bm.populated.take (3 - 1)) (strncpy 3 f.dest) ++ rest) ∧
        (f.cur + 1 < 3 →
          streamBytes w.mem.bm.populated (strncpy 3 f.dest)
            = appended [Call.new [120], Call.new [121], Call.append 1 [1, 2],
                Call.append 1 [3, 4], Call.append 0 [5, 6, 7]] i)) ∧
    (∃ w, World.run 3 2 (World.empty 2)
        (Call.new [120] :: [[1, 2, 3], [4, 5, 6, 7]].map (Call.append 0)) = some w ∧
      streamBytes w.mem.bm.populated (strncpy 3 [120])
        = ([[1, 2, 3], [4, 5, 6, 7]] : List (List Byte)).flatten.take
            (min (2 - 1) (([[1, 2, 3], [4, 5, 6, 7]] : List (List Byte)).flatten.length / 2) * 2)
          ++ ([[1, 2, 3], [4, 5, 6, 7]] : List (List Byte)).flatten.drop
            (([[1, 2, 3], [4, 5, 6, 7]] : List (List Byte)).flatten.length / 2 * 2) ∧
      (w.mem.overflowed = true ↔
        2 * 2 ≤ ([[1, 2, 3], [4, 5, 6, 7]] : List (List Byte)).flatten.length)) :=
  ⟨(overflow_confined_to_last_slot 3 2 3
      [Call.new [120], Call.new [121], Call.append 1 [1, 2], Call.append 1 [3, 4],
        Call.append 0 [5, 6, 7]] [120] [] (by decide) (by decide)).1 (by decide) (by decide),
    (overflow_confined_to_last_slot 3 2 2 [] [120] [[1, 2, 3], [4, 5, 6, 7]]
      (by decide) (by decide)).2⟩

/-- C5, overflow idempotence. On a map with `max_chunk == N` whose last slot
holds a chunk `c`, any non-empty series of `chunk_alloc` requests, for any
stream names, leaves `max_chunk == N` and the slot array of length `N`,
returns the pointer of slot `N - 1` every time, leaves in slot `N - 1` the
chunk `c` with `length` reset to 0 (name field and data untouched), and leaves
every other slot exactly as it was. A single request is the series of one. -/
theorem overflow_idempotence (W C : Nat) (m : Mem) (c : Chunk) (d : List Byte)
    (ds : List (List Byte))
    (hfull : m.bm.max_chunk = m.bm.chunks.length)
    (hlast : m.bm.chunks[m.bm.chunks.length - 1]? = some (some c)) :
    (allocs W C m (d :: ds)).1.bm.max_chunk = m.bm.chunks.length ∧
    (allocs W C m (d :: ds)).1.bm.chunks.length = m.bm.chunks.length ∧
    (allocs W C m (d :: ds)).2 = List.replicate (ds.length + 1) (m.bm.chunks.length - 1) ∧
    (allocs W C m (d :: ds)).1.bm.chunks[m.bm.chunks.length - 1]? =
      some (some { dest_stream := c.dest_stream, length := 0, data := c.data }) ∧
    (∀ i, i ≠ m.bm.chunks.length - 1 →
      (allocs W C m (d :: ds)).1.bm.chunks[i]? = m.bm.chunks[i]?) ∧
    (chunk_alloc W C m d).2 = m.bm.chunks.length - 1 ∧
    (chunk_alloc W C m d).1 = (allocs W C m [d]).1 :=
  have h := allocs_full W C ds m d c hfull hlast
  ⟨h.1, h.2.1, h.2.2.1, h.2.2.2.1, h.2.2.2.2,
    by rw [chunk_alloc_full W C m d hfull], rfl⟩

/-- Witness for C5: a full map of two slots, three allocation requests. -/
theorem overflow_idempotence_witness :
    (allocs 2 2
      { bm := { chunks := [some { dest_stream := [120, 0], length := 2, data := [1, 2] },
                           some { dest_stream := [121, 0], length := 1, data := [3, 0] }],
                max_chunk := 2 },
        overflowed := false } [[120], [121], [122]]).2 = [1, 1, 1] :=
  (overflow_idempotence 2 2
      { bm := { chunks := [some { dest_stream := [120, 0], length := 2, data := [1, 2] },
                           some { dest_stream := [121, 0], length := 1, data := [3, 0] }],
                max_chunk := 2 },
        overflowed := false }
      { dest_stream := [121, 0], length := 1, data := [3, 0] } [120] [[121], [122]]
      rfl rfl).2.2.1

/-- C6, dump reply shape. For a map whose first `count` slots hold the chunks
`pop` and whose other slots are `NULL`, any `Arguments`, and an accepted
connection on which a complete 4-byte command equal to `CMD_DUMP_AND_EXIT`
arrives and whose writes do not fail, `collector_handle` returns 1, closes the
connection, and sends exactly the `DaemonFlags` record carrying
`args->relative_time` followed by the full memory images of `chunks[0]`, ...,
`chunks[count-1]` in index order, each `sizeof (Chunk)` bytes long, and
nothing else. (`collector_send_dump` visits every slot of the array; for the
`NULL` ones `write` fails with `EFAULT` and sends nothing.) -/
theorem dump_reply_shape (pop : List Chunk) (k : Nat) (args : Arguments) (conn : Conn)
    (cmd0 : List Byte) (hcmd0 : cmd0.length = 4)
    (hread : 4 ≤ (delivered conn.rx).length)
    (hcode : leValue ((delivered conn.rx).take 4) = CMD_DUMP_AND_EXIT)
    (htx : WriteEv.err ∉ conn.tx) :
    ∃ conn1, collector_handle (some conn) (BufferMap.ofPop pop k) args cmd0
        = some (1, some conn1) ∧
      conn1.sent = conn.sent ++ flagsImage { relative_time := args.relative_time }
        ++ pop.flatMap chunkImage ∧
      conn1.closed = true ∧
      (flagsImage { relative_time := args.relative_time }).length = sizeofFlags ∧
      ∀ (W C : Nat) (c : Chunk), c ∈ pop → c.dest_stream.length = W → c.data.length = C →
        (chunkImage c).length = sizeofChunk W C := by
  obtain ⟨conn1, h1, h2, h3⟩ := collector_handle_dump pop k args conn cmd0 hcmd0 hread hcode htx
  exact ⟨conn1, h1, h2, h3, leBytes_length 4 _, fun W C c _ hW hC => chunkImage_length W C c hW hC⟩

/-- Witness for C6: two populated slots out of three, the command arriving in
two segments, short writes and an interruption on the way out. -/
theorem dump_reply_shape_witness :
    ∃ conn1, collector_handle
        (some { rx := [ReadEv.seg [1, 0], ReadEv.eintr, ReadEv.seg [0, 0]],
                tx := [WriteEv.took 1, WriteEv.eintr, WriteEv.took 5], sent := [],
                closed := false })
        (BufferMap.ofPop [{ dest_stream := [120, 0], length := 2, data := [65, 66] },
                          { dest_stream := [121, 0], length := 1, data := [67, 0] }] 1)
        { relative_time := 1 } [9, 9, 9, 9] = some (1, some conn1) ∧
      conn1.sent = [] ++ flagsImage { relative_time := 1 }
        ++ [{ dest_stream := [120, 0], length := 2, data := [65, 66] },
            { dest_stream := [121, 0], length := 1, data := [67, 0] }].flatMap chunkImage ∧
      conn1.closed = true :=
  have h := dump_reply_shape
    [{ dest_stream := [120, 0], length := 2, data := [65, 66] },
     { dest_stream := [121, 0], length := 1, data := [67, 0] }] 1 { relative_time := 1 }
    { rx := [ReadEv.seg [1, 0], ReadEv.eintr, ReadEv.seg [0, 0]],
      tx := [WriteEv.took 1, WriteEv.eintr, WriteEv.took 5], sent := [], closed := false }
    [9, 9, 9, 9] (by decide) (by decide) (by decide) (by decide)
  match h with
  | ⟨conn1, h1, h2, h3, _⟩ => ⟨conn1, h1, h2, h3⟩

/-- C7 fails on the code: a client that connects and closes without sending a
byte makes `read_all` return 0, which passes the `< 0` test, so the `switch`
reads the automatic variable `cmd` that nothing has written. When the stale
word is 1 the server sends the flags record and every chunk and returns 1;
with another stale word it sends nothing and returns 0. -/
theorem handle_dumps_on_empty_request :
    read_all [ReadEv.seg []] [1, 0, 0, 0] 4 = some (0, [1, 0, 0, 0], [ReadEv.seg []]) ∧
    collector_handle (some { rx := [ReadEv.seg []], tx := [], sent := [], closed := false })
        (BufferMap.ofPop [{ dest_stream := [120, 0], length := 1, data := [65, 0] }] 1)
        { relative_time := 0 } [1, 0, 0, 0]
      = some (1, some { rx := [ReadEv.seg []], tx := [],
                        sent := [0, 0, 0, 0, 120, 0, 1, 0, 0, 0, 0, 0, 0, 0, 65, 0],
                        closed := true }) ∧
    collector_handle (some { rx := [ReadEv.seg []], tx := [], sent := [], closed := false })
        (BufferMap.ofPop [{ dest_stream := [120, 0], length := 1, data := [65, 0] }] 1)
        { relative_time := 0 } [2, 0, 0, 0]
      = some (0, some { rx := [ReadEv.seg []], tx := [], sent := [], closed := true }) := by
  decide

/-- C8 fails as stated: on an empty map of three slots with capacity 2, the
append of exactly 2 bytes to a fresh file calls `chunk_alloc` itself:
`max_chunk` goes from 1 to 2 and the current chunk is the new, empty one. -/
theorem exact_capacity_allocates_at_once :
    (buffer_file_new 2 2 (Mem.empty 3) [120]).1.bm.max_chunk = 1 ∧
    buffer_file_append 2 2 (buffer_file_new 2 2 (Mem.empty 3) [120]).1
        (buffer_file_new 2 2 (Mem.empty 3) [120]).2 [1, 2] =
      some ({ bm := { chunks := [some { dest_stream := [120, 0], length := 2, data := [1, 2] },
                                 some { dest_stream := [120, 0], length := 0, data := [0, 0] },
                                 none],
                      max_chunk := 2 },
              overflowed := false },
            { dest := [120], cur := 1 }) := by
  decide

/-- C8 as amended. On a map with at least two spare slots, a file freshly
created by `buffer_file_new` takes slot `max_chunk`; a single
`buffer_file_append` of exactly `C` bytes returns, leaves that first chunk
with `length == C` and the appended bytes as its data, and has called
`chunk_alloc` within the same call: `max_chunk` has grown by one and the
current chunk of the file is the new chunk, empty and tagged with the stream. -/
theorem exact_capacity_boundary (W C : Nat) (pop : List Chunk) (k : Nat) (o : Bool)
    (name str : List Byte) (hlen : str.length = C) :
    (buffer_file_new W C { bm := BufferMap.ofPop pop (k + 2), overflowed := o } name).1.bm.max_chunk
      = pop.length + 1 ∧
    (buffer_file_new W C { bm := BufferMap.ofPop pop (k + 2), overflowed := o } name).2
      = { dest := name, cur := pop.length } ∧
    ∃ m2 f2,
      buffer_file_append W C
        (buffer_file_new W C { bm := BufferMap.ofPop pop (k + 2), overflowed := o } name).1
        (buffer_file_new W C { bm := BufferMap.ofPop pop (k + 2), overflowed := o } name).2 str
        = some (m2, f2) ∧
      m2.bm.max_chunk = pop.length + 2 ∧
      m2.bm.chunks[pop.length]? =
        some (some { dest_stream := strncpy W name, length := C, data := str }) ∧
      f2 = { dest := name, cur := pop.length + 1 } ∧
      m2.bm.chunks[pop.length + 1]? = some (some (freshChunk W C name)) ∧
      m2.overflowed = o := by
  simp only [buffer_file_new]
  rw [chunk_alloc_ofPop_spare]
  refine ⟨by simp [BufferMap.ofPop], rfl, ?_⟩
  have hc : (pop ++ [freshChunk W C name])[pop.length]? = some (freshChunk W C name) := by simp
  have hw : min (C - (freshChunk W C name).length) str.length = C := by
    simp [freshChunk, hlen]
  have hiter := append_iter_spare W C (pop ++ [freshChunk W C name]) k o
    { dest := name, cur := pop.length } str (freshChunk W C name) hc (by rw [hw]; simp)
  rw [hw] at hiter
  have hdrop : str.drop C = [] := by rw [← hlen]; simp
  have htake : str.take C = str := by rw [← hlen]; simp
  rw [hdrop, htake] at hiter
  unfold buffer_file_append
  rw [loop_succ, hiter]
  refine ⟨_, _, rfl, by simp [BufferMap.ofPop], ?_, by simp, ?_, rfl⟩
  · rw [set_concat_last, List.append_assoc, List.singleton_append,
      ofPop_getElem? _ _ _ (chunkWrite (freshChunk W C name) str) (getElem?_concat0 _ _ _)]
    simp [chunkWrite, freshChunk, memcpy_fresh C str hlen, hlen]
  · rw [set_concat_last, List.append_assoc, List.singleton_append,
      ofPop_getElem? _ _ _ (freshChunk W C name) (getElem?_concat1 _ _ _ _)]

/-- Witness for the amended C8: capacity 3, an empty map of two slots. -/
theorem exact_capacity_boundary_witness :
    ([1, 2, 3] : List Byte).length = 3 ∧
    ∃ m2 f2,
      buffer_file_append 2 3
        (buffer_file_new 2 3 { bm := BufferMap.ofPop [] 2, overflowed := false } [120]).1
        (buffer_file_new 2 3 { bm := BufferMap.ofPop [] 2, overflowed := false } [120]).2
        [1, 2, 3] = some (m2, f2) ∧
      m2.bm.max_chunk = 2 ∧
      m2.bm.chunks[0]? =
        some (some { dest_stream := strncpy 2 [120], length := 3, data := [1, 2, 3] }) ∧
      f2 = { dest := [120], cur := 1 } ∧
      m2.bm.chunks[1]? = some (some (freshChunk 2 3 [120])) ∧
      m2.overflowed = false :=
  ⟨by decide,
    (exact_capacity_boundary 2 3 [] 0 false [120] [1, 2, 3] (by decide)).2.2⟩

/-- C9, append splitting layout. For every capacity `C ≥ 1`, every map size
`N ≥ 1` and every sequence of byte strings appended to one file freshly
created on the empty map, every call returns, having consumed its input, and
if `chunk_alloc` has not overflowed then the populated chunks, all tagged with
the stream and taken in slot order, each restricted to `data[0..length)`,
concatenate to exactly the appended bytes, and every chunk that has a later
chunk holds exactly `C` valid bytes. -/
theorem append_splitting_layout (W C N : Nat) (name : List Byte) (strs : List (List Byte))
    (hN : 0 < N) (hC : 1 ≤ C) :
    ∃ w, World.run W C (World.empty N) (Call.new name :: strs.map (Call.append 0)) = some w ∧
      (w.mem.overflowed = false →
        w.mem.bm.populated.flatMap Chunk.payload = strs.flatten ∧
        (∀ c ∈ w.mem.bm.populated, c.dest_stream = strncpy W name) ∧
        ∀ (i : Nat) (c : Chunk), w.mem.bm.populated[i]? = some c →
          i + 1 < w.mem.bm.populated.length → c.length = C) := by
  obtain ⟨w, full, last, e, hrun, hpop, _, hT, _, _, _, hov, hfull, hpay, hfullC, hshape⟩ :=
    single_stream_layout W C N hN hC name strs
  refine ⟨w, hrun, fun hno => ?_⟩
  have he : e = full.length := hov.1 hno
  rw [hpop]
  refine ⟨?_, fun c hc => (hshape c hc).1, ?_⟩
  · rw [List.flatMap_append, hfull]
    simp only [List.flatMap_cons, List.flatMap_nil, List.append_nil]
    rw [hpay, he, List.take_append_drop]
  · intro i c hc hi
    simp only [List.length_append, List.length_singleton] at hi
    rw [List.getElem?_append_left (by omega)] at hc
    exact hfullC c (List.getElem?_mem hc)

/-- Witness for C9, the scenario of the specification: capacity 6, `"AAAA"`
then `"BBBB"` leave, without overflow, a first chunk `"AAAABB"` and a second
chunk `"BB"`, which concatenate to `"AAAABBBB"`. -/
theorem append_splitting_layout_witness :
    ∃ w, World.run 2 6 (World.empty 3)
        (Call.new [120] :: [[65, 65, 65, 65], [66, 66, 66, 66]].map (Call.append 0)) = some w ∧
      w.mem.overflowed = false ∧
      w.mem.bm.populated.map Chunk.payload = [[65, 65, 65, 65, 66, 66], [66, 66]] ∧
      w.mem.bm.populated.flatMap Chunk.payload = [65, 65, 65, 65, 66, 66, 66, 66] ∧
      (∀ c ∈ w.mem.bm.populated, c.dest_stream = strncpy 2 [120]) ∧
      ∀ (i : Nat) (c : Chunk), w.mem.bm.populated[i]? = some c →
        i + 1 < w.mem.bm.populated.length → c.length = 6 := by
  obtain ⟨w, hrun, h⟩ := append_splitting_layout 2 6 3 [120]
    [[65, 65, 65, 65], [66, 66, 66, 66]] (by decide) (by decide)
  have hev : (World.run 2 6 (World.empty 3)
      (Call.new [120] :: [[65, 65, 65, 65], [66, 66, 66, 66]].map (Call.append 0))).map
      (fun x => (x.mem.overflowed, x.mem.bm.populated.map Chunk.payload))
      = some (false, [[65, 65, 65, 65, 66, 66], [66, 66]]) := by decide
  rw [hrun] at hev
  simp only [Option.map_some', Option.some.injEq, Prod.mk.injEq] at hev
  obtain ⟨h1, h2, h3⟩ := h hev.1
  exact ⟨w, hrun, hev.1, hev.2, h1, h2, h3⟩

/-- C10 fails as stated for lengths `int` cannot hold: asked for `2 ^ 31`
bytes and handed all of them in two reads of `2 ^ 30` bytes, `read_all` has
stored the whole record, for which the framing rule reports `len`, yet the
value it returns is `-2147483648`, a failure to its callers. -/
theorem read_all_int_wraps :
    read_all_spec
        [ReadEv.seg (List.replicate 1073741824 0), ReadEv.seg (List.replicate 1073741824 0)]
        2147483648 = some 2147483648 ∧
    ∃ buf rest, read_all
        [ReadEv.seg (List.replicate 1073741824 0), ReadEv.seg (List.replicate 1073741824 0)]
        [] 2147483648 = some (-2147483648, buf, rest) :=
  ⟨read_all_spec_pair 1073741823 1073741823 0, read_all_pair 1073741823 1073741823 0⟩

/-- C10 as amended, record framing of `read_all` for `0 < len ≤ INT_MAX`.
Whatever the underlying `read` calls meet, the value `read_all` returns is the
one the framing rule of the specification gives (`read_all_spec`): `len`
exactly when `len` bytes arrive before any end of stream or error, `0` exactly
when the stream ends before any byte, `-1` when it ends inside the record or
an error other than `EINTR` occurs, and no return while the peer neither sends
nor closes. When it returns `len`, the first `len` bytes of the buffer are the
bytes delivered, in order. A `read` interrupted by a signal is retried. -/
theorem read_all_framing (rx : List ReadEv) (buf : List Byte) (len : Nat) (hpos : 0 < len)
    (hint : len < 2 ^ 31) :
    (read_all rx buf len).map (fun r => r.1) = read_all_spec rx len ∧
    (len ≤ (delivered rx).length → ∃ rest, read_all rx buf len =
      some ((len : Int), (delivered rx).take len ++ buf.drop len, rest)) ∧
    read_all (ReadEv.eintr :: rx) buf len = read_all rx buf len := by
  refine ⟨read_all_refines rx buf len hpos hint, fun h => ?_, ?_⟩
  · obtain ⟨rest, hr⟩ := read_all_complete rx buf len hpos h
    rw [toInt32_of_lt len hint] at hr
    exact ⟨rest, hr⟩
  · have hne : len ≠ 0 := by omega
    simp [read_all, read_all_loop, hne]

/-- Witness for the amended C10: a record of 4 bytes arriving in two
segments around an interruption. -/
theorem read_all_framing_witness :
    0 < 4 ∧ 4 < 2 ^ 31 ∧
    (read_all [ReadEv.seg [1, 0], ReadEv.eintr, ReadEv.seg [0, 0, 9]] [7, 7, 7, 7] 4).map
        (fun r => r.1)
      = read_all_spec [ReadEv.seg [1, 0], ReadEv.eintr, ReadEv.seg [0, 0, 9]] 4 :=
  ⟨by decide, by decide,
    (read_all_framing [ReadEv.seg [1, 0], ReadEv.eintr, ReadEv.seg [0, 0, 9]] [7, 7, 7, 7] 4
      (by decide) (by decide)).1⟩

end Bootchart
